import Mathlib

/-!
# A verification model of the v6 LSM key/value storage engine

This file is a shallow embedding of the v6 storage engine of the kv-store
repository: the Bloom filter, the binary (CRC32-framed) write-ahead log, the
skip-list backed memtable with its byte-size accounting, the plaintext
SSTable writer and reader, the tier merger, and the store facade, together
with theorems settling the frozen specification claims C1..C10.

Modelling conventions, used throughout:

* Go `byte` is `Nat` (all engine data keeps values below 256); `[]byte` and
  `string` are `List Nat`.  Go string comparison and `bytes.Compare` induce
  the same lexicographic order, modelled once as `bytesCompare`.
* Fallible Go code (errors, panics) returns `Option`/`Except`; a Go panic is
  a `none`/distinguished error, never a default value.
* Go `uint32`/`int64` arithmetic is `Nat` arithmetic with explicit
  `% 4294967296` where the code can wrap.
* The skip list is modelled by its observable contents: a strictly sorted
  association list.  Tower heights are drawn from a runtime random source and
  affect only the shape of the probabilistic structure, not the results of
  `Find`/`Insert`/`Delete`/in-order iteration, which are what every caller
  (memtable, flush, merge) observes.
* The only float computation in the engine (Bloom sizing) is modelled by
  exact rational arithmetic on the same formula; the modelling error is
  documented at the definition site.
-/

set_option maxRecDepth 100000

set_option maxHeartbeats 2000000

namespace KV

instance {ε α : Type} [DecidableEq ε] [DecidableEq α] : DecidableEq (Except ε α) := fun x y =>
  match x, y with
  | .ok a, .ok b =>
    if h : a = b then isTrue (by rw [h]) else isFalse (by intro hh; cases hh; exact h rfl)
  | .error a, .error b =>
    if h : a = b then isTrue (by rw [h]) else isFalse (by intro hh; cases hh; exact h rfl)
  | .ok _, .error _ => isFalse (by intro hh; cases hh)
  | .error _, .ok _ => isFalse (by intro hh; cases hh)

/-- Bytes are Go `byte` values; byte strings (`[]byte` / `string`) are lists. -/
abbrev Bytes := List Nat

/-- Model of Go `bytes.Compare` (lexicographic byte order, result -1/0/1).
Go string relational operators induce the same order. -/
def bytesCompare : Bytes → Bytes → Int
  | [], [] => 0
  | [], _ :: _ => -1
  | _ :: _, [] => 1
  | a :: as, b :: bs =>
    if a < b then -1 else if b < a then 1 else bytesCompare as bs

/-- First split of a byte string at a separator byte, with the remainder. -/
def splitOnce (sep : Nat) : Bytes → Option (Bytes × Bytes)
  | [] => none
  | c :: rest =>
    if c = sep then some ([], rest)
    else (splitOnce sep rest).map (fun p => (c :: p.1, p.2))

/-- Model of Go `strings.SplitN(s, sep, 2)` for a one-byte separator. -/
def splitN2 (sep : Nat) (s : Bytes) : List Bytes :=
  match splitOnce sep s with
  | none => [s]
  | some (a, b) => [a, b]

/-- Go `bufio.ScanLines` drops one trailing carriage return from each line. -/
def dropCR (s : Bytes) : Bytes :=
  if s.getLast? = some 13 then s.dropLast else s

/-- The line loop with explicit fuel (structural recursion, so that the
kernel can evaluate it; every call site passes more fuel than the input
length, which `goLinesGo_fuel` shows is enough). -/
def goLinesGo : Nat → Bytes → List Bytes
  | 0, _ => []
  | fuel + 1, s =>
    match splitOnce 10 s with
    | none => if s = [] then [] else [dropCR s]
    | some (a, b) => dropCR a :: goLinesGo fuel b

/-- Model of a Go `bufio.Scanner` with the default `ScanLines` split: the
newline-separated tokens of the input, each with a trailing CR dropped; a
final token without a terminating newline is produced only when non-empty. -/
def goLines (s : Bytes) : List Bytes := goLinesGo (s.length + 1) s

/-- ASCII bytes of a Lean string literal (engine constants are ASCII). -/
def sBytes (s : String) : Bytes := s.toList.map Char.toNat

/-- The digit loop with explicit fuel (`n / 10` shrinks, so fuel `n + 1` is
always enough). -/
def decDigitsGo : Nat → Nat → Bytes
  | 0, _ => []
  | fuel + 1, n =>
    if n < 10 then [48 + n]
    else decDigitsGo fuel (n / 10) ++ [48 + n % 10]

/-- Decimal ASCII representation of a natural number; models `fmt.Sprintf`
verb `%d` applied to the engine's (always non-negative) offsets and sizes. -/
def decDigits (n : Nat) : Bytes := decDigitsGo (n + 1) n

/-- Greedily take leading ASCII digits. -/
def takeDigits : Bytes → (Bytes × Bytes)
  | [] => ([], [])
  | c :: rest =>
    if 48 ≤ c ∧ c ≤ 57 then
      let p := takeDigits rest
      (c :: p.1, p.2)
    else ([], c :: rest)

/-- Value of a digit string (most significant first). -/
def digitsToNat (ds : Bytes) : Nat := ds.foldl (fun acc d => acc * 10 + (d - 48)) 0

/-- Model of one `fmt.Sscanf` `%d` conversion on the engine's non-negative
fields: at least one leading digit, returning the value and the rest. -/
def parseDec (s : Bytes) : Option (Nat × Bytes) :=
  match takeDigits s with
  | ([], _) => none
  | (ds, rest) => some (digitsToNat ds, rest)

/-- Model of `fmt.Sscanf(s, "%d:%d")` as used on sparse-index entries
(non-negative offset and size separated by a colon; trailing input, as
always with `Sscanf`, is ignored). -/
def scanOffsetSize (s : Bytes) : Option (Nat × Nat) :=
  match parseDec s with
  | none => none
  | some (off, rest) =>
    match rest with
    | 58 :: rest2 =>
      match parseDec rest2 with
      | none => none
      | some (sz, _) => some (off, sz)
    | _ => none

/-! ## Bloom filter (`bloom.go`) -/

/-- Model of the engine's `BloomFilter` struct: a byte array of bits and
three `uint32` counters. -/
structure BloomFilter where
  bits : Bytes
  numBits : Nat
  numHashes : Nat
  numItems : Nat
deriving Repr, DecidableEq

/-- FNV-1a 32-bit hash as computed by Go `hash/fnv` (`New32a` + `Write`). -/
def fnv32a (data : Bytes) : Nat :=
  data.foldl (fun h b => ((h ^^^ b) * 16777619) % 4294967296) 2166136261

/-- Model of `BloomFilter.hash`: FNV-1a of the key, and FNV-1a of the key
prefixed by the 4-byte seed DE AD BE EF, the latter forced odd. -/
def bloomHash (key : Bytes) : Nat × Nat :=
  let h1 := fnv32a key
  let h2 := fnv32a ([222, 173, 190, 239] ++ key)
  (h1, if h2 % 2 = 0 then h2 + 1 else h2)

/-- Double-hashing bit position `(h1 + i*h2) mod numBits`, in `uint32`
arithmetic; `numBits = 0` is a Go modulo-by-zero panic, modelled as `none`. -/
def bloomPos (h1 h2 nb i : Nat) : Option Nat :=
  if nb = 0 then none else some ((h1 + i * h2) % 4294967296 % nb)

/-- Model of `BloomFilter.setBit`; an index beyond the byte array is a Go
panic, modelled as `none`. -/
def BloomFilter.setBit (bf : BloomFilter) (pos : Nat) : Option BloomFilter :=
  match bf.bits[pos / 8]? with
  | none => none
  | some b => some { bf with bits := bf.bits.set (pos / 8) (b ||| (1 <<< (pos % 8))) }

/-- Model of `BloomFilter.getBit`. -/
def BloomFilter.getBit (bf : BloomFilter) (pos : Nat) : Option Bool :=
  match bf.bits[pos / 8]? with
  | none => none
  | some b => some (b &&& (1 <<< (pos % 8)) != 0)

/-- The loop of `BloomFilter.Add` over a list of hash indexes. -/
def BloomFilter.setBitsAt (bf : BloomFilter) (h1 h2 : Nat) : List Nat → Option BloomFilter
  | [] => some bf
  | i :: rest => do
    let pos ← bloomPos h1 h2 bf.numBits i
    let bf2 ← bf.setBit pos
    bf2.setBitsAt h1 h2 rest

/-- Model of `BloomFilter.Add`: set the `numHashes` double-hashing positions
and bump `numItems` (a `uint32`). -/
def BloomFilter.Add (bf : BloomFilter) (key : Bytes) : Option BloomFilter :=
  let p := bloomHash key
  (bf.setBitsAt p.1 p.2 (List.range bf.numHashes)).map
    (fun b => { b with numItems := (b.numItems + 1) % 4294967296 })

/-- The loop of `BloomFilter.MayContain`, short-circuiting at the first
unset bit exactly as the Go loop returns early. -/
def BloomFilter.checkBitsAt (bf : BloomFilter) (h1 h2 : Nat) : List Nat → Option Bool
  | [] => some true
  | i :: rest => do
    let pos ← bloomPos h1 h2 bf.numBits i
    let b ← bf.getBit pos
    if b then bf.checkBitsAt h1 h2 rest else pure false

/-- Model of `BloomFilter.MayContain`. -/
def BloomFilter.MayContain (bf : BloomFilter) (key : Bytes) : Option Bool :=
  let p := bloomHash key
  bf.checkBitsAt p.1 p.2 (List.range bf.numHashes)

/-- The `BloomFilter` composite literal built by `NewBloomFilter` once the
two sizes are fixed: a zeroed byte array of `(numBits+7)/8` bytes. -/
def mkBloomFilter (numBits numHashes : Nat) : BloomFilter :=
  { bits := List.replicate ((numBits + 7) / 8) 0
    numBits := numBits
    numHashes := numHashes
    numItems := 0 }

/-- Bit count chosen by `NewBloomFilter(n, 0.01)` (the engine always passes a
1% false-positive target).  Go computes `uint32(math.Ceil(-n*ln p/ln(2)^2))`
in `float64`; for `p = 0.01` the coefficient is `9.58505837736…` and this
model takes the exact rational ceiling `⌈n * 9585058377 / 10^9⌉` (coefficient
rounded at the ninth decimal; the rounding can only shift the ceiling on
inputs astronomically larger than the engine produces), with the `uint32`
conversion modelled as reduction mod `2^32`. -/
def bloomNumBits01 (n : Nat) : Nat :=
  ((n * 9585058377 + 999999999) / 1000000000) % 4294967296

/-- Hash count chosen by `NewBloomFilter(n, 0.01)`: Go computes
`uint32(math.Ceil((numBits/n)*ln 2))` and replaces 0 by 1; `ln 2 =
0.693147180559945…`, modelled as the exact rational ceiling with the
coefficient rounded at the ninth decimal.  For `n = 0` the Go float value is
NaN and the integer conversion platform-defined; on the engine's targets it
converts to 0 and the zero-guard then yields 1, which this model returns. -/
def bloomNumHashes01 (numBits n : Nat) : Nat :=
  if n = 0 then 1
  else
    let nh := (numBits * 693147181 + n * 1000000000 - 1) / (n * 1000000000) % 4294967296
    if nh = 0 then 1 else nh

/-- Model of `NewBloomFilter(n, 0.01)` as called by the SSTable writer. -/
def NewBloomFilter (n : Nat) : BloomFilter :=
  mkBloomFilter (bloomNumBits01 n) (bloomNumHashes01 (bloomNumBits01 n) n)

/-- Big-endian bytes of a `uint32` written by `BloomFilter.Marshal`
(`byte(x >> 24)` and so on; `byte` conversion truncates). -/
def be32 (x : Nat) : Bytes :=
  [x / 16777216 % 256, x / 65536 % 256, x / 256 % 256, x % 256]

/-- Model of `BloomFilter.Marshal`: 12-byte header then the raw bits. -/
def BloomFilter.Marshal (bf : BloomFilter) : Bytes :=
  be32 bf.numBits ++ be32 bf.numHashes ++ be32 bf.numItems ++ bf.bits

/-- Reassembly `uint32(b0)<<24 | uint32(b1)<<16 | uint32(b2)<<8 | uint32(b3)`
from `UnmarshalBloomFilter`. -/
def unbe32 (b0 b1 b2 b3 : Nat) : Nat :=
  (b0 <<< 24) ||| (b1 <<< 16) ||| (b2 <<< 8) ||| b3

/-- Model of `UnmarshalBloomFilter`; input shorter than the 12-byte header
returns Go `nil`, modelled as `none`. -/
def UnmarshalBloomFilter (data : Bytes) : Option BloomFilter :=
  match data with
  | b0 :: b1 :: b2 :: b3 :: h0 :: h1 :: h2 :: h3 :: i0 :: i1 :: i2 :: i3 :: bits =>
    some { bits := bits
           numBits := unbe32 b0 b1 b2 b3
           numHashes := unbe32 h0 h1 h2 h3
           numItems := unbe32 i0 i1 i2 i3 }
  | _ => none

/-- A sequence of `Add` calls, in order (every insertion history of a
filter is such a fold). -/
def addAll (bf : BloomFilter) (keys : List Bytes) : Option BloomFilter :=
  keys.foldlM BloomFilter.Add bf

/-! ## Binary write-ahead log (CRC32-framed variant) -/

/-- One byte of the CRC32 (IEEE, reflected polynomial EDB88320) update, as
computed bit-serially by the table Go's `crc32.ChecksumIEEE` is built from. -/
def crc32Byte (crc b : Nat) : Nat :=
  (List.range 8).foldl
    (fun c _ => if c % 2 = 1 then (c / 2) ^^^ 3988292384 else c / 2)
    (crc ^^^ b)

/-- Model of Go `crc32.ChecksumIEEE`. -/
def crc32 (data : Bytes) : Nat :=
  (data.foldl crc32Byte 4294967295) ^^^ 4294967295

/-- WAL record type byte for a Put (`WALEntryPut`). -/
def WALEntryPut : Nat := 1

/-- WAL record type byte for a Delete (`WALEntryDelete`). -/
def WALEntryDelete : Nat := 2

/-- The checksummed body of a binary WAL frame: type byte, 4-byte big-endian
key length (`uint32(len(key))`), key, value length, value. -/
def walFrameBody (entryType : Nat) (key value : Bytes) : Bytes :=
  entryType ::
    (be32 (key.length % 4294967296) ++ key ++ be32 (value.length % 4294967296) ++ value)

/-- A complete binary WAL frame: big-endian CRC32 of the body, then the body. -/
def walFrame (entryType : Nat) (key value : Bytes) : Bytes :=
  be32 (crc32 (walFrameBody entryType key value)) ++ walFrameBody entryType key value

/-- Model of the on-disk state behind a `WAL` handle.  `buffered` is the
content of the user-space `bufio.Writer`, `osFile` what has been handed to
the operating system, and `durable` what is guaranteed to be on stable
storage: only `file.Sync()` (fsync) promotes `osFile` to `durable`. -/
structure WAL where
  buffered : Bytes
  osFile : Bytes
  durable : Bytes
deriving Repr, DecidableEq

/-- Model of the binary `WAL.WriteEntry`: build the frame, `Write` it into
the buffered writer, then `Flush` the buffer to the OS file.  No fsync
happens on this path, so `durable` is untouched. -/
def WAL.WriteEntry (w : WAL) (entryType : Nat) (key value : Bytes) : WAL :=
  { buffered := []
    osFile := w.osFile ++ w.buffered ++ walFrame entryType key value
    durable := w.durable }

/-- Model of `WAL.WritePut`. -/
def WAL.WritePut (w : WAL) (key value : Bytes) : WAL :=
  w.WriteEntry WALEntryPut key value

/-- Model of `WAL.WriteDelete` (nil value, hence length 0). -/
def WAL.WriteDelete (w : WAL) (key : Bytes) : WAL :=
  w.WriteEntry WALEntryDelete key []

/-- Model of `WAL.Sync`: flush the buffer, then fsync the file. -/
def WAL.Sync (w : WAL) : WAL :=
  { buffered := []
    osFile := w.osFile ++ w.buffered
    durable := w.osFile ++ w.buffered }

/-- Model of `WAL.Close`: flush the buffer and close (no fsync). -/
def WAL.Close (w : WAL) : WAL :=
  { buffered := []
    osFile := w.osFile ++ w.buffered
    durable := w.durable }

/-! ## Skip list (functional model) and memtable -/

/-- A key/value record. -/
abbrev Entry := Bytes × Bytes

/-- Model of `SkipList.Find` (exact-match search). -/
def slFind : List Entry → Bytes → Option Bytes
  | [], _ => none
  | (k, v) :: rest, key => if bytesCompare key k = 0 then some v else slFind rest key

/-- Model of `SkipList.Insert`: replace the value in place on an equal key,
otherwise link a new node at its sorted position.  The skip list is modelled
by its observable contents, the strictly sorted level-0 chain (tower heights
only affect search speed). -/
def slInsert : List Entry → Bytes → Bytes → List Entry
  | [], key, val => [(key, val)]
  | (k, v) :: rest, key, val =>
    if bytesCompare key k < 0 then (key, val) :: (k, v) :: rest
    else if bytesCompare key k = 0 then (key, val) :: rest
    else (k, v) :: slInsert rest key val

/-- Model of `SkipList.Delete`: unlink the node carrying the key. -/
def slDelete : List Entry → Bytes → List Entry
  | [], _ => []
  | (k, v) :: rest, key =>
    if bytesCompare key k = 0 then rest else (k, v) :: slDelete rest key

/-- Go panic raised by the memtable (write to a read-only memtable). -/
inductive MemErr
  | panicked
deriving Repr, DecidableEq

/-- Model of the `MemTable` struct.  `size` (Go `int64`) and `count`
(Go `int`) are the accounting fields claim C7 examines. -/
structure MemTable where
  skiplist : List Entry
  size : Int
  count : Int
  readOnly : Bool
  wal : Option WAL
deriving Repr, DecidableEq

/-- The empty memtable built by the `MemTable` literal in `NewMemTable`. -/
def emptyMemTable : MemTable :=
  { skiplist := [], size := 0, count := 0, readOnly := false, wal := none }

/-- Model of `MemTable.Find`. -/
def MemTable.Find (mt : MemTable) (key : Bytes) : Option Bytes :=
  slFind mt.skiplist key

/-- Model of `MemTable.Insert`: panic when read-only; otherwise write the
Put record to the WAL first (when one is attached), then adjust the
accounted size — subtracting only the old value length when the key already
exists — and update the skip list. -/
def MemTable.Insert (mt : MemTable) (key value : Bytes) : Except MemErr MemTable :=
  if mt.readOnly then .error .panicked
  else
    let mt := { mt with wal := mt.wal.map (fun (w : WAL) => w.WritePut key value) }
    match slFind mt.skiplist key with
    | some existing =>
      .ok { mt with
        size := mt.size - existing.length + value.length
        skiplist := slInsert mt.skiplist key value }
    | none =>
      .ok { mt with
        size := mt.size + key.length + value.length
        count := mt.count + 1
        skiplist := slInsert mt.skiplist key value }

/-- Model of `MemTable.Delete`: panic when read-only; otherwise write the
Delete record to the WAL first, decrement the accounting only when the key
is present, and unlink it. -/
def MemTable.Delete (mt : MemTable) (key : Bytes) : Except MemErr (MemTable × Bool) :=
  if mt.readOnly then .error .panicked
  else
    let mt := { mt with wal := mt.wal.map (fun (w : WAL) => w.WriteDelete key) }
    match slFind mt.skiplist key with
    | some value =>
      .ok ({ mt with
        size := mt.size - key.length - value.length
        count := mt.count - 1
        skiplist := slDelete mt.skiplist key }, true)
    | none => .ok ({ mt with skiplist := slDelete mt.skiplist key }, false)

/-- Model of `MemTable.MakeReadOnly`. -/
def MemTable.MakeReadOnly (mt : MemTable) : MemTable := { mt with readOnly := true }

/-- Model of `MemTable.ShouldFlush`. -/
def MemTable.ShouldFlush (mt : MemTable) (threshold : Int) : Bool :=
  threshold ≤ mt.size

/-- Model of `MemTable.Clear`. -/
def MemTable.Clear (mt : MemTable) : Except MemErr MemTable :=
  if mt.readOnly then .error .panicked
  else .ok { mt with skiplist := [], size := 0, count := 0 }

/-- Sum of `len(key) + len(value)` over the entries present — the value the
size accounting is supposed to track. -/
def entriesSize (es : List Entry) : Int :=
  (es.map (fun e => (e.1.length : Int) + e.2.length)).sum

/-- Model of `io.ReadFull` on an in-memory byte stream: the requested bytes
and the remainder, or `none` on a short read. -/
def readFull (n : Nat) (s : Bytes) : Option (Bytes × Bytes) :=
  if n ≤ s.length then some (s.take n, s.drop n) else none

/-- Model of `binary.BigEndian.Uint32` on a 4-byte buffer. -/
def beUint32 (b : Bytes) : Nat :=
  match b with
  | [b0, b1, b2, b3] => unbe32 b0 b1 b2 b3
  | _ => 0

/-- The loop of the binary `ReplayWAL`, with explicit fuel (each iteration
consumes at least 13 bytes of input, so any fuel above the input length is
enough).  A clean EOF on the checksum read ends replay; every other short
read, a checksum mismatch, and an unknown type are errors that abort the
whole replay. -/
def replayGo : Nat → Bytes → MemTable → Except String MemTable
  | 0, _, _ => .error "fuel exhausted"
  | fuel + 1, data, mt =>
    match readFull 4 data with
    | none =>
      if data = [] then .ok mt else .error "checksum: unexpected EOF"
    | some (checksumBuf, rest1) =>
      let expectedChecksum := beUint32 checksumBuf
      match readFull 1 rest1 with
      | none => .error "entry type: EOF"
      | some (typeBuf, rest2) =>
        let entryType := typeBuf.headD 0
        match readFull 4 rest2 with
        | none => .error "key length: unexpected EOF"
        | some (keyLenBuf, rest3) =>
          match readFull (beUint32 keyLenBuf) rest3 with
          | none => .error "key: unexpected EOF"
          | some (key, rest4) =>
            match readFull 4 rest4 with
            | none => .error "value length: unexpected EOF"
            | some (valueLenBuf, rest5) =>
              match readFull (beUint32 valueLenBuf) rest5 with
              | none => .error "value: unexpected EOF"
              | some (value, rest6) =>
                let checksumData := entryType :: (keyLenBuf ++ key ++ valueLenBuf ++ value)
                if crc32 checksumData ≠ expectedChecksum then .error "checksum mismatch"
                else if entryType = WALEntryPut then
                  match mt.Insert key value with
                  | .error _ => .error "panic during replay"
                  | .ok mt2 => replayGo fuel rest6 mt2
                else if entryType = WALEntryDelete then
                  match mt.Delete key with
                  | .error _ => .error "panic during replay"
                  | .ok (mt2, _) => replayGo fuel rest6 mt2
                else .error "unknown entry type"

/-- Model of the binary `ReplayWAL` over the bytes of the WAL file at the
given path; `none` stands for a missing file, which replays nothing. -/
def ReplayWAL (walFile : Option Bytes) (mt : MemTable) : Except String MemTable :=
  match walFile with
  | none => .ok mt
  | some d => replayGo (d.length + 1) d mt

/-- Model of `NewMemTable`: start empty, replay the WAL file at the path,
then open that file for appending (`O_CREATE|O_WRONLY|O_APPEND`). -/
def NewMemTable (walFile : Option Bytes) : Except String MemTable :=
  match ReplayWAL walFile emptyMemTable with
  | .error e => .error e
  | .ok mt =>
    .ok { mt with
      wal := some { buffered := [], osFile := walFile.getD [], durable := walFile.getD [] } }

/-! ## Plaintext write-ahead log replay (line-oriented variant) -/

/-- One line of the plaintext `ReplayWAL` variant (`PUT k:v` / `DEL k`).
Unlike `MemTable.Insert`, its PUT path bumps `size` and `count`
unconditionally, with no already-exists check. -/
def replayLinePlain (mt : MemTable) (line : Bytes) : Except String MemTable :=
  if line = [] then .ok mt
  else if line.take 4 = sBytes "PUT " then
    match splitN2 58 (line.drop 4) with
    | [k, v] =>
      .ok { mt with
        skiplist := slInsert mt.skiplist k v
        size := mt.size + k.length + v.length
        count := mt.count + 1 }
    | _ => .error "invalid PUT entry"
  else if line.take 4 = sBytes "DEL " then
    let key := line.drop 4
    match slFind mt.skiplist key with
    | some value =>
      .ok { mt with
        skiplist := slDelete mt.skiplist key
        size := mt.size - key.length - value.length
        count := mt.count - 1 }
    | none => .ok mt
  else .error "unknown entry type in line"

/-- Model of the plaintext `ReplayWAL` variant: scan the file line by line
and apply each entry. -/
def ReplayWALPlain (data : Bytes) (mt : MemTable) : Except String MemTable :=
  (goLines data).foldlM replayLinePlain mt

/-! ## SSTable writer and reader (plaintext variant of sstable.go) -/

/-- The tombstone literal (`TOMBSTONE_VALUE = "null"`). -/
def TOMBSTONE_VALUE : Bytes := sBytes "null"

/-- Maximum tier level (`MAX_LEVEL = 2`). -/
def MAX_LEVEL : Nat := 2

/-- A sparse-index entry `{key copy, record offset, record size}` (offsets
and sizes are non-negative `int64` values, modelled as `Nat`). -/
structure IndexEntry where
  Key : Bytes
  Offset : Nat
  Size : Nat
deriving Repr, DecidableEq

instance : Inhabited IndexEntry := ⟨⟨[], 0, 0⟩⟩

/-- Model of the `SSTableWriter` struct; `fileData` is the byte stream
written so far through the buffered writer. -/
structure SSTableWriter where
  fileData : Bytes
  dataOffset : Nat
  index : List IndexEntry
  bloom : BloomFilter
  minKey : Bytes
  maxKey : Bytes
deriving Repr, DecidableEq

/-- Model of `NewSSTableWriter` (1% Bloom false-positive target). -/
def NewSSTableWriter (expectedKeys : Nat) : SSTableWriter :=
  { fileData := []
    dataOffset := 0
    index := []
    bloom := NewBloomFilter expectedKeys
    minKey := []
    maxKey := [] }

/-- The plaintext record line `key:value\n` written per append. -/
def recordLine (key value : Bytes) : Bytes := key ++ 58 :: (value ++ [10])

/-- Model of `SSTableWriter.Append`: update min/max keys, add the key to the
Bloom filter (a panic there propagates as `none`), write the record line,
and capture a sparse-index entry when `len(index) == 0 || len(index) % 16 ==
0` — the condition claim C4 examines.  Nothing rejects keys or values
containing `:` or a newline. -/
def SSTableWriter.Append (w : SSTableWriter) (key value : Bytes) : Option SSTableWriter :=
  let w := { w with
    minKey := if w.minKey.length = 0 then key else w.minKey
    maxKey := key }
  match w.bloom.Add key with
  | none => none
  | some bloom2 =>
    let line := recordLine key value
    let n := line.length
    let w := { w with bloom := bloom2, fileData := w.fileData ++ line }
    let w :=
      if w.index.length = 0 ∨ w.index.length % 16 = 0 then
        { w with index := w.index ++ [{ Key := key, Offset := w.dataOffset, Size := n }] }
      else w
    some { w with dataOffset := w.dataOffset + n }

/-- Appending a whole entry list in order (the flush loop). -/
def writeAll (w : SSTableWriter) : List Entry → Option SSTableWriter
  | [] => some w
  | (k, v) :: rest =>
    match w.Append k v with
    | none => none
    | some w2 => writeAll w2 rest

/-- The 15-byte index section marker. -/
def indexMarker : Bytes := sBytes "\n--- INDEX ---\n"

/-- The 15-byte Bloom section marker. -/
def bloomMarker : Bytes := sBytes "\n--- BLOOM ---\n"

/-- The 16-byte footer marker. -/
def footerMarker : Bytes := sBytes "\n--- FOOTER ---\n"

/-- The index region line for one sparse-index entry: `key@offset:size\n`. -/
def indexLine (e : IndexEntry) : Bytes :=
  e.Key ++ 64 :: (decDigits e.Offset ++ 58 :: (decDigits e.Size ++ [10]))

/-- The footer text written by `Finalize`. -/
def footerText (indexOffset indexSize bloomOffset bloomSize : Nat)
    (minKey maxKey : Bytes) : Bytes :=
  footerMarker ++
    sBytes "index_offset:" ++ decDigits indexOffset ++ [10] ++
    sBytes "index_size:" ++ decDigits indexSize ++ [10] ++
    sBytes "bloom_offset:" ++ decDigits bloomOffset ++ [10] ++
    sBytes "bloom_size:" ++ decDigits bloomSize ++ [10] ++
    sBytes "min_key:" ++ minKey ++ [10] ++
    sBytes "max_key:" ++ maxKey ++ [10] ++
    sBytes "magic:SST1" ++ [10]

/-- Model of `SSTableWriter.Finalize`: the full file contents after the
index region, Bloom region, and footer are appended, flushed, and fsynced. -/
def SSTableWriter.Finalize (w : SSTableWriter) : Bytes :=
  let indexLines := (w.index.map indexLine).flatten
  let indexOffset := w.dataOffset + 15
  let indexSize := indexLines.length
  let bloomOffset := indexOffset + indexSize + 15
  let bloomData := w.bloom.Marshal
  w.fileData ++ indexMarker ++ indexLines ++ bloomMarker ++ bloomData ++
    footerText indexOffset indexSize bloomOffset bloomData.length w.minKey w.maxKey

/-- Model of the parsed `FooterMetadata` struct (zero values as in Go). -/
structure FooterMetadata where
  IndexOffset : Nat
  IndexSize : Nat
  BloomOffset : Nat
  BloomSize : Nat
  Magic : Bytes
  MinKey : Bytes
  MaxKey : Bytes
deriving Repr, DecidableEq

/-- The zero `FooterMetadata` the parser starts from. -/
def emptyFooter : FooterMetadata :=
  { IndexOffset := 0, IndexSize := 0, BloomOffset := 0, BloomSize := 0
    Magic := [], MinKey := [], MaxKey := [] }

/-- Model of `bytes.Index` (byte offset of the first occurrence). -/
def bytesIndexOf (pat : Bytes) : Bytes → Option Nat
  | [] => if pat = [] then some 0 else none
  | c :: rest =>
    if pat.isPrefixOf (c :: rest) then some 0
    else (bytesIndexOf pat rest).map (fun n => n + 1)

/-- One line of `parseFooter`'s scan: split at the first colon; fewer than
two parts is skipped; number fields keep their old value when `Sscanf`
fails (the code ignores that error); a magic value other than `SST1`
aborts the parse. -/
def footerLineStep (md : FooterMetadata) (line : Bytes) : Except String FooterMetadata :=
  match splitN2 58 line with
  | [name, value] =>
    if name = sBytes "index_offset" then
      .ok { md with IndexOffset := ((parseDec value).map Prod.fst).getD md.IndexOffset }
    else if name = sBytes "index_size" then
      .ok { md with IndexSize := ((parseDec value).map Prod.fst).getD md.IndexSize }
    else if name = sBytes "bloom_offset" then
      .ok { md with BloomOffset := ((parseDec value).map Prod.fst).getD md.BloomOffset }
    else if name = sBytes "bloom_size" then
      .ok { md with BloomSize := ((parseDec value).map Prod.fst).getD md.BloomSize }
    else if name = sBytes "min_key" then .ok { md with MinKey := value }
    else if name = sBytes "max_key" then .ok { md with MaxKey := value }
    else if name = sBytes "magic" then
      if value ≠ sBytes "SST1" then .error "invalid magic number"
      else .ok { md with Magic := value }
    else .ok md
  | _ => .ok md

/-- Model of `parseFooter` on the bytes near the end of the file. -/
def parseFooter (data : Bytes) : Except String FooterMetadata :=
  match bytesIndexOf footerMarker data with
  | none => .error "footer marker not found"
  | some idx => (goLines (data.drop (idx + 16))).foldlM footerLineStep emptyFooter

/-- Model of the `SSTableReader` struct; `file` is the contents of the open
file handle.  `Id` is the Go zero value 0 unless assigned (only the merger
assigns it). -/
structure SSTableReader where
  file : Bytes
  indexOffset : Nat
  indexSize : Nat
  bloomOffset : Nat
  bloomSize : Nat
  index : List IndexEntry
  bloom : Option BloomFilter
  minKey : Bytes
  maxKey : Bytes
  Id : Nat
deriving Repr, DecidableEq

/-- Model of `SSTableReader.loadBloomFilter`: nothing to do on a zero
offset/size; a region extending past EOF is a read error. -/
def loadBloomRegion (file : Bytes) (off sz : Nat) : Except String (Option BloomFilter) :=
  if off = 0 ∨ sz = 0 then .ok none
  else if off + sz ≤ file.length then .ok (UnmarshalBloomFilter ((file.drop off).take sz))
  else .error "failed to read bloom filter"

/-- One line of `loadIndex`'s scan: split at the first `@`, then
`Sscanf("%d:%d")`; any parse failure skips the line. -/
def parseIndexLine (acc : List IndexEntry) (line : Bytes) : List IndexEntry :=
  match splitN2 64 line with
  | [key, rest] =>
    match scanOffsetSize rest with
    | none => acc
    | some (off, sz) => acc ++ [{ Key := key, Offset := off, Size := sz }]
  | _ => acc

/-- Model of `SSTableReader.loadIndex`. -/
def loadIndexRegion (file : Bytes) (off sz : Nat) : Except String (List IndexEntry) :=
  if off = 0 ∨ sz = 0 then .ok []
  else if off + sz ≤ file.length then
    .ok ((goLines ((file.drop off).take sz)).foldl parseIndexLine [])
  else .error "failed to read index"

/-- Model of `LoadSSTable`: read the last 256 bytes (the whole file when
shorter), parse the footer, then load the Bloom and index regions. -/
def LoadSSTable (file : Bytes) : Except String SSTableReader :=
  let footerBytes := file.drop (file.length - 256)
  match parseFooter footerBytes with
  | .error e => .error e
  | .ok footer =>
    match loadBloomRegion file footer.BloomOffset footer.BloomSize with
    | .error e => .error e
    | .ok bloom =>
      match loadIndexRegion file footer.IndexOffset footer.IndexSize with
      | .error e => .error e
      | .ok index =>
        .ok { file := file
              indexOffset := footer.IndexOffset
              indexSize := footer.IndexSize
              bloomOffset := footer.BloomOffset
              bloomSize := footer.BloomSize
              index := index
              bloom := bloom
              minKey := footer.MinKey
              maxKey := footer.MaxKey
              Id := 0 }

/-- The bisection loop of `sort.Search` with explicit fuel (the interval
shrinks every round, so `j - i + 1` is always enough). -/
def sortSearchGo (f : Nat → Bool) : Nat → Nat → Nat → Nat
  | 0, i, _ => i
  | fuel + 1, i, j =>
    if i < j then
      let m := (i + j) / 2
      if f m then sortSearchGo f fuel i m else sortSearchGo f fuel (m + 1) j
    else i

/-- Model of Go `sort.Search` on `[i, j)`: the exact bisection loop. -/
def sortSearch (f : Nat → Bool) (i j : Nat) : Nat := sortSearchGo f (j - i + 1) i j

/-- Result classification of `SSTableReader.Get` and the read path. -/
inductive GetErr
  | outOfRange
  | notFound
  | panicked
deriving Repr, DecidableEq

/-- The bounded scan of `SSTableReader.Get` over the record lines of the
selected block: the value on exact match, stop (not found) once a parsed
key exceeds the target, skip colon-free lines. -/
def scanRecords (key : Bytes) : List Bytes → Except GetErr Bytes
  | [] => .error .notFound
  | line :: rest =>
    match splitN2 58 line with
    | [k, v] =>
      if k = key then .ok v
      else if bytesCompare k key > 0 then .error .notFound
      else scanRecords key rest
    | _ => scanRecords key rest

/-- The sparse-index navigation and scan of `SSTableReader.Get` (after the
range and Bloom checks).  With an empty loaded index the Go code evaluates
`r.index[len-1]` at -1, an out-of-range panic. -/
def SSTableReader.getScan (r : SSTableReader) (key : Bytes) : Except GetErr Bytes :=
  let n := r.index.length
  let idxA := sortSearch
    (fun i => bytesCompare (r.index.getD i default).Key key ≥ 0) 0 n
  if n = 0 then .error .panicked
  else
    let idxB := if n ≤ idxA then n - 1 else idxA
    let idxC :=
      if 0 < idxB ∧ bytesCompare (r.index.getD idxB default).Key key > 0 then idxB - 1
      else idxB
    let startOffset := (r.index.getD idxC default).Offset
    let endOffset := if idxC + 1 < n then (r.index.getD (idxC + 1) default).Offset
      else r.indexOffset
    scanRecords key (goLines ((r.file.drop startOffset).take (endOffset - startOffset)))

/-- Model of `SSTableReader.Get`: range check, Bloom check (skipped when the
loaded filter is `nil`; a Bloom panic propagates), then the block scan. -/
def SSTableReader.Get (r : SSTableReader) (key : Bytes) : Except GetErr Bytes :=
  if bytesCompare key r.minKey < 0 ∨ bytesCompare key r.maxKey > 0 then
    .error .outOfRange
  else
    match r.bloom with
    | some bf =>
      match bf.MayContain key with
      | none => .error .panicked
      | some false => .error .notFound
      | some true => r.getScan key
    | none => r.getScan key

/-- The line loop of `ReadAllRecords`: stop at the index marker line, skip
blanks and colon-free lines, and write `key -> value` into the map with
later occurrences winning.  The Go `map[string][]byte` is modelled as the
sorted association list `slInsert` builds; map iteration order is
randomized in Go, but every consumer (the merger) writes the records into
another map-like structure, so only the mapping matters, and keys are
unique within one table. -/
def readAllGo (acc : List Entry) : List Bytes → List Entry
  | [] => acc
  | line :: rest =>
    if (sBytes "--- INDEX ---").isPrefixOf line then acc
    else if line = [] then readAllGo acc rest
    else
      match splitN2 58 line with
      | [k, v] => readAllGo (slInsert acc k v) rest
      | _ => readAllGo acc rest

/-- Model of `SSTableReader.ReadAllRecords`. -/
def SSTableReader.ReadAllRecords (r : SSTableReader) : List Entry :=
  readAllGo [] (goLines r.file)

/-! ## LSM manager and merger -/

/-- A live tier: segments ordered oldest first, newest last. -/
structure Tier where
  Level : Nat
  Segments : List SSTableReader
deriving Repr, DecidableEq

/-- The `LSMManager` state the sequential model tracks: the tier list and
`nextEntryID`.  The manifest is a JSON projection of exactly these fields,
rewritten atomically on every change; its writes are modelled as
succeeding (a failed rewrite aborts the surrounding mutation and changes
nothing).  File paths are identified with the entry ids that name them. -/
structure LSMState where
  tiers : List Tier
  nextEntryID : Nat
deriving Repr, DecidableEq

/-- Merge trigger threshold (`mergeThreshold = 4`). -/
def mergeThreshold : Nat := 4

/-- Model of `LSMManager.CreateSSTablePath`: allocate the next entry id. -/
def LSMState.CreateSSTablePath (st : LSMState) : Nat × LSMState :=
  (st.nextEntryID, { st with nextEntryID := st.nextEntryID + 1 })

/-- The inner loop of `LSMManager.Get` over one tier's segments, already
reversed to newest-first order: any `Get` error means "not in this
segment" and the scan continues — except a panic, which crashes. -/
def segsGet (key : Bytes) : List SSTableReader → Except GetErr (Option Bytes)
  | [] => .ok none
  | sst :: rest =>
    match sst.Get key with
    | .ok v => .ok (some v)
    | .error .panicked => .error .panicked
    | .error _ => segsGet key rest

/-- Model of `LSMManager.Get`: tiers from level 0 upward, segments newest
(end of the slice) to oldest within each tier. -/
def lsmGet (key : Bytes) : List Tier → Except GetErr (Option Bytes)
  | [] => .ok none
  | t :: rest =>
    match segsGet key t.Segments.reverse with
    | .error e => .error e
    | .ok (some v) => .ok (some v)
    | .ok none => lsmGet key rest

/-- Modelled from the spec: `NewMemTableWithoutWAL` and
`MemTable.InsertWithoutWAL` are called by `performMerge` but their
definition is not under src/.  Per section 4.7 the merger inserts each
record into a transient memtable "so later (younger) values overwrite
earlier (older) ones"; per section 4.4 an insert adjusts the accounted
size/count with an already-exists check.  This is `MemTable.Insert` minus
the WAL write and the read-only panic (the transient memtable is private
to the merger and has no WAL). -/
def MemTable.InsertWithoutWAL (mt : MemTable) (key value : Bytes) : MemTable :=
  match slFind mt.skiplist key with
  | some existing =>
    { mt with
      size := mt.size - existing.length + value.length
      skiplist := slInsert mt.skiplist key value }
  | none =>
    { mt with
      size := mt.size + key.length + value.length
      count := mt.count + 1
      skiplist := slInsert mt.skiplist key value }

/-- The transient memtable `performMerge` fills: every record of every
input segment (oldest segment first, exactly the snapshot slice order),
skipping tombstone values when `level >= maxLevels`. -/
def mergeTemp (isMaxLevel : Bool) (segments : List SSTableReader) : MemTable :=
  segments.foldl
    (fun mt seg =>
      seg.ReadAllRecords.foldl
        (fun mt e =>
          if isMaxLevel ∧ e.2 = TOMBSTONE_VALUE then mt
          else mt.InsertWithoutWAL e.1 e.2)
        mt)
    { skiplist := [], size := 0, count := 0, readOnly := false, wal := none }

/-- Model of `MemTable.Flush`: mark read-only, size the writer's Bloom
filter by the current `count`, append every entry in skip-list order, and
finalize.  The result is the file's byte contents (`none` on a Bloom
panic, possible only when `count` is 0 while entries exist). -/
def MemTable.Flush (mt : MemTable) : Option Bytes :=
  (writeAll (NewSSTableWriter mt.count.toNat) mt.skiplist).map SSTableWriter.Finalize

/-- Model of `performMerge`: build the transient memtable, allocate the
output path (bumping `nextEntryID`), flush, load the result back, and stamp
the id parsed from the file name onto the reader. -/
def performMerge (st : LSMState) (level : Nat) (segments : List SSTableReader) :
    Except String (SSTableReader × LSMState) :=
  if segments.isEmpty then .error "cannot merge zero segments"
  else
    let temp := mergeTemp (decide (MAX_LEVEL ≤ level)) segments
    let (id, st2) := st.CreateSSTablePath
    match temp.Flush with
    | none => .error "could not flush merged data to SSTable"
    | some file =>
      match LoadSSTable file with
      | .error e => .error e
      | .ok r => .ok ({ r with Id := id }, st2)

/-- Replace the segment list of tier `i` in place. -/
def modifyTier : List Tier → Nat → (List SSTableReader → List SSTableReader) → List Tier
  | [], _, _ => []
  | t :: rest, 0, f => { t with Segments := f t.Segments } :: rest
  | t :: rest, i + 1, f => t :: modifyTier rest i f

/-- The append loop with explicit fuel (one tier per round, so `target + 1`
is always enough). -/
def ensureTiersGo : Nat → List Tier → Nat → List Tier
  | 0, tiers, _ => tiers
  | fuel + 1, tiers, target =>
    if tiers.length ≤ target then
      ensureTiersGo fuel (tiers ++ [{ Level := tiers.length, Segments := [] }]) target
    else tiers

/-- The `for len(tiers) <= targetLevel` loop of `runMergeCycle`, appending
empty tiers labelled by their position. -/
def ensureTiers (tiers : List Tier) (target : Nat) : List Tier :=
  ensureTiersGo (target + 1) tiers target

/-- The merged-away filter of `runMergeCycle`: keep segments whose id is
not among the merged ids. -/
def removeMerged (segs : List SSTableReader) (mergedIDs : List Nat) : List SSTableReader :=
  segs.filter (fun s => ¬ mergedIDs.contains s.Id)

/-- Model of `runMergeCycle` (with fuel; the cascade raises the level each
round, so `MAX_LEVEL + 2` is always enough): perform the merge, ensure the
target tier exists (`min(level+1, maxLevels)`), drop the merged-away
segments from the source tier, append the new segment as the newest of the
target tier, commit (manifest write modelled as succeeding), collect the
inputs for deletion, and cascade while the now-full target is below
`maxLevels`. -/
def runMergeCycle : Nat → LSMState → Nat → List SSTableReader →
    Except String (LSMState × List SSTableReader)
  | 0, _, _, _ => .error "fuel exhausted"
  | fuel + 1, st, level, segmentsToMerge =>
    match performMerge st level segmentsToMerge with
    | .error e => .error e
    | .ok (newSeg, st2) =>
      let targetLevel := if MAX_LEVEL ≤ level then MAX_LEVEL else level + 1
      let tiers1 := ensureTiers st2.tiers targetLevel
      let tiers2 :=
        if level < tiers1.length then
          modifyTier tiers1 level
            (fun segs => removeMerged segs (segmentsToMerge.map SSTableReader.Id))
        else tiers1
      let tiers3 := modifyTier tiers2 targetLevel (fun segs => segs ++ [newSeg])
      let nextSegments :=
        if mergeThreshold ≤ ((tiers3.getD targetLevel ⟨0, []⟩).Segments).length then
          some (tiers3.getD targetLevel ⟨0, []⟩).Segments
        else none
      let st3 := { st2 with tiers := tiers3 }
      match nextSegments with
      | some next =>
        if targetLevel < MAX_LEVEL then
          match runMergeCycle fuel st3 targetLevel next with
          | .error e => .error e
          | .ok (st4, dels) => .ok (st4, segmentsToMerge ++ dels)
        else .ok (st3, segmentsToMerge)
      | none => .ok (st3, segmentsToMerge)

/-- Model of `LSMManager.AddSSTable` given the already-loaded reader: make
sure tier 0 exists, append as its newest segment, commit the manifest, and
return the tier-0 snapshot to push at the merge channel when the threshold
is reached (the channel drops the request when full). -/
def LSMState.AddSSTable (st : LSMState) (sst : SSTableReader) :
    LSMState × Option (List SSTableReader) :=
  let tiers := if st.tiers.isEmpty then [{ Level := 0, Segments := [] }] else st.tiers
  let tiers2 := modifyTier tiers 0 (fun segs => segs ++ [sst])
  let snapshot :=
    if mergeThreshold ≤ ((tiers2.getD 0 ⟨0, []⟩).Segments).length then
      some (tiers2.getD 0 ⟨0, []⟩).Segments
    else none
  ({ st with tiers := tiers2 }, snapshot)

/-! ## Store facade and the sequential engine machine -/

/-- Model of the `V6Store` struct (the mutexes serialize operations; the
machine below interleaves whole operations, which is what they enforce). -/
structure V6Store where
  memtable : MemTable
  immutable : Option MemTable
  lsm : LSMState
  maxMemSize : Int
deriving Repr, DecidableEq

/-- Model of `NewV6Store` on a fresh data directory: empty memtable bound
to `wal_0000.log`, no tiers, `maxMemSize = 300`. -/
def NewV6Store : V6Store :=
  { memtable :=
      { emptyMemTable with wal := some { buffered := [], osFile := [], durable := [] } }
    immutable := none
    lsm := { tiers := [], nextEntryID := 0 }
    maxMemSize := 300 }

/-- The tombstone filter applied by `V6Store.Get` to a value found in any
layer. -/
def tombstoneFilter (val : Bytes) : Except GetErr Bytes :=
  if val = TOMBSTONE_VALUE then .error .notFound else .ok val

/-- Model of `V6Store.Get`: active memtable, then the immutable memtable,
then the LSM tiers; a tombstone anywhere short-circuits to not-found. -/
def V6Store.Get (s : V6Store) (key : Bytes) : Except GetErr Bytes :=
  match s.memtable.Find key with
  | some val => tombstoneFilter val
  | none =>
    match s.immutable.bind (fun m => m.Find key) with
    | some val => tombstoneFilter val
    | none =>
      match lsmGet key s.lsm.tiers with
      | .error e => .error e
      | .ok (some val) => tombstoneFilter val
      | .ok none => .error .notFound

/-- The operations of the sequential engine machine.  `setOp` is the body
of `V6Store.Set` (insert into the active memtable); `rotateOp` is
`rotateMemTable` (which `Set` invokes, as a separate atomic action, when
the size check fires); `flushOp` is `flushMemTable` (the background
flush); `mergeOp` is one batch of the merger worker. -/
inductive StoreOp where
  | setOp (key value : Bytes)
  | rotateOp (stale : Bool)
  | flushOp
  | mergeOp
deriving Repr, DecidableEq

/-- Model of `V6Store.Delete`: exactly `Set(key, TOMBSTONE_VALUE)`. -/
def deleteOp (key : Bytes) : StoreOp := .setOp key TOMBSTONE_VALUE

/-- The reader `AddSSTable` obtains by loading the flushed file: its fields
as the writer wrote them, with the Bloom filter marshal/unmarshal round
trip applied and `Id` left at the Go zero value (`AddSSTable` never
assigns `Id`; only the merger does, which is `id` here). -/
def canonicalReader (w : SSTableWriter) (id : Nat) : SSTableReader :=
  let indexLines := (w.index.map indexLine).flatten
  { file := w.Finalize
    indexOffset := w.dataOffset + 15
    indexSize := indexLines.length
    bloomOffset := w.dataOffset + 15 + indexLines.length + 15
    bloomSize := w.bloom.Marshal.length
    index := w.index
    bloom := UnmarshalBloomFilter w.bloom.Marshal
    minKey := w.minKey
    maxKey := w.maxKey
    Id := id }

/-- Decidable check, mirroring the branching of `runMergeCycle`, that every
`performMerge` along a cascade loads its output back exactly as written
(`LoadSSTable` returning the writer's own metadata).  `LoadSSTable` parses
the footer out of the last 256 bytes of the file, so this can fail to hold
only for a file whose Bloom-bit region happens to contain an earlier byte
sequence that parses as a footer and still passes the magic check; no
engine-generated file does.  The machine's merge step requires this check,
documenting that the model does not follow the engine into that
pathological parse. -/
def cascadeCanonB : Nat → LSMState → Nat → List SSTableReader → Bool
  | 0, _, _, _ => false
  | fuel + 1, st, level, segmentsToMerge =>
    if segmentsToMerge.isEmpty then true
    else
      let temp := mergeTemp (decide (MAX_LEVEL ≤ level)) segmentsToMerge
      let (id, st2) := st.CreateSSTablePath
      match writeAll (NewSSTableWriter temp.count.toNat) temp.skiplist with
      | none => true
      | some w =>
        if LoadSSTable w.Finalize = .ok (canonicalReader w 0) then
          let targetLevel := if MAX_LEVEL ≤ level then MAX_LEVEL else level + 1
          let tiers1 := ensureTiers st2.tiers targetLevel
          let tiers2 :=
            if level < tiers1.length then
              modifyTier tiers1 level
                (fun segs => removeMerged segs (segmentsToMerge.map SSTableReader.Id))
            else tiers1
          let newSeg : SSTableReader := { canonicalReader w 0 with Id := id }
          let tiers3 := modifyTier tiers2 targetLevel (fun segs => segs ++ [newSeg])
          let nextSegments :=
            if mergeThreshold ≤ ((tiers3.getD targetLevel ⟨0, []⟩).Segments).length then
              some (tiers3.getD targetLevel ⟨0, []⟩).Segments
            else none
          match nextSegments with
          | some next =>
            if targetLevel < MAX_LEVEL then
              cascadeCanonB fuel { st2 with tiers := tiers3 } targetLevel next
            else true
          | none => true
        else false

/-- One atomic action of the sequential engine machine; `none` when the
action is not enabled (or the model declines the pathological parse, see
`cascadeCanonB`).  The WAL bookkeeping (`UpdateActiveWAL`, WAL file
deletion after flush) has no effect on any `Get` and is not tracked. -/
def applyOp (s : V6Store) : StoreOp → Option V6Store
  | .setOp key value =>
    match s.memtable.Insert key value with
    | .error _ => none
    | .ok mt => some { s with memtable := mt }
  | .rotateOp stale =>
    if s.memtable.ShouldFlush s.maxMemSize ∧ s.immutable = none then
      let fresh : MemTable :=
        { emptyMemTable with wal := some { buffered := [], osFile := [], durable := [] } }
      let newMem :=
        if stale then
          { s.memtable with wal := (some { buffered := [], osFile := [], durable := [] } : Option WAL) }
        else fresh
      some { s with
        memtable := newMem
        immutable := some s.memtable.MakeReadOnly }
    else none
  | .flushOp =>
    match s.immutable with
    | none => none
    | some m =>
      let p := s.lsm.CreateSSTablePath
      match writeAll (NewSSTableWriter m.count.toNat) m.skiplist with
      | none => none
      | some w =>
        if LoadSSTable w.Finalize = .ok (canonicalReader w 0) then
          let added := p.2.AddSSTable (canonicalReader w 0)
          some { s with immutable := none, lsm := added.1 }
        else none
  | .mergeOp =>
    match s.lsm.tiers with
    | [] => none
    | t0 :: rest =>
      if mergeThreshold ≤ t0.Segments.length ∧
          cascadeCanonB (MAX_LEVEL + 2) s.lsm 0 t0.Segments then
        match runMergeCycle (MAX_LEVEL + 2) s.lsm 0 t0.Segments with
        | .error _ => none
        | .ok (st2, _dels) => some { s with lsm := st2 }
      else none

/-- Running a list of machine operations in order. -/
def runOps (s : V6Store) : List StoreOp → Option V6Store
  | [] => some s
  | op :: rest =>
    match applyOp s op with
    | none => none
    | some s2 => runOps s2 rest

/-- The operations that write key `k` through the public API: a `Set` on
`k` (of which `Delete` is the tombstone special case). -/
def writesKey (k : Bytes) : StoreOp → Bool
  | .setOp key _ => key = k
  | _ => false

/-! ## Statement-side helpers -/

/-- The byte stream of a list of WAL records (type, key, value), used to
state replay properties. -/
def encodeWAL (es : List (Nat × Bytes × Bytes)) : Bytes :=
  (es.map (fun e => walFrame e.1 e.2.1 e.2.2)).flatten

/-- The effect a replayed WAL record has on a (writable) memtable. -/
def applyWALEntry (mt : MemTable) (e : Nat × Bytes × Bytes) : MemTable :=
  if e.1 = WALEntryPut then
    match mt.Insert e.2.1 e.2.2 with
    | .ok m => m
    | .error _ => mt
  else
    match mt.Delete e.2.1 with
    | .ok (m, _) => m
    | .error _ => mt

/-- The effect of a whole record list. -/
def applyWALEntries (mt : MemTable) (es : List (Nat × Bytes × Bytes)) : MemTable :=
  es.foldl applyWALEntry mt

/-! ## Safe byte strings, sorted entry lists, and run views -/

/-- Keys the engine's plaintext file format stores faithfully: non-empty,
free of the separator bytes the format itself uses (`\n`, `\r`, `:`, `@`),
and not starting with `-`, the lead byte of the section marker lines that
`ReadAllRecords` tests line prefixes against. -/
def SafeKey (k : Bytes) : Prop :=
  k ≠ [] ∧ k.headD 0 ≠ 45 ∧ ∀ b ∈ k, b ≠ 10 ∧ b ≠ 13 ∧ b ≠ 58 ∧ b ≠ 64

/-- Values stored faithfully by the record-line format: no line breaks.
(A value may contain `:`: the record split keeps everything after the
first colon, and a safe key contains none.) -/
def SafeVal (v : Bytes) : Prop :=
  ∀ b ∈ v, b ≠ 10 ∧ b ≠ 13

instance decSafeKey : DecidablePred SafeKey := fun k => by
  unfold SafeKey; infer_instance

instance decSafeVal : DecidablePred SafeVal := fun v => by
  unfold SafeVal; infer_instance

/-- A strictly key-sorted entry list of safe keys and values — the shape of
every skip list and of every flushed table in a run of the engine. -/
def SortedSafe (es : List Entry) : Prop :=
  es.Pairwise (fun a b => bytesCompare a.1 b.1 < 0) ∧
  ∀ e ∈ es, SafeKey e.1 ∧ SafeVal e.2

instance decSortedSafe : DecidablePred SortedSafe := fun es => by
  unfold SortedSafe; infer_instance

/-- The record region of a table holding `es`: its record lines in order. -/
def dataRegion (es : List Entry) : Bytes :=
  (es.map (fun e => recordLine e.1 e.2)).flatten

/-- The footer `Finalize` writes for writer state `w`. -/
def writerFooter (w : SSTableWriter) : Bytes :=
  footerText (w.dataOffset + 15) ((w.index.map indexLine).flatten).length
    (w.dataOffset + 15 + ((w.index.map indexLine).flatten).length + 15)
    w.bloom.Marshal.length w.minKey w.maxKey

/-- Decidable side condition of `LoadSSTable`'s footer discovery: the
footer fits in the 256-byte tail window and the window's first occurrence
of the footer marker is the footer itself (the marker does not also occur
in the tail of the Bloom bit region). -/
def footerWindowOK (w : SSTableWriter) : Prop :=
  (writerFooter w).length ≤ 256 ∧
  bytesIndexOf footerMarker ((w.Finalize).drop ((w.Finalize).length - 256)) =
    some (((w.Finalize).drop ((w.Finalize).length - 256)).length - (writerFooter w).length)

instance decFooterWindowOK : DecidablePred footerWindowOK := fun w => by
  unfold footerWindowOK; infer_instance

/-- The newest value a record list gives a key (later records override
earlier ones, as in the merger's transient memtable). -/
def lastAssoc (rs : List Entry) (k : Bytes) : Option Bytes :=
  rs.foldl (fun acc e => if e.1 = k then some e.2 else acc) none

/-- All records of a segment list, oldest segment first (the order
`performMerge` reads them in). -/
def allRecords (segs : List SSTableReader) : List Entry :=
  (segs.map SSTableReader.ReadAllRecords).flatten

/-- Comparison variant of `performMerge` with the tombstone-drop branch
hardwired off, used to state claim C3: the engine cycle coincides with it
from level 0 on, so the drop branch is dead in every engine-initiated
merge. -/
def performMergeRetain (st : LSMState) (level : Nat) (segments : List SSTableReader) :
    Except String (SSTableReader × LSMState) :=
  if segments.isEmpty then .error "cannot merge zero segments"
  else
    let temp := mergeTemp false segments
    let (id, st2) := st.CreateSSTablePath
    match temp.Flush with
    | none => .error "could not flush merged data to SSTable"
    | some file =>
      match LoadSSTable file with
      | .error e => .error e
      | .ok r => .ok ({ r with Id := id }, st2)

/-- Comparison variant of `runMergeCycle` built on `performMergeRetain`:
a cycle that never drops a tombstone. -/
def runMergeCycleRetain : Nat → LSMState → Nat → List SSTableReader →
    Except String (LSMState × List SSTableReader)
  | 0, _, _, _ => .error "fuel exhausted"
  | fuel + 1, st, level, segmentsToMerge =>
    match performMergeRetain st level segmentsToMerge with
    | .error e => .error e
    | .ok (newSeg, st2) =>
      let targetLevel := if MAX_LEVEL ≤ level then MAX_LEVEL else level + 1
      let tiers1 := ensureTiers st2.tiers targetLevel
      let tiers2 :=
        if level < tiers1.length then
          modifyTier tiers1 level
            (fun segs => removeMerged segs (segmentsToMerge.map SSTableReader.Id))
        else tiers1
      let tiers3 := modifyTier tiers2 targetLevel (fun segs => segs ++ [newSeg])
      let nextSegments :=
        if mergeThreshold ≤ ((tiers3.getD targetLevel ⟨0, []⟩).Segments).length then
          some (tiers3.getD targetLevel ⟨0, []⟩).Segments
        else none
      let st3 := { st2 with tiers := tiers3 }
      match nextSegments with
      | some next =>
        if targetLevel < MAX_LEVEL then
          match runMergeCycleRetain fuel st3 targetLevel next with
          | .error e => .error e
          | .ok (st4, dels) => .ok (st4, segmentsToMerge ++ dels)
        else .ok (st3, segmentsToMerge)
      | none => .ok (st3, segmentsToMerge)

/-- A live segment whose observable behaviour is that of contents `es`:
reads of safe keys answer from `es` (a miss is a non-panicking error), and
the merger's bulk read returns exactly `es`. -/
def GoodSeg (r : SSTableReader) (es : List Entry) : Prop :=
  SortedSafe es ∧
  (∀ k, SafeKey k →
    match slFind es k with
    | some v => r.Get k = .ok v
    | none => r.Get k = .error .outOfRange ∨ r.Get k = .error .notFound) ∧
  r.ReadAllRecords = es

/-- Lookup over a list of segment contents, newest first. -/
def segsView : List (List Entry) → Bytes → Option Bytes
  | [], _ => none
  | es :: rest, k =>
    match slFind es k with
    | some v => some v
    | none => segsView rest k

/-- Lookup over tiers of segment contents (each tier's inner list in
segment order, oldest first; the search runs newest segment first within a
tier, shallowest tier first). -/
def tiersView : List (List (List Entry)) → Bytes → Option Bytes
  | [], _ => none
  | css :: rest, k =>
    match segsView css.reverse k with
    | some v => some v
    | none => tiersView rest k

/-- A tier list realizes a table of contents: segment-by-segment `GoodSeg`. -/
def TiersGood (tiers : List Tier) (tss : List (List (List Entry))) : Prop :=
  List.Forall₂ (fun t css => List.Forall₂ GoodSeg t.Segments css) tiers tss

/-- The raw layered lookup of `V6Store.Get`, before the tombstone filter. -/
def rawFind (s : V6Store) (key : Bytes) : Except GetErr (Option Bytes) :=
  match s.memtable.Find key with
  | some val => .ok (some val)
  | none =>
    match s.immutable.bind (fun m => m.Find key) with
    | some val => .ok (some val)
    | none => lsmGet key s.lsm.tiers

/-- The reachable-state invariant of the engine machine, annotated with the
logical contents `M` (the merged view of all layers). -/
def Inv (s : V6Store) (M : List Entry) : Prop :=
  SortedSafe s.memtable.skiplist ∧
  s.memtable.readOnly = false ∧
  (∀ m, s.immutable = some m → SortedSafe m.skiplist) ∧
  (∃ tss, TiersGood s.lsm.tiers tss) ∧
  SortedSafe M ∧
  (∀ k, SafeKey k → rawFind s k = .ok (slFind M k))

/-- The value of the newest `Set` to `k` in an operation sequence (of which
`Delete` is the tombstone special case). -/
def lastWrite (ops : List StoreOp) (k : Bytes) : Option Bytes :=
  ops.foldl
    (fun acc op =>
      match op with
      | .setOp k2 v => if k2 = k then some v else acc
      | _ => acc)
    none

/-- Operation arguments the plaintext format carries faithfully (claims C1
and C9 are settled for these). -/
def opSafe : StoreOp → Prop
  | .setOp k v => SafeKey k ∧ SafeVal v
  | _ => True

instance decOpSafe : DecidablePred opSafe := fun op => by
  cases op <;> simp only [opSafe] <;> infer_instance

/-- The abstract effect of one machine operation on the logical contents:
a `Set` (or `Delete`, its tombstone form) updates the map, everything else
only moves data between layers. -/
def applyView (M : List Entry) : StoreOp → List Entry
  | .setOp k v => slInsert M k v
  | _ => M

/-- The logical contents after a whole operation sequence. -/
def runView (M : List Entry) (ops : List StoreOp) : List Entry :=
  ops.foldl applyView M

/-- Concrete one-record segment (key `k`, tombstone value) used to drive a
concrete merge cascade; the reader is the canonical load of the flushed
one-entry table, stamped with id `i` as the merger does. -/
def C3seg (i : Nat) : SSTableReader :=
  { canonicalReader ((writeAll (NewSSTableWriter 1) [([107], TOMBSTONE_VALUE)]).getD
      (NewSSTableWriter 1)) 0 with Id := i }

def C3st : LSMState :=
  { tiers := [ { Level := 0, Segments := [C3seg 0, C3seg 1, C3seg 2, C3seg 3] },
               { Level := 1, Segments := [C3seg 4, C3seg 5, C3seg 6] } ],
    nextEntryID := 7 }

/-! ### Bloom filter theory -/

theorem splitOnce_snd_length {sep : Nat} :
    ∀ {s a b : Bytes}, splitOnce sep s = some (a, b) → b.length < s.length := by
  intro s
  induction s with
  | nil => intro a b h; simp [splitOnce] at h
  | cons c rest ih =>
    intro a b h
    simp only [splitOnce] at h
    by_cases hc : c = sep
    · simp [hc] at h
      simp [← h.2]
    · simp only [hc, if_false, Option.map_eq_some'] at h
      obtain ⟨p, hp, hpe⟩ := h
      cases p with
      | mk p1 p2 =>
        have := @ih p1 p2 hp
        cases hpe
        simpa using Nat.lt_succ_of_lt this

theorem shiftLeft_lor_eq_add {b : Nat} (a k : Nat) (hb : b < 2 ^ k) :
    (a <<< k) ||| b = 2 ^ k * a + b := by
  refine Nat.eq_of_testBit_eq fun j => ?_
  rw [Nat.testBit_lor, Nat.testBit_shiftLeft, Nat.testBit_mul_pow_two_add a hb]
  by_cases hj : j < k
  · simp [Nat.not_le.mpr hj, hj]
  · have hbj : b.testBit j = false :=
      Nat.testBit_lt_two_pow (lt_of_lt_of_le hb (Nat.pow_le_pow_right (by omega) (by omega)))
    simp [Nat.le_of_not_lt hj, hj, hbj]

theorem unbe32_be32 {x : Nat} (hx : x < 4294967296) :
    unbe32 (x / 16777216 % 256) (x / 65536 % 256) (x / 256 % 256) (x % 256) = x := by
  unfold unbe32
  rw [Nat.lor_assoc, Nat.lor_assoc]
  rw [shiftLeft_lor_eq_add _ 8 (by omega)]
  rw [shiftLeft_lor_eq_add _ 16 (by omega)]
  rw [shiftLeft_lor_eq_add _ 24 (by omega)]
  omega

theorem BloomFilter.setBit_fields {bf bf2 : BloomFilter} {q : Nat}
    (h : bf.setBit q = some bf2) :
    bf2.numBits = bf.numBits ∧ bf2.numHashes = bf.numHashes ∧
      bf2.bits.length = bf.bits.length := by
  unfold BloomFilter.setBit at h
  cases hb : bf.bits[q / 8]? with
  | none => rw [hb] at h; simp at h
  | some b => rw [hb] at h; cases h; simp

theorem BloomFilter.getBit_setBit {bf bf2 : BloomFilter} {q pos : Nat}
    (h : bf.setBit q = some bf2) (hp : bf.getBit pos = some true) :
    bf2.getBit pos = some true := by
  unfold BloomFilter.setBit at h
  cases hb : bf.bits[q / 8]? with
  | none => rw [hb] at h; simp at h
  | some b =>
    rw [hb] at h
    cases h
    unfold BloomFilter.getBit at hp ⊢
    cases hp2 : bf.bits[pos / 8]? with
    | none => rw [hp2] at hp; simp at hp
    | some c =>
      rw [hp2] at hp
      simp only [Option.some.injEq] at hp
      have h1 : (c &&& 2 ^ (pos % 8)) ≠ 0 := by
        simpa [Nat.shiftLeft_eq, bne_iff_ne] using hp
      have h2 : c.testBit (pos % 8) = true := by
        rcases hct : c.testBit (pos % 8) with _ | _
        · rw [Nat.and_two_pow, hct] at h1; simp at h1
        · rfl
      by_cases heq : pos / 8 = q / 8
      · rw [heq] at hp2
        have hcb : c = b := Option.some.inj (hp2.symm.trans hb)
        subst hcb
        have hlt : q / 8 < bf.bits.length := (List.getElem?_eq_some_iff.mp hp2).1
        rw [heq, List.getElem?_set_self hlt]
        have h3 : (c ||| 1 <<< (q % 8)).testBit (pos % 8) = true := by
          rw [Nat.testBit_lor, h2]; simp
        have h5 : 0 < 2 ^ (pos % 8) := Nat.pos_pow_of_pos _ (by omega)
        have h4 : ((c ||| 1 <<< (q % 8)) &&& 2 ^ (pos % 8)) ≠ 0 := by
          rw [Nat.and_two_pow, h3]
          simpa using h5.ne'
        simpa [Nat.shiftLeft_eq, bne_iff_ne] using h4
      · rw [List.getElem?_set_ne (by omega), hp2]
        simpa [Nat.shiftLeft_eq, bne_iff_ne] using h1

theorem BloomFilter.getBit_setBitsAt {bf bf2 : BloomFilter} {h1 h2 pos : Nat} {L : List Nat}
    (h : bf.setBitsAt h1 h2 L = some bf2) (hp : bf.getBit pos = some true) :
    bf2.getBit pos = some true := by
  induction L generalizing bf with
  | nil => unfold BloomFilter.setBitsAt at h; cases h; exact hp
  | cons i rest ih =>
    unfold BloomFilter.setBitsAt at h
    simp only [Option.bind_eq_bind, Option.bind_eq_some'] at h
    obtain ⟨p, _, bfm, hset, hrest⟩ := h
    exact ih hrest (BloomFilter.getBit_setBit hset hp)

theorem BloomFilter.setBitsAt_fields {bf bf2 : BloomFilter} {h1 h2 : Nat} {L : List Nat}
    (h : bf.setBitsAt h1 h2 L = some bf2) :
    bf2.numBits = bf.numBits ∧ bf2.numHashes = bf.numHashes ∧
      bf2.bits.length = bf.bits.length := by
  induction L generalizing bf with
  | nil => unfold BloomFilter.setBitsAt at h; cases h; exact ⟨rfl, rfl, rfl⟩
  | cons i rest ih =>
    unfold BloomFilter.setBitsAt at h
    simp only [Option.bind_eq_bind, Option.bind_eq_some'] at h
    obtain ⟨p, _, bfm, hset, hrest⟩ := h
    have ha := BloomFilter.setBit_fields hset
    have hb := ih hrest
    omega

theorem BloomFilter.setBitsAt_sets {bf bf2 : BloomFilter} {h1 h2 : Nat} {L : List Nat}
    (h : bf.setBitsAt h1 h2 L = some bf2) :
    ∀ i ∈ L, ∃ pos, bloomPos h1 h2 bf.numBits i = some pos ∧
      bf2.getBit pos = some true := by
  induction L generalizing bf with
  | nil => intro i hi; simp at hi
  | cons j rest ih =>
    unfold BloomFilter.setBitsAt at h
    simp only [Option.bind_eq_bind, Option.bind_eq_some'] at h
    obtain ⟨p, hpos, bfm, hset, hrest⟩ := h
    intro i hi
    rcases List.mem_cons.mp hi with hij | hmem
    · subst hij
      refine ⟨p, hpos, ?_⟩
      refine BloomFilter.getBit_setBitsAt hrest ?_
      unfold BloomFilter.setBit at hset
      cases hb : bf.bits[p / 8]? with
      | none => rw [hb] at hset; simp at hset
      | some b =>
        rw [hb] at hset
        cases hset
        unfold BloomFilter.getBit
        have hlt : p / 8 < bf.bits.length := (List.getElem?_eq_some_iff.mp hb).1
        rw [List.getElem?_set_self hlt]
        have h3 : (b ||| 1 <<< (p % 8)).testBit (p % 8) = true := by
          rw [Nat.testBit_lor]
          simp [Nat.shiftLeft_eq, Nat.testBit_two_pow_self]
        have h5 : 0 < 2 ^ (p % 8) := Nat.pos_pow_of_pos _ (by omega)
        have h4 : ((b ||| 1 <<< (p % 8)) &&& 2 ^ (p % 8)) ≠ 0 := by
          rw [Nat.and_two_pow, h3]
          simpa using h5.ne'
        simpa [Nat.shiftLeft_eq, bne_iff_ne] using h4
    · obtain ⟨pos, hpos2, hget⟩ :=
        ih hrest i hmem
      have hf := BloomFilter.setBit_fields hset
      rw [hf.1] at hpos2
      exact ⟨pos, hpos2, hget⟩

theorem BloomFilter.checkBitsAt_of_all {bf : BloomFilter} {h1 h2 : Nat} {L : List Nat}
    (hall : ∀ i ∈ L, ∃ pos, bloomPos h1 h2 bf.numBits i = some pos ∧
      bf.getBit pos = some true) :
    bf.checkBitsAt h1 h2 L = some true := by
  induction L with
  | nil => rfl
  | cons j rest ih =>
    obtain ⟨pos, hpos, hget⟩ := hall j (by simp)
    unfold BloomFilter.checkBitsAt
    rw [hpos]
    simp only [Option.bind_eq_bind, Option.some_bind]
    rw [hget]
    simp only [Option.some_bind, if_true]
    exact ih fun i hi => hall i (by simp [hi])

/-- Fields other than `bits` and the counters do not exist, so `getBit` of a
`numItems` update is unchanged. -/
theorem BloomFilter.getBit_setItems {bf : BloomFilter} {x pos : Nat} :
    BloomFilter.getBit { bf with numItems := x } pos = bf.getBit pos := rfl

theorem BloomFilter.Add_fields {bf bf2 : BloomFilter} {key : Bytes}
    (h : bf.Add key = some bf2) :
    bf2.numBits = bf.numBits ∧ bf2.numHashes = bf.numHashes ∧
      bf2.bits.length = bf.bits.length := by
  unfold BloomFilter.Add at h
  simp only [Option.map_eq_some'] at h
  obtain ⟨b, hb, hbe⟩ := h
  have := BloomFilter.setBitsAt_fields hb
  cases hbe
  simpa using this

theorem BloomFilter.getBit_Add {bf bf2 : BloomFilter} {key : Bytes} {pos : Nat}
    (h : bf.Add key = some bf2) (hp : bf.getBit pos = some true) :
    bf2.getBit pos = some true := by
  unfold BloomFilter.Add at h
  simp only [Option.map_eq_some'] at h
  obtain ⟨b, hb, hbe⟩ := h
  cases hbe
  rw [BloomFilter.getBit_setItems]
  exact BloomFilter.getBit_setBitsAt hb hp

theorem BloomFilter.Add_sets {bf bf2 : BloomFilter} {key : Bytes}
    (h : bf.Add key = some bf2) :
    ∀ i ∈ List.range bf.numHashes, ∃ pos,
      bloomPos (bloomHash key).1 (bloomHash key).2 bf.numBits i = some pos ∧
        bf2.getBit pos = some true := by
  unfold BloomFilter.Add at h
  simp only [Option.map_eq_some'] at h
  obtain ⟨b, hb, hbe⟩ := h
  intro i hi
  obtain ⟨pos, hpos, hget⟩ := BloomFilter.setBitsAt_sets hb i hi
  cases hbe
  exact ⟨pos, hpos, hget⟩

theorem addAll_fields {bf bf2 : BloomFilter} {keys : List Bytes}
    (h : addAll bf keys = some bf2) :
    bf2.numBits = bf.numBits ∧ bf2.numHashes = bf.numHashes ∧
      bf2.bits.length = bf.bits.length := by
  induction keys generalizing bf with
  | nil => cases h; exact ⟨rfl, rfl, rfl⟩
  | cons k rest ih =>
    unfold addAll at h
    simp only [List.foldlM_cons, Option.bind_eq_bind, Option.bind_eq_some'] at h
    obtain ⟨b, hb, hrest⟩ := h
    have h1 := BloomFilter.Add_fields hb
    have h2 := ih hrest
    omega

theorem getBit_addAll {bf bf2 : BloomFilter} {keys : List Bytes} {pos : Nat}
    (h : addAll bf keys = some bf2) (hp : bf.getBit pos = some true) :
    bf2.getBit pos = some true := by
  induction keys generalizing bf with
  | nil => cases h; exact hp
  | cons k rest ih =>
    unfold addAll at h
    simp only [List.foldlM_cons, Option.bind_eq_bind, Option.bind_eq_some'] at h
    obtain ⟨b, hb, hrest⟩ := h
    exact ih hrest (BloomFilter.getBit_Add hb hp)

/-- Core no-false-negative fact: a key added anywhere in a completed
insertion history passes `MayContain` on the final filter. -/
theorem mayContain_addAll {bf bf2 : BloomFilter} {keys : List Bytes} {k : Bytes}
    (h : addAll bf keys = some bf2) (hk : k ∈ keys) :
    bf2.MayContain k = some true := by
  induction keys generalizing bf with
  | nil => simp at hk
  | cons k0 rest ih =>
    unfold addAll at h
    simp only [List.foldlM_cons, Option.bind_eq_bind, Option.bind_eq_some'] at h
    obtain ⟨b, hb, hrest⟩ := h
    rcases List.mem_cons.mp hk with hk0 | hmem
    · subst hk0
      unfold BloomFilter.MayContain
      refine BloomFilter.checkBitsAt_of_all ?_
      intro i hi
      have hfb := BloomFilter.Add_fields hb
      have hrest' : addAll b rest = some bf2 := hrest
      have hfr := addAll_fields hrest'
      have hi' : i ∈ List.range bf.numHashes := by
        rwa [hfr.2.1, hfb.2.1] at hi
      obtain ⟨pos, hpos, hget⟩ := BloomFilter.Add_sets hb i hi'
      refine ⟨pos, ?_, getBit_addAll hrest' hget⟩
      rw [hfr.1, hfb.1]
      exact hpos
    · exact ih hrest hmem

/-! ### Bloom filter totality -/

theorem bloomPos_lt {h1 h2 nb i pos : Nat} (h : bloomPos h1 h2 nb i = some pos) :
    pos < nb := by
  unfold bloomPos at h
  by_cases hnb : nb = 0
  · simp [hnb] at h
  · simp only [hnb, if_false, Option.some.injEq] at h
    exact h ▸ Nat.mod_lt _ (Nat.pos_of_ne_zero hnb)

theorem BloomFilter.setBit_isSome {bf : BloomFilter} {pos : Nat}
    (h : pos / 8 < bf.bits.length) : (bf.setBit pos).isSome := by
  unfold BloomFilter.setBit
  rw [List.getElem?_eq_getElem h]
  rfl

theorem BloomFilter.getBit_isSome {bf : BloomFilter} {pos : Nat}
    (h : pos / 8 < bf.bits.length) : (bf.getBit pos).isSome := by
  unfold BloomFilter.getBit
  rw [List.getElem?_eq_getElem h]
  rfl

theorem BloomFilter.setBitsAt_isSome {bf : BloomFilter} {h1 h2 : Nat} (L : List Nat)
    (hnb : 0 < bf.numBits) (hwf : bf.bits.length = (bf.numBits + 7) / 8) :
    (bf.setBitsAt h1 h2 L).isSome := by
  induction L generalizing bf with
  | nil => simp [BloomFilter.setBitsAt]
  | cons i rest ih =>
    unfold BloomFilter.setBitsAt
    have hpos : bloomPos h1 h2 bf.numBits i =
        some ((h1 + i * h2) % 4294967296 % bf.numBits) := by
      unfold bloomPos
      simp [hnb.ne']
    rw [hpos]
    simp only [Option.bind_eq_bind, Option.some_bind]
    have hlt : (h1 + i * h2) % 4294967296 % bf.numBits < bf.numBits :=
      Nat.mod_lt _ hnb
    have hdiv : (h1 + i * h2) % 4294967296 % bf.numBits / 8 < bf.bits.length := by
      rw [hwf]; omega
    obtain ⟨bf2, hbf2⟩ := Option.isSome_iff_exists.mp (BloomFilter.setBit_isSome hdiv)
    rw [hbf2]
    simp only [Option.some_bind]
    have hf := BloomFilter.setBit_fields hbf2
    exact ih (hf.1 ▸ hnb) (by rw [hf.2.2, hf.1]; exact hwf)

theorem BloomFilter.Add_isSome {bf : BloomFilter} (key : Bytes)
    (hnb : 0 < bf.numBits) (hwf : bf.bits.length = (bf.numBits + 7) / 8) :
    (bf.Add key).isSome := by
  unfold BloomFilter.Add
  simp only [Option.isSome_map']
  exact BloomFilter.setBitsAt_isSome _ hnb hwf

theorem BloomFilter.checkBitsAt_isSome {bf : BloomFilter} {h1 h2 : Nat} (L : List Nat)
    (hnb : 0 < bf.numBits) (hwf : bf.bits.length = (bf.numBits + 7) / 8) :
    (bf.checkBitsAt h1 h2 L).isSome := by
  induction L with
  | nil => simp [BloomFilter.checkBitsAt]
  | cons i rest ih =>
    unfold BloomFilter.checkBitsAt
    have hpos : bloomPos h1 h2 bf.numBits i =
        some ((h1 + i * h2) % 4294967296 % bf.numBits) := by
      unfold bloomPos
      simp [hnb.ne']
    rw [hpos]
    simp only [Option.bind_eq_bind, Option.some_bind]
    have hlt : (h1 + i * h2) % 4294967296 % bf.numBits < bf.numBits :=
      Nat.mod_lt _ hnb
    have hdiv : (h1 + i * h2) % 4294967296 % bf.numBits / 8 < bf.bits.length := by
      rw [hwf]; omega
    obtain ⟨b, hb⟩ := Option.isSome_iff_exists.mp (BloomFilter.getBit_isSome hdiv)
    rw [hb]
    simp only [Option.some_bind]
    cases b
    · simp
    · simpa using ih

theorem BloomFilter.MayContain_isSome {bf : BloomFilter} (key : Bytes)
    (hnb : 0 < bf.numBits) (hwf : bf.bits.length = (bf.numBits + 7) / 8) :
    (bf.MayContain key).isSome :=
  BloomFilter.checkBitsAt_isSome _ hnb hwf

theorem BloomFilter.Add_none {bf : BloomFilter} (hnb : bf.numBits = 0)
    (hh : 0 < bf.numHashes) (key : Bytes) : bf.Add key = none := by
  unfold BloomFilter.Add
  obtain ⟨m, hm⟩ : ∃ m, bf.numHashes = m + 1 :=
    ⟨bf.numHashes - 1, by omega⟩
  rw [hm, List.range_succ_eq_map]
  unfold BloomFilter.setBitsAt
  unfold bloomPos
  simp [hnb]

theorem BloomFilter.MayContain_none {bf : BloomFilter} (hnb : bf.numBits = 0)
    (hh : 0 < bf.numHashes) (key : Bytes) : bf.MayContain key = none := by
  unfold BloomFilter.MayContain
  obtain ⟨m, hm⟩ : ∃ m, bf.numHashes = m + 1 :=
    ⟨bf.numHashes - 1, by omega⟩
  rw [hm, List.range_succ_eq_map]
  unfold BloomFilter.checkBitsAt
  unfold bloomPos
  simp [hnb]

theorem mkBloomFilter_wf (nb nh : Nat) :
    (mkBloomFilter nb nh).bits.length = ((mkBloomFilter nb nh).numBits + 7) / 8 := by
  simp [mkBloomFilter]

/-! ### Claim C8 — Bloom no-false-negative -/

/-- C8: for every Bloom filter and every completed sequence of `Add`
operations, `MayContain` returns true on the final filter for every key
that was ever added (the `Add` positions `h1 + i*h2 mod numBits` are all
set and are exactly the positions `MayContain` checks). -/
theorem claim_C8_bloom_no_false_negative {bf bf2 : BloomFilter} {keys : List Bytes}
    {k : Bytes} (h : addAll bf keys = some bf2) (hk : k ∈ keys) :
    bf2.MayContain k = some true :=
  mayContain_addAll h hk

theorem claim_C8_witness :
    addAll (NewBloomFilter 2) [sBytes "a", sBytes "b"] =
      some { bits := [129, 191, 15], numBits := 20, numHashes := 7, numItems := 2 } ∧
    BloomFilter.MayContain
      { bits := [129, 191, 15], numBits := 20, numHashes := 7, numItems := 2 }
      (sBytes "a") = some true := by
  have h : addAll (NewBloomFilter 2) [sBytes "a", sBytes "b"] =
      some { bits := [129, 191, 15], numBits := 20, numHashes := 7, numItems := 2 } := by
    decide
  exact ⟨h, claim_C8_bloom_no_false_negative h (by decide)⟩

/-! ### Claim C10 — Bloom construction totality and the zero-count panic -/

/-- C10: with the float sizing read over the reals (`numBits =
uint32(ceil(-n ln p / ln(2)^2))`, stated as the hypothesis on `nb`), a
filter built for `n >= 1` expected keys and `0 < p < 1` has `numBits >= 1`
and its `Add`/`MayContain` never divide by zero nor index out of bounds;
for `n = 0` the computed `numBits` is 0 and any `Add` or `MayContain`
panics on the modulo by zero.  The writer of an empty memtable flush
(`NewSSTableWriter 0`, `expectedKeys = 0`) carries exactly such a filter. -/
theorem claim_C10_bloom_sizing (n : Nat) (p : ℝ) (nb nh : Nat) (key : Bytes)
    (hp : 0 < p ∧ p < 1)
    (hnb : (nb : ℤ) = ⌈-(n : ℝ) * Real.log p / (Real.log 2 * Real.log 2)⌉) :
    (1 ≤ n → 1 ≤ nb ∧ ((mkBloomFilter nb nh).Add key).isSome ∧
      ((mkBloomFilter nb nh).MayContain key).isSome) ∧
    (n = 0 → nb = 0 ∧ (1 ≤ nh →
      (mkBloomFilter nb nh).Add key = none ∧
      (mkBloomFilter nb nh).MayContain key = none)) ∧
    ((NewSSTableWriter 0).bloom.numBits = 0 ∧
      (NewSSTableWriter 0).bloom.Add key = none) := by
  have hlog2 : 0 < Real.log 2 := Real.log_pos (by norm_num)
  constructor
  · intro hn
    have hlogp : Real.log p < 0 := Real.log_neg hp.1 hp.2
    have hx : 0 < -(n : ℝ) * Real.log p / (Real.log 2 * Real.log 2) := by
      apply div_pos
      · have hnpos : (0 : ℝ) < (n : ℝ) := by exact_mod_cast hn
        nlinarith
      · exact mul_pos hlog2 hlog2
    have hceil : 0 < ⌈-(n : ℝ) * Real.log p / (Real.log 2 * Real.log 2)⌉ :=
      Int.ceil_pos.mpr hx
    have hnb1 : 1 ≤ nb := by
      have : (0 : ℤ) < (nb : ℤ) := hnb ▸ hceil
      exact_mod_cast this
    have hnbpos : 0 < (mkBloomFilter nb nh).numBits := by
      simpa [mkBloomFilter] using hnb1
    exact ⟨hnb1, BloomFilter.Add_isSome key hnbpos (mkBloomFilter_wf nb nh),
      BloomFilter.MayContain_isSome key hnbpos (mkBloomFilter_wf nb nh)⟩
  · constructor
    · intro hn
      subst hn
      have hzero : (nb : ℤ) = 0 := by
        simpa using hnb
      have hnb0 : nb = 0 := by exact_mod_cast hzero
      refine ⟨hnb0, fun hh => ?_⟩
      have hb : (mkBloomFilter nb nh).numBits = 0 := by simp [mkBloomFilter, hnb0]
      have hhh : 0 < (mkBloomFilter nb nh).numHashes := by simpa [mkBloomFilter] using hh
      exact ⟨BloomFilter.Add_none hb hhh key, BloomFilter.MayContain_none hb hhh key⟩
    · constructor
      · rfl
      · have hb : (NewSSTableWriter 0).bloom.numBits = 0 := rfl
        have hh : 0 < (NewSSTableWriter 0).bloom.numHashes := by
          show 0 < bloomNumHashes01 (bloomNumBits01 0) 0
          decide
        exact BloomFilter.Add_none hb hh key

theorem claim_C10_witness :
    (0 < (1 / 2 : ℝ) ∧ (1 / 2 : ℝ) < 1) ∧
    ((2 : Nat) : ℤ) = ⌈-((1 : Nat) : ℝ) * Real.log (1 / 2) / (Real.log 2 * Real.log 2)⌉ ∧
    (1 ≤ 2 ∧ ((mkBloomFilter 2 1).Add (sBytes "x")).isSome ∧
      ((mkBloomFilter 2 1).MayContain (sBytes "x")).isSome) := by
  have hlog2 : 0 < Real.log 2 := Real.log_pos (by norm_num)
  have hlo : (0.6931471803 : ℝ) < Real.log 2 := Real.log_two_gt_d9
  have hhi : Real.log 2 < 0.6931471808 := Real.log_two_lt_d9
  have hhalf : Real.log ((1 : ℝ) / 2) = -Real.log 2 := by
    rw [one_div, Real.log_inv]
  have hx : -((1 : Nat) : ℝ) * Real.log (1 / 2) / (Real.log 2 * Real.log 2) =
      1 / Real.log 2 := by
    rw [hhalf]
    push_cast
    field_simp
  have hceil : ⌈-((1 : Nat) : ℝ) * Real.log (1 / 2) / (Real.log 2 * Real.log 2)⌉ = 2 := by
    rw [hx, Int.ceil_eq_iff]
    constructor
    · have h1 : (1 : ℝ) < 1 / Real.log 2 := by
        rw [lt_div_iff hlog2]
        nlinarith
      push_cast
      linarith
    · have h1 : (1 : ℝ) / Real.log 2 ≤ 2 := by
        rw [div_le_iff hlog2]
        nlinarith
      push_cast
      linarith
  have hhnb : ((2 : Nat) : ℤ) =
      ⌈-((1 : Nat) : ℝ) * Real.log (1 / 2) / (Real.log 2 * Real.log 2)⌉ := by
    rw [hceil]
    norm_num
  refine ⟨⟨by norm_num, by norm_num⟩, hhnb, ?_⟩
  exact (claim_C10_bloom_sizing 1 (1 / 2) 2 1 (sBytes "x")
    ⟨by norm_num, by norm_num⟩ hhnb).1 (by norm_num)

/-! ### Claim C2 — WAL flush is not fsync -/

/-- C2 counterexample: a successful `Set` whose mutation is not durable.
Inserting into the fresh store's memtable succeeds (the Go `Set` returns
nil), the frame reaches the OS file, but the durable prefix of the WAL is
still empty — `WriteEntry` never calls `file.Sync()`. -/
theorem claim_C2_counterexample :
    NewV6Store.memtable.Insert (sBytes "a") (sBytes "1") =
      .ok { skiplist := [(sBytes "a", sBytes "1")], size := 2, count := 1,
            readOnly := false,
            wal := some { buffered := []
                          osFile := walFrame WALEntryPut (sBytes "a") (sBytes "1")
                          durable := [] } } := by
  decide

/-- C2 amended: every successful mutation is flushed from the user-space
buffer to the OS file before `WriteEntry` returns, but it is not fsynced:
`durable` only advances on an explicit `WAL.Sync`, which the `Set` path
(`MemTable.Insert` calling `WritePut`) never issues. -/
theorem claim_C2_flush_per_entry_no_fsync (w : WAL) (entryType : Nat) (key value : Bytes) :
    (w.WriteEntry entryType key value).osFile =
        w.osFile ++ w.buffered ++ walFrame entryType key value ∧
    (w.WriteEntry entryType key value).durable = w.durable ∧
    (w.WriteEntry entryType key value).buffered = [] ∧
    w.Sync.durable = w.osFile ++ w.buffered ∧
    (∀ mt mt' : MemTable, mt.Insert key value = .ok mt' →
      mt'.wal.map WAL.durable = mt.wal.map WAL.durable) := by
  refine ⟨rfl, rfl, rfl, rfl, ?_⟩
  intro mt mt' h
  unfold MemTable.Insert at h
  by_cases hro : mt.readOnly
  · simp [hro] at h
  · simp only [hro, if_false] at h
    cases hf : slFind mt.skiplist key with
    | some existing =>
      rw [hf] at h
      cases h
      cases hw : mt.wal with
      | none => simp [hw]
      | some w0 => simp [hw, WAL.WritePut, WAL.WriteEntry]
    | none =>
      rw [hf] at h
      cases h
      cases hw : mt.wal with
      | none => simp [hw]
      | some w0 => simp [hw, WAL.WritePut, WAL.WriteEntry]

theorem claim_C2_witness :
    WAL.WriteEntry { buffered := [], osFile := [], durable := [] } WALEntryPut
        (sBytes "a") (sBytes "1") =
      { buffered := [], osFile := walFrame WALEntryPut (sBytes "a") (sBytes "1"),
        durable := [] } ∧
    MemTable.Insert emptyMemTable (sBytes "a") (sBytes "1") =
      .ok { skiplist := [(sBytes "a", sBytes "1")], size := 2, count := 1,
            readOnly := false, wal := none } := by
  constructor
  · have h := claim_C2_flush_per_entry_no_fsync
      { buffered := [], osFile := [], durable := [] } WALEntryPut (sBytes "a") (sBytes "1")
    have h1 := h.1
    have h2 := h.2.1
    have h3 := h.2.2.1
    cases hx : WAL.WriteEntry { buffered := [], osFile := [], durable := [] } WALEntryPut
        (sBytes "a") (sBytes "1")
    rw [hx] at h1 h2 h3
    simp at h1 h2 h3
    simp [h1, h2, h3]
  · decide

/-! ### Claim C7 — memtable size accounting, broken by plaintext replay -/

/-- C7 evaluated at the failing input: the plaintext WAL `PUT a:1`, `PUT
a:22` replays to a memtable holding the single entry `a -> 22` (sum of
key+value lengths 3, one entry), while the accounting says `size = 5`,
`count = 2`: the replay PUT path never checks whether the key already
exists. -/
theorem claim_C7_plaintext_replay_overcount :
    ReplayWALPlain (sBytes "PUT a:1\nPUT a:22\n") emptyMemTable =
      .ok { skiplist := [(sBytes "a", sBytes "22")], size := 5, count := 2,
            readOnly := false, wal := none } ∧
    entriesSize [(sBytes "a", sBytes "22")] = 3 ∧
    ([(sBytes "a", sBytes "22")] : List Entry).length = 1 := by
  refine ⟨by decide, by decide, rfl⟩

/-! ### Claim C4 — the sparse index captures only the first record -/

theorem SSTableWriter.Append_index_length {w w' : SSTableWriter} {k v : Bytes}
    (h : w.Append k v = some w') :
    w'.index.length =
      (if w.index.length = 0 ∨ w.index.length % 16 = 0 then w.index.length + 1
       else w.index.length) := by
  unfold SSTableWriter.Append at h
  dsimp only at h
  cases hb : w.bloom.Add k with
  | none => rw [hb] at h; simp at h
  | some b2 =>
    rw [hb] at h
    simp only [Option.some.injEq] at h
    subst h
    by_cases hc : w.index = [] ∨ w.index.length % 16 = 0
    · simp [hc]
    · simp [hc, List.length_eq_zero]

theorem writeAll_index_length_one {es : List Entry} :
    ∀ {w w' : SSTableWriter}, w.index.length = 1 → writeAll w es = some w' →
      w'.index.length = 1 := by
  induction es with
  | nil => intro w w' h1 h; cases h; exact h1
  | cons e rest ih =>
    intro w w' h1 h
    unfold writeAll at h
    cases ha : w.Append e.1 e.2 with
    | none => rw [ha] at h; simp at h
    | some w2 =>
      rw [ha] at h
      have h2 := SSTableWriter.Append_index_length ha
      rw [h1] at h2
      simp at h2
      exact ih h2 h

/-- C4 (evaluating the code): for every non-empty record sequence the
writer finishes with exactly one sparse-index entry — the condition
`len(index) == 0 || len(index) % 16 == 0` holds only at the very first
append, because the index length stays 1 afterwards and is never again
divisible by 16.  The claim's `ceil(M/16)` entries are not captured. -/
theorem claim_C4_sparse_index_only_first (es : List Entry) (n : Nat)
    (w' : SSTableWriter) (hne : es ≠ []) (h : writeAll (NewSSTableWriter n) es = some w') :
    w'.index.length = 1 := by
  cases es with
  | nil => exact absurd rfl hne
  | cons e rest =>
    unfold writeAll at h
    cases ha : (NewSSTableWriter n).Append e.1 e.2 with
    | none => rw [ha] at h; simp at h
    | some w2 =>
      rw [ha] at h
      have h2 := SSTableWriter.Append_index_length ha
      have h0 : (NewSSTableWriter n).index.length = 0 := rfl
      rw [h0] at h2
      simp at h2
      exact writeAll_index_length_one h2 h

theorem claim_C4_witness :
    ((List.range 17).map (fun i => (([48 + i], [118]) : Entry)) ≠ []) ∧
    (writeAll (NewSSTableWriter 17)
        ((List.range 17).map (fun i => (([48 + i], [118]) : Entry)))).map
      (fun w => w.index.length) = some 1 ∧
    (17 + 15) / 16 = 2 := by
  have hs : (writeAll (NewSSTableWriter 17)
      ((List.range 17).map (fun i => (([48 + i], [118]) : Entry)))).isSome = true := by
    decide
  obtain ⟨w', hw⟩ := Option.isSome_iff_exists.mp hs
  refine ⟨by decide, ?_, by decide⟩
  rw [hw]
  simpa using claim_C4_sparse_index_only_first _ 17 w' (by decide) hw

/-! ### Claim C6 — binary WAL replay and partial tails -/

theorem readFull_append {n : Nat} {a b : Bytes} (h : a.length = n) :
    readFull n (a ++ b) = some (a, b) := by
  unfold readFull
  rw [if_pos (by simp [← h]), List.take_left' h, List.drop_left' h]

theorem readFull_short {n : Nat} {s : Bytes} (h : s.length < n) : readFull n s = none := by
  unfold readFull
  rw [if_neg (by omega)]

theorem crc32Byte_lt {c b : Nat} (hc : c < 4294967296) (hb : b < 4294967296) :
    crc32Byte c b < 4294967296 := by
  unfold crc32Byte
  have hx : c ^^^ b < 4294967296 := by
    have h32 : c ^^^ b < 2 ^ 32 :=
      Nat.xor_lt_two_pow (by exact_mod_cast hc) (by exact_mod_cast hb)
    exact_mod_cast h32
  have step : ∀ (L : List Nat) (x : Nat), x < 4294967296 →
      L.foldl (fun c _ => if c % 2 = 1 then c / 2 ^^^ 3988292384 else c / 2) x < 4294967296 := by
    intro L
    induction L with
    | nil => intro x hx2; simpa using hx2
    | cons i rest ih =>
      intro x hx2
      simp only [List.foldl_cons]
      apply ih
      by_cases hodd : x % 2 = 1
      · rw [if_pos hodd]
        have h1 : x / 2 < 4294967296 := by omega
        have h32 : x / 2 ^^^ 3988292384 < 2 ^ 32 :=
          Nat.xor_lt_two_pow (by exact_mod_cast h1) (by norm_num)
        exact_mod_cast h32
      · rw [if_neg hodd]
        omega
  exact step _ _ hx

theorem crc32_lt {data : Bytes} (h : ∀ b ∈ data, b < 4294967296) :
    crc32 data < 4294967296 := by
  unfold crc32
  have hf : data.foldl crc32Byte 4294967295 < 4294967296 := by
    have step : ∀ (L : Bytes) (x : Nat), (∀ b ∈ L, b < 4294967296) → x < 4294967296 →
        L.foldl crc32Byte x < 4294967296 := by
      intro L
      induction L with
      | nil => intro x _ hx; simpa using hx
      | cons b rest ih =>
        intro x hb hx
        simp only [List.foldl_cons]
        exact ih _ (fun c hc => hb c (by simp [hc]))
          (crc32Byte_lt hx (hb b (by simp)))
    exact step data _ h (by norm_num)
  have h32 : data.foldl crc32Byte 4294967295 ^^^ 4294967295 < 2 ^ 32 :=
    Nat.xor_lt_two_pow (by exact_mod_cast hf) (by norm_num)
  exact_mod_cast h32

theorem beUint32_be32 {x : Nat} (hx : x < 4294967296) : beUint32 (be32 x) = x := by
  unfold beUint32 be32
  exact unbe32_be32 hx

theorem be32_length (x : Nat) : (be32 x).length = 4 := rfl

theorem be32_bytes_lt (x : Nat) : ∀ b ∈ be32 x, b < 4294967296 := by
  intro b hb
  unfold be32 at hb
  simp only [List.mem_cons, List.mem_singleton] at hb
  rcases hb with h | h | h | h | h <;> first | (subst h; omega) | simp at h

theorem MemTable.Insert_ok {mt : MemTable} {k v : Bytes} (hro : mt.readOnly = false) :
    ∃ mt2, mt.Insert k v = .ok mt2 ∧ mt2.readOnly = false ∧
      mt2.skiplist = slInsert mt.skiplist k v := by
  unfold MemTable.Insert
  rw [hro]
  simp only [Bool.false_eq_true, if_false]
  cases hf : slFind mt.skiplist k <;> exact ⟨_, rfl, rfl, rfl⟩

theorem MemTable.Delete_ok {mt : MemTable} {k : Bytes} (hro : mt.readOnly = false) :
    ∃ mt2 b, mt.Delete k = .ok (mt2, b) ∧ mt2.readOnly = false ∧
      mt2.skiplist = slDelete mt.skiplist k := by
  unfold MemTable.Delete
  rw [hro]
  simp only [Bool.false_eq_true, if_false]
  cases hf : slFind mt.skiplist k <;> exact ⟨_, _, rfl, rfl, rfl⟩

theorem applyWALEntry_readOnly {mt : MemTable} {e : Nat × Bytes × Bytes}
    (hro : mt.readOnly = false) : (applyWALEntry mt e).readOnly = false := by
  unfold applyWALEntry
  by_cases h1 : e.1 = WALEntryPut
  · rw [if_pos h1]
    obtain ⟨mt2, heq, hro2, _⟩ := @MemTable.Insert_ok mt e.2.1 e.2.2 hro
    rw [heq]
    exact hro2
  · rw [if_neg h1]
    obtain ⟨mt2, b, heq, hro2, _⟩ := @MemTable.Delete_ok mt e.2.1 hro
    rw [heq]
    exact hro2

/-- A WAL record the engine itself can have written: a known type and
`uint32`-sized key/value whose bytes are genuine bytes. -/
def wellFormedWALEntry (e : Nat × Bytes × Bytes) : Prop :=
  (e.1 = WALEntryPut ∨ e.1 = WALEntryDelete) ∧
    e.2.1.length < 4294967296 ∧ e.2.2.length < 4294967296 ∧
    (∀ b ∈ e.2.1, b < 4294967296) ∧ (∀ b ∈ e.2.2, b < 4294967296)

theorem replayGo_frame {ty : Nat} {k v rest : Bytes} {mt : MemTable} {fuel : Nat}
    (hty : ty = WALEntryPut ∨ ty = WALEntryDelete)
    (hk : k.length < 4294967296) (hv : v.length < 4294967296)
    (hkb : ∀ b ∈ k, b < 4294967296) (hvb : ∀ b ∈ v, b < 4294967296)
    (hro : mt.readOnly = false) :
    replayGo (fuel + 1) (walFrame ty k v ++ rest) mt =
      replayGo fuel rest (applyWALEntry mt (ty, k, v)) := by
  have hbody : walFrameBody ty k v =
      ty :: (be32 (k.length % 4294967296) ++ k ++ be32 (v.length % 4294967296) ++ v) := rfl
  have hkl : k.length % 4294967296 = k.length := Nat.mod_eq_of_lt hk
  have hvl : v.length % 4294967296 = v.length := Nat.mod_eq_of_lt hv
  have hbytes : ∀ b ∈ walFrameBody ty k v, b < 4294967296 := by
    intro b hb
    rw [hbody] at hb
    rcases List.mem_cons.mp hb with h | hb2
    · subst h
      rcases hty with h1 | h1 <;> rw [h1] <;> norm_num [WALEntryPut, WALEntryDelete]
    · have h4 : b ∈ be32 (k.length % 4294967296) ∨ b ∈ k ∨
          b ∈ be32 (v.length % 4294967296) ∨ b ∈ v := by
        simpa [List.mem_append, or_assoc] using hb2
      rcases h4 with h | h | h | h
      · exact be32_bytes_lt _ b h
      · exact hkb b h
      · exact be32_bytes_lt _ b h
      · exact hvb b h
  have hcrc := crc32_lt hbytes
  have hdata : walFrame ty k v ++ rest =
      be32 (crc32 (walFrameBody ty k v)) ++ (walFrameBody ty k v ++ rest) := by
    unfold walFrame
    simp [List.append_assoc]
  rw [hdata]
  conv_lhs => unfold replayGo
  rw [readFull_append (be32_length _)]
  dsimp only
  have hr1 : readFull 1 (walFrameBody ty k v ++ rest) =
      some ([ty],
        (be32 (k.length % 4294967296) ++ k ++ be32 (v.length % 4294967296) ++ v) ++ rest) := by
    rw [hbody]
    exact @readFull_append _ [ty] _ rfl
  rw [hr1]
  dsimp only [List.headD_cons]
  have hr2 : readFull 4
      ((be32 (k.length % 4294967296) ++ k ++ be32 (v.length % 4294967296) ++ v) ++ rest) =
      some (be32 (k.length % 4294967296),
        (k ++ (be32 (v.length % 4294967296) ++ (v ++ rest)))) := by
    rw [show (be32 (k.length % 4294967296) ++ k ++ be32 (v.length % 4294967296) ++ v) ++ rest =
        be32 (k.length % 4294967296) ++ (k ++ (be32 (v.length % 4294967296) ++ (v ++ rest))) by
      simp [List.append_assoc]]
    exact readFull_append (be32_length _)
  rw [hr2]
  dsimp only
  rw [beUint32_be32 (by omega), hkl]
  rw [@readFull_append _ k _ rfl]
  dsimp only
  rw [readFull_append (be32_length _)]
  dsimp only
  rw [beUint32_be32 (by omega), hvl]
  rw [@readFull_append _ v _ rfl]
  dsimp only
  rw [beUint32_be32 hcrc]
  have hsum : ty :: (be32 k.length ++ k ++ be32 v.length ++ v) = walFrameBody ty k v := by
    rw [hbody, hkl, hvl]
  rw [hsum]
  rw [if_neg (by simp)]
  unfold applyWALEntry
  dsimp only
  rcases hty with h1 | h1
  · subst h1
    rw [if_pos rfl, if_pos rfl]
    obtain ⟨mt2, heq, h2, h3⟩ := @MemTable.Insert_ok mt k v hro
    rw [heq]
  · subst h1
    rw [if_neg (show ¬(WALEntryDelete = WALEntryPut) from by decide),
      if_neg (show ¬(WALEntryDelete = WALEntryPut) from by decide), if_pos rfl]
    obtain ⟨mt2, b, heq, h2, h3⟩ := @MemTable.Delete_ok mt k hro
    rw [heq]

instance : DecidablePred wellFormedWALEntry := fun e => by
  unfold wellFormedWALEntry
  infer_instance

theorem applyWALEntries_readOnly {mt : MemTable} {es : List (Nat × Bytes × Bytes)}
    (hro : mt.readOnly = false) : (applyWALEntries mt es).readOnly = false := by
  induction es generalizing mt with
  | nil => exact hro
  | cons e tail ih =>
    unfold applyWALEntries at *
    simp only [List.foldl_cons]
    exact ih (applyWALEntry_readOnly hro)

theorem replayGo_encode {es : List (Nat × Bytes × Bytes)} :
    ∀ {mt : MemTable} {fuel : Nat} {rest : Bytes},
      (∀ e ∈ es, wellFormedWALEntry e) → mt.readOnly = false →
      replayGo (fuel + es.length) (encodeWAL es ++ rest) mt =
        replayGo fuel rest (applyWALEntries mt es) := by
  induction es with
  | nil =>
    intro mt fuel rest _ _
    simp [encodeWAL, applyWALEntries]
  | cons e tail ih =>
    intro mt fuel rest hwf hro
    obtain ⟨ty, k, v⟩ := e
    obtain ⟨hty, hk, hv, hkb, hvb⟩ := hwf (ty, k, v) (by simp)
    have henc : encodeWAL ((ty, k, v) :: tail) ++ rest =
        walFrame ty k v ++ (encodeWAL tail ++ rest) := by
      simp [encodeWAL, List.append_assoc]
    rw [henc]
    have harith : fuel + ((ty, k, v) :: tail).length = (fuel + tail.length) + 1 := by
      simp [List.length_cons]
      omega
    rw [harith]
    rw [replayGo_frame hty hk hv hkb hvb hro]
    have happly : applyWALEntries mt ((ty, k, v) :: tail) =
        applyWALEntries (applyWALEntry mt (ty, k, v)) tail := by
      simp [applyWALEntries]
    rw [happly]
    exact ih (fun x hx => hwf x (by simp [hx])) (applyWALEntry_readOnly hro)

theorem replayGo_nil {mt : MemTable} {fuel : Nat} :
    replayGo (fuel + 1) [] mt = .ok mt := by
  conv_lhs => unfold replayGo
  rw [readFull_short (by simp)]
  rw [if_pos rfl]

theorem readFull_of_le {n : Nat} {s : Bytes} (h : n ≤ s.length) :
    readFull n s = some (s.take n, s.drop n) := by
  unfold readFull
  rw [if_pos h]

theorem readFull_one_cons {b : Nat} {s : Bytes} : readFull 1 (b :: s) = some ([b], s) :=
  @readFull_append _ [b] _ rfl

theorem walFrame_length (ty : Nat) (k v : Bytes) :
    (walFrame ty k v).length = 13 + k.length + v.length := by
  simp [walFrame, walFrameBody, be32]
  omega

/-- A cut strictly inside a frame makes replay fail with an error (the code
returns the `io.ReadFull` short-read error rather than treating the tail as
a clean EOF). -/
theorem replayGo_partial_tail {ty : Nat} {k v : Bytes} {m fuel : Nat} {mt : MemTable}
    (hk : k.length < 4294967296) (hv : v.length < 4294967296)
    (hm0 : 0 < m) (hmlt : m < (walFrame ty k v).length) :
    ∃ e, replayGo (fuel + 1) ((walFrame ty k v).take m) mt = Except.error e := by
  have hflen := walFrame_length ty k v
  have htlen : ((walFrame ty k v).take m).length = m := by
    rw [List.length_take]
    omega
  have hkl : k.length % 4294967296 = k.length := Nat.mod_eq_of_lt hk
  have hvl : v.length % 4294967296 = v.length := Nat.mod_eq_of_lt hv
  have hbody : walFrameBody ty k v =
      [ty] ++ (be32 (k.length % 4294967296) ++ (k ++ (be32 (v.length % 4294967296) ++ v))) := by
    unfold walFrameBody
    simp [List.append_assoc]
  have hframe : walFrame ty k v =
      be32 (crc32 (walFrameBody ty k v)) ++ walFrameBody ty k v := rfl
  have hblen : (walFrameBody ty k v).length = 9 + k.length + v.length := by
    rw [hbody]
    simp [be32]
    omega
  have hd1 : ((walFrame ty k v).take m).drop 4 = (walFrameBody ty k v).take (m - 4) := by
    rw [List.drop_take]
    rfl
  by_cases h4 : m < 4
  · refine ⟨"checksum: unexpected EOF", ?_⟩
    conv_lhs => unfold replayGo
    rw [readFull_short (by omega)]
    rw [if_neg (by
      intro hnil
      rw [hnil] at htlen
      simp at htlen
      omega)]
  · by_cases h5 : m < 5
    · refine ⟨"entry type: EOF", ?_⟩
      conv_lhs => unfold replayGo
      rw [readFull_of_le (by omega)]
      dsimp only
      rw [hd1, readFull_short (by rw [List.length_take]; omega)]
    · have hd1e : (walFrameBody ty k v).take (m - 4) =
          [ty] ++ (be32 (k.length % 4294967296) ++
            (k ++ (be32 (v.length % 4294967296) ++ v))).take (m - 5) := by
        rw [hbody, List.take_append_eq_append_take,
          List.take_of_length_le (show ([ty] : Bytes).length ≤ m - 4 by
            simp only [List.length_singleton]; omega),
          show m - 4 - ([ty] : Bytes).length = m - 5 by
            simp only [List.length_singleton]; omega]
      by_cases h9 : m < 9
      · refine ⟨"key length: unexpected EOF", ?_⟩
        conv_lhs => unfold replayGo
        rw [readFull_of_le (by omega)]
        dsimp only
        rw [hd1, hd1e, List.singleton_append, readFull_one_cons]
        dsimp only [List.headD_cons]
        rw [readFull_short (by rw [List.length_take]; simp [be32]; omega)]
      · have hd2e : (be32 (k.length % 4294967296) ++
            (k ++ (be32 (v.length % 4294967296) ++ v))).take (m - 5) =
            be32 (k.length % 4294967296) ++
              (k ++ (be32 (v.length % 4294967296) ++ v)).take (m - 9) := by
          rw [List.take_append_eq_append_take,
            List.take_of_length_le (show (be32 (k.length % 4294967296)).length ≤ m - 5 by
              rw [be32_length]; omega),
            show m - 5 - (be32 (k.length % 4294967296)).length = m - 9 by
              rw [be32_length]; omega]
        by_cases hkey : m - 9 < k.length
        · refine ⟨"key: unexpected EOF", ?_⟩
          conv_lhs => unfold replayGo
          rw [readFull_of_le (by omega)]
          dsimp only
          rw [hd1, hd1e, List.singleton_append, readFull_one_cons]
          dsimp only [List.headD_cons]
          rw [hd2e, readFull_append (be32_length _)]
          dsimp only
          rw [beUint32_be32 (by omega), hkl]
          rw [readFull_short (by rw [List.length_take]; simp; omega)]
        · have hd3e : (k ++ (be32 (v.length % 4294967296) ++ v)).take (m - 9) =
              k ++ (be32 (v.length % 4294967296) ++ v).take (m - 9 - k.length) := by
            rw [List.take_append_eq_append_take,
              List.take_of_length_le (show k.length ≤ m - 9 by omega)]
          by_cases hvlen : m - 9 - k.length < 4
          · refine ⟨"value length: unexpected EOF", ?_⟩
            conv_lhs => unfold replayGo
            rw [readFull_of_le (by omega)]
            dsimp only
            rw [hd1, hd1e, List.singleton_append, readFull_one_cons]
            dsimp only [List.headD_cons]
            rw [hd2e, readFull_append (be32_length _)]
            dsimp only
            rw [beUint32_be32 (by omega), hkl]
            rw [hd3e, @readFull_append _ k _ rfl]
            dsimp only
            rw [readFull_short (by rw [List.length_take]; simp [be32]; omega)]
          · have hd4e : (be32 (v.length % 4294967296) ++ v).take (m - 9 - k.length) =
                be32 (v.length % 4294967296) ++ v.take (m - 13 - k.length) := by
              rw [List.take_append_eq_append_take,
                List.take_of_length_le (show (be32 (v.length % 4294967296)).length ≤
                  m - 9 - k.length by rw [be32_length]; omega),
                show m - 9 - k.length - (be32 (v.length % 4294967296)).length =
                  m - 13 - k.length by rw [be32_length]; omega]
            refine ⟨"value: unexpected EOF", ?_⟩
            conv_lhs => unfold replayGo
            rw [readFull_of_le (by omega)]
            dsimp only
            rw [hd1, hd1e, List.singleton_append, readFull_one_cons]
            dsimp only [List.headD_cons]
            rw [hd2e, readFull_append (be32_length _)]
            dsimp only
            rw [beUint32_be32 (by omega), hkl]
            rw [hd3e, @readFull_append _ k _ rfl]
            dsimp only
            rw [hd4e, readFull_append (be32_length _)]
            dsimp only
            rw [beUint32_be32 (by omega), hvl]
            rw [readFull_short (by rw [List.length_take]; omega)]

theorem encodeWAL_length_ge (es : List (Nat × Bytes × Bytes)) :
    es.length ≤ (encodeWAL es).length := by
  induction es with
  | nil => simp [encodeWAL]
  | cons e tail ih =>
    obtain ⟨ty, k, v⟩ := e
    have hsplit : encodeWAL ((ty, k, v) :: tail) = walFrame ty k v ++ encodeWAL tail := by
      simp [encodeWAL]
    rw [hsplit]
    simp only [List.length_append, List.length_cons]
    have hw := walFrame_length ty k v
    omega

/-- C6 (corrected): a WAL whose tail is cut strictly inside a frame makes
`ReplayWAL` — and therefore `NewMemTable` — fail with an error; only a cut
exactly at a frame boundary is a clean EOF, in which case the already
complete prefix of records is replayed. -/
theorem claim_C6_partial_tail_fatal (es : List (Nat × Bytes × Bytes))
    (hwf : ∀ e ∈ es, wellFormedWALEntry e) (ty : Nat) (k v : Bytes) (m : Nat)
    (hk : k.length < 4294967296) (hv : v.length < 4294967296)
    (hm0 : 0 < m) (hmlt : m < (walFrame ty k v).length) :
    (∃ e, ReplayWAL (some (encodeWAL es ++ (walFrame ty k v).take m))
        emptyMemTable = Except.error e) ∧
    (∃ e, NewMemTable (some (encodeWAL es ++ (walFrame ty k v).take m)) =
        Except.error e) ∧
    ReplayWAL (some (encodeWAL es)) emptyMemTable =
      Except.ok (applyWALEntries emptyMemTable es) := by
  have hge := encodeWAL_length_ge es
  have htake : ((walFrame ty k v).take m).length = m := by
    rw [List.length_take]
    have := walFrame_length ty k v
    omega
  have hlen : (encodeWAL es ++ (walFrame ty k v).take m).length + 1 =
      ((encodeWAL es).length + m + 1 - es.length) + es.length := by
    simp only [List.length_append, htake]
    omega
  have hrep : ReplayWAL (some (encodeWAL es ++ (walFrame ty k v).take m)) emptyMemTable =
      replayGo ((encodeWAL es).length + m + 1 - es.length)
        ((walFrame ty k v).take m) (applyWALEntries emptyMemTable es) := by
    show replayGo ((encodeWAL es ++ (walFrame ty k v).take m).length + 1) _ _ = _
    rw [hlen]
    exact replayGo_encode hwf rfl
  have hfuel : (encodeWAL es).length + m + 1 - es.length =
      ((encodeWAL es).length + m - es.length) + 1 := by omega
  obtain ⟨e, he⟩ := @replayGo_partial_tail _ _ _ _
    ((encodeWAL es).length + m - es.length) (applyWALEntries emptyMemTable es)
    hk hv hm0 hmlt
  refine ⟨⟨e, by rw [hrep, hfuel]; exact he⟩, ?_, ?_⟩
  · refine ⟨e, ?_⟩
    unfold NewMemTable
    rw [hrep, hfuel, he]
  · have h1 : ReplayWAL (some (encodeWAL es)) emptyMemTable =
        replayGo ((encodeWAL es).length + 1) (encodeWAL es ++ []) emptyMemTable := by
      simp [ReplayWAL]
    rw [h1]
    have h2 : (encodeWAL es).length + 1 =
        ((encodeWAL es).length + 1 - es.length) + es.length := by omega
    rw [h2, replayGo_encode hwf rfl]
    have h3 : (encodeWAL es).length + 1 - es.length =
        ((encodeWAL es).length - es.length) + 1 := by omega
    rw [h3]
    exact replayGo_nil

/-- C6 counterexample: the concrete WAL `frame(Put a:1)` followed by the
first 3 bytes of another frame.  The claim says memtable construction over
such a WAL succeeds with the prefix replayed; the code fails replay and
`NewMemTable` returns the error. -/
theorem claim_C6_counterexample :
    NewMemTable (some (walFrame WALEntryPut (sBytes "a") (sBytes "1") ++
        (walFrame WALEntryPut (sBytes "b") (sBytes "2")).take 3)) =
      Except.error "checksum: unexpected EOF" := by
  decide

theorem claim_C6_witness :
    (∃ e, ReplayWAL (some (encodeWAL [(WALEntryPut, sBytes "a", sBytes "1")] ++
        (walFrame WALEntryPut (sBytes "b") (sBytes "2")).take 3))
        emptyMemTable = Except.error e) ∧
    (∃ e, NewMemTable (some (encodeWAL [(WALEntryPut, sBytes "a", sBytes "1")] ++
        (walFrame WALEntryPut (sBytes "b") (sBytes "2")).take 3)) =
        Except.error e) ∧
    ReplayWAL (some (encodeWAL [(WALEntryPut, sBytes "a", sBytes "1")])) emptyMemTable =
      Except.ok (applyWALEntries emptyMemTable [(WALEntryPut, sBytes "a", sBytes "1")]) :=
  claim_C6_partial_tail_fatal [(WALEntryPut, sBytes "a", sBytes "1")] (by decide)
    WALEntryPut (sBytes "b") (sBytes "2") 3 (by decide) (by decide) (by decide) (by decide)

/-! ### Byte order theory -/

theorem bytesCompare_self (a : Bytes) : bytesCompare a a = 0 := by
  induction a with
  | nil => rfl
  | cons x xs ih => simp [bytesCompare, ih]

theorem bytesCompare_eq_zero : ∀ (a b : Bytes), bytesCompare a b = 0 ↔ a = b := by
  intro a
  induction a with
  | nil => intro b; cases b <;> simp [bytesCompare]
  | cons x xs ih =>
    intro b
    cases b with
    | nil => simp [bytesCompare]
    | cons y ys =>
      simp only [bytesCompare]
      by_cases hxy : x < y
      · rw [if_pos hxy]
        constructor
        · intro h; omega
        · intro h
          rw [List.cons.injEq] at h
          omega
      · rw [if_neg hxy]
        by_cases hyx : y < x
        · rw [if_pos hyx]
          constructor
          · intro h; omega
          · intro h
            rw [List.cons.injEq] at h
            omega
        · rw [if_neg hyx]
          have hxye : x = y := by omega
          rw [ih ys]
          subst hxye
          simp

theorem bytesCompare_vals : ∀ (a b : Bytes),
    bytesCompare a b = -1 ∨ bytesCompare a b = 0 ∨ bytesCompare a b = 1 := by
  intro a
  induction a with
  | nil => intro b; cases b <;> simp [bytesCompare]
  | cons x xs ih =>
    intro b
    cases b with
    | nil => simp [bytesCompare]
    | cons y ys =>
      simp only [bytesCompare]
      by_cases hxy : x < y
      · rw [if_pos hxy]; left; rfl
      · rw [if_neg hxy]
        by_cases hyx : y < x
        · rw [if_pos hyx]; right; right; rfl
        · rw [if_neg hyx]; exact ih ys

theorem bytesCompare_swap : ∀ (a b : Bytes), bytesCompare a b = - bytesCompare b a := by
  intro a
  induction a with
  | nil => intro b; cases b <;> simp [bytesCompare]
  | cons x xs ih =>
    intro b
    cases b with
    | nil => simp [bytesCompare]
    | cons y ys =>
      simp only [bytesCompare]
      by_cases hxy : x < y
      · rw [if_pos hxy, if_neg (by omega : ¬ y < x), if_pos hxy]
      · rw [if_neg hxy]
        by_cases hyx : y < x
        · rw [if_pos hyx, if_pos hyx]; decide
        · rw [if_neg hyx, if_neg hxy, if_neg hyx]
          exact ih ys

theorem bytesCompare_lt_trans : ∀ (a b c : Bytes),
    bytesCompare a b < 0 → bytesCompare b c < 0 → bytesCompare a c < 0 := by
  intro a
  induction a with
  | nil =>
    intro b c h1 h2
    cases b with
    | nil => simp [bytesCompare] at h1
    | cons y ys =>
      cases c with
      | nil => simp [bytesCompare] at h2
      | cons z zs => simp [bytesCompare]
  | cons x xs ih =>
    intro b c h1 h2
    cases b with
    | nil => simp [bytesCompare] at h1
    | cons y ys =>
      cases c with
      | nil => simp [bytesCompare] at h2
      | cons z zs =>
        simp only [bytesCompare] at h1 h2 ⊢
        by_cases hxy : x < y
        · by_cases hyz : y < z
          · rw [if_pos (by omega : x < z)]; decide
          · rw [if_neg hyz] at h2
            by_cases hzy : z < y
            · rw [if_pos hzy] at h2; omega
            · rw [if_pos (by omega : x < z)]; decide
        · rw [if_neg hxy] at h1
          by_cases hyx : y < x
          · rw [if_pos hyx] at h1; omega
          · rw [if_neg hyx] at h1
            by_cases hyz : y < z
            · rw [if_pos (by omega : x < z)]; decide
            · rw [if_neg hyz] at h2
              by_cases hzy : z < y
              · rw [if_pos hzy] at h2; omega
              · rw [if_neg hzy] at h2
                rw [if_neg (by omega : ¬ x < z), if_neg (by omega : ¬ z < x)]
                exact ih ys zs h1 h2

theorem bytesCompare_neg_of_pos {a b : Bytes} (h : bytesCompare a b > 0) :
    bytesCompare b a < 0 := by
  rw [bytesCompare_swap] at h
  omega

theorem bytesCompare_pos_of_neg {a b : Bytes} (h : bytesCompare a b < 0) :
    bytesCompare b a > 0 := by
  rw [bytesCompare_swap] at h
  omega

theorem bytesCompare_lt_of_not {a b : Bytes} (h1 : ¬ bytesCompare a b < 0)
    (h2 : ¬ bytesCompare a b = 0) : bytesCompare b a < 0 := by
  rcases bytesCompare_vals a b with h | h | h
  · omega
  · omega
  · exact bytesCompare_neg_of_pos (by omega)

theorem bytesCompare_ne_of_lt {a b : Bytes} (h : bytesCompare a b < 0) : a ≠ b := by
  intro he
  subst he
  rw [bytesCompare_self] at h
  omega

/-! ### Skip-list lemmas -/

theorem slFind_slInsert_self (es : List Entry) (k v : Bytes) :
    slFind (slInsert es k v) k = some v := by
  induction es with
  | nil => simp [slInsert, slFind, bytesCompare_self]
  | cons e rest ih =>
    obtain ⟨k0, v0⟩ := e
    simp only [slInsert]
    by_cases h1 : bytesCompare k k0 < 0
    · rw [if_pos h1]
      simp [slFind, bytesCompare_self]
    · rw [if_neg h1]
      by_cases h2 : bytesCompare k k0 = 0
      · rw [if_pos h2]
        simp [slFind, bytesCompare_self]
      · rw [if_neg h2]
        simp only [slFind]
        rw [if_neg h2]
        exact ih

theorem slFind_slInsert_ne (es : List Entry) (k v k' : Bytes) (hne : k' ≠ k) :
    slFind (slInsert es k v) k' = slFind es k' := by
  have hc : bytesCompare k' k ≠ 0 := by
    intro h
    exact hne ((bytesCompare_eq_zero k' k).mp h)
  induction es with
  | nil => simp [slInsert, slFind, hc]
  | cons e rest ih =>
    obtain ⟨k0, v0⟩ := e
    simp only [slInsert]
    by_cases h1 : bytesCompare k k0 < 0
    · rw [if_pos h1]
      simp only [slFind]
      rw [if_neg hc]
    · rw [if_neg h1]
      by_cases h2 : bytesCompare k k0 = 0
      · rw [if_pos h2]
        have hk : k = k0 := (bytesCompare_eq_zero k k0).mp h2
        subst hk
        simp only [slFind]
        rw [if_neg hc, if_neg hc]
      · rw [if_neg h2]
        simp only [slFind]
        by_cases h3 : bytesCompare k' k0 = 0
        · rw [if_pos h3, if_pos h3]
        · rw [if_neg h3, if_neg h3]
          exact ih

theorem slInsert_mem {es : List Entry} {k v : Bytes} :
    ∀ e ∈ slInsert es k v, e = (k, v) ∨ e ∈ es := by
  induction es with
  | nil => simp [slInsert]
  | cons e0 rest ih =>
    obtain ⟨k0, v0⟩ := e0
    intro e he
    simp only [slInsert] at he
    by_cases h1 : bytesCompare k k0 < 0
    · rw [if_pos h1] at he
      rcases List.mem_cons.mp he with h | h
      · exact Or.inl h
      · exact Or.inr h
    · rw [if_neg h1] at he
      by_cases h2 : bytesCompare k k0 = 0
      · rw [if_pos h2] at he
        rcases List.mem_cons.mp he with h | h
        · exact Or.inl h
        · exact Or.inr (List.mem_cons_of_mem _ h)
      · rw [if_neg h2] at he
        rcases List.mem_cons.mp he with h | h
        · subst h; exact Or.inr (List.mem_cons_self _ _)
        · rcases ih e h with h3 | h3
          · exact Or.inl h3
          · exact Or.inr (List.mem_cons_of_mem _ h3)

theorem slInsert_pairwise {es : List Entry} {k v : Bytes}
    (h : es.Pairwise (fun a b => bytesCompare a.1 b.1 < 0)) :
    (slInsert es k v).Pairwise (fun a b => bytesCompare a.1 b.1 < 0) := by
  induction es with
  | nil => simp [slInsert]
  | cons e0 rest ih =>
    obtain ⟨k0, v0⟩ := e0
    rw [List.pairwise_cons] at h
    obtain ⟨hhead, htail⟩ := h
    simp only [slInsert]
    by_cases h1 : bytesCompare k k0 < 0
    · rw [if_pos h1]
      rw [List.pairwise_cons]
      refine ⟨?_, List.pairwise_cons.mpr ⟨hhead, htail⟩⟩
      intro e he
      rcases List.mem_cons.mp he with h | h
      · subst h; exact h1
      · exact bytesCompare_lt_trans _ _ _ h1 (hhead e h)
    · rw [if_neg h1]
      by_cases h2 : bytesCompare k k0 = 0
      · rw [if_pos h2]
        rw [List.pairwise_cons]
        refine ⟨?_, htail⟩
        intro e he
        have hk : k = k0 := (bytesCompare_eq_zero k k0).mp h2
        subst hk
        exact hhead e he
      · rw [if_neg h2]
        rw [List.pairwise_cons]
        refine ⟨?_, ih htail⟩
        intro e he
        rcases slInsert_mem e he with h | h
        · subst h
          exact bytesCompare_lt_of_not h1 h2
        · exact hhead e h

theorem SortedSafe_slInsert {es : List Entry} {k v : Bytes}
    (h : SortedSafe es) (hk : SafeKey k) (hv : SafeVal v) :
    SortedSafe (slInsert es k v) := by
  refine ⟨slInsert_pairwise h.1, ?_⟩
  intro e he
  rcases slInsert_mem e he with h1 | h1
  · subst h1; exact ⟨hk, hv⟩
  · exact h.2 e h1

theorem slFind_none_of_lt {es : List Entry} {k : Bytes}
    (h : ∀ e ∈ es, bytesCompare k e.1 < 0) : slFind es k = none := by
  induction es with
  | nil => rfl
  | cons e0 rest ih =>
    obtain ⟨k0, v0⟩ := e0
    simp only [slFind]
    have hh : bytesCompare k k0 < 0 := h (k0, v0) (List.mem_cons_self _ _)
    rw [if_neg (by omega)]
    exact ih (fun e he => h e (List.mem_cons_of_mem _ he))

theorem slFind_mem {es : List Entry} {k v : Bytes} (h : slFind es k = some v) :
    (k, v) ∈ es := by
  induction es with
  | nil => simp [slFind] at h
  | cons e0 rest ih =>
    obtain ⟨k0, v0⟩ := e0
    simp only [slFind] at h
    by_cases h1 : bytesCompare k k0 = 0
    · rw [if_pos h1] at h
      have hk : k = k0 := (bytesCompare_eq_zero k k0).mp h1
      subst hk
      cases h
      exact List.mem_cons_self _ _
    · rw [if_neg h1] at h
      exact List.mem_cons_of_mem _ (ih h)

/-! ### Merge temp-table lemmas -/

theorem InsertWithoutWAL_skiplist (mt : MemTable) (a b : Bytes) :
    (mt.InsertWithoutWAL a b).skiplist = slInsert mt.skiplist a b := by
  unfold MemTable.InsertWithoutWAL
  cases slFind mt.skiplist a <;> rfl

theorem foldl_insertWOW_find (rs : List Entry) : ∀ (mt : MemTable) (k : Bytes),
    slFind ((rs.foldl (fun mt e => mt.InsertWithoutWAL e.1 e.2) mt)).skiplist k =
      rs.foldl (fun acc e => if e.1 = k then some e.2 else acc) (slFind mt.skiplist k) := by
  induction rs with
  | nil => intro mt k; rfl
  | cons e rest ih =>
    intro mt k
    simp only [List.foldl_cons]
    rw [ih]
    have hsl : slFind (mt.InsertWithoutWAL e.1 e.2).skiplist k =
        if e.1 = k then some e.2 else slFind mt.skiplist k := by
      rw [InsertWithoutWAL_skiplist]
      by_cases he : e.1 = k
      · rw [if_pos he, ← he, slFind_slInsert_self]
      · rw [if_neg he, slFind_slInsert_ne _ _ _ _ (fun h => he h.symm)]
    rw [hsl]

theorem foldl_insertWOW_sorted (rs : List Entry)
    (hrs : ∀ e ∈ rs, SafeKey e.1 ∧ SafeVal e.2) :
    ∀ (mt : MemTable), SortedSafe mt.skiplist →
      SortedSafe ((rs.foldl (fun mt e => mt.InsertWithoutWAL e.1 e.2) mt)).skiplist := by
  induction rs with
  | nil => intro mt h; exact h
  | cons e rest ih =>
    intro mt h
    simp only [List.foldl_cons]
    refine ih (fun e2 he2 => hrs e2 (List.mem_cons_of_mem _ he2)) _ ?_
    rw [InsertWithoutWAL_skiplist]
    have := hrs e (List.mem_cons_self _ _)
    exact SortedSafe_slInsert h this.1 this.2

/-- The merge fold over a flattened record list (the double fold of
`mergeTemp` in one pass). -/
theorem foldl_seg_flatten (step : MemTable → Entry → MemTable)
    (segs : List SSTableReader) (mt : MemTable) :
    segs.foldl (fun mt seg => seg.ReadAllRecords.foldl step mt) mt =
      (allRecords segs).foldl step mt := by
  unfold allRecords
  induction segs generalizing mt with
  | nil => rfl
  | cons s rest ih =>
    simp only [List.map_cons, List.flatten_cons, List.foldl_cons, List.foldl_append]
    exact ih _

theorem mergeTemp_false_step :
    (fun (mt : MemTable) (e : Entry) =>
        if (false : Bool) ∧ e.2 = TOMBSTONE_VALUE then mt
        else mt.InsertWithoutWAL e.1 e.2) =
      fun (mt : MemTable) (e : Entry) => mt.InsertWithoutWAL e.1 e.2 := by
  funext mt e
  simp

theorem mergeTemp_false_find (segs : List SSTableReader) (k : Bytes) :
    slFind (mergeTemp false segs).skiplist k = lastAssoc (allRecords segs) k := by
  unfold mergeTemp lastAssoc
  rw [foldl_seg_flatten, mergeTemp_false_step, foldl_insertWOW_find]
  rfl

theorem mergeTemp_true_find_ne (segs : List SSTableReader) (k : Bytes) :
    slFind (mergeTemp true segs).skiplist k ≠ some TOMBSTONE_VALUE := by
  unfold mergeTemp
  rw [foldl_seg_flatten]
  simp only [true_and]
  have main : ∀ (rs : List Entry) (mt : MemTable),
      slFind mt.skiplist k ≠ some TOMBSTONE_VALUE →
      slFind ((rs.foldl (fun mt e =>
          if e.2 = TOMBSTONE_VALUE then mt
          else mt.InsertWithoutWAL e.1 e.2) mt)).skiplist k ≠ some TOMBSTONE_VALUE := by
    intro rs
    induction rs with
    | nil => intro mt h; exact h
    | cons e rest ih =>
      intro mt h
      simp only [List.foldl_cons]
      by_cases ht : e.2 = TOMBSTONE_VALUE
      · rw [if_pos ht]
        exact ih mt h
      · rw [if_neg ht]
        refine ih _ ?_
        rw [InsertWithoutWAL_skiplist]
        by_cases he : e.1 = k
        · rw [← he, slFind_slInsert_self]
          intro hc
          exact ht (by injection hc)
        · rw [slFind_slInsert_ne _ _ _ _ (fun h2 => he h2.symm)]
          exact h
  exact main _ _ (by simp [slFind])

/-! ### Merge cycle level analysis (claim C3) -/

theorem performMerge_retain {st : LSMState} {level : Nat} {segs : List SSTableReader}
    (h : level < MAX_LEVEL) :
    performMerge st level segs = performMergeRetain st level segs := by
  unfold performMerge performMergeRetain
  rw [show decide (MAX_LEVEL ≤ level) = false from by
    rw [decide_eq_false_iff_not]; omega]

theorem runMergeCycle_retain : ∀ (fuel : Nat) (st : LSMState) (level : Nat)
    (segs : List SSTableReader), level < MAX_LEVEL →
    runMergeCycle fuel st level segs = runMergeCycleRetain fuel st level segs := by
  intro fuel
  induction fuel with
  | zero => intro st level segs h; rfl
  | succ n ih =>
    intro st level segs h
    simp only [runMergeCycle, runMergeCycleRetain]
    rw [performMerge_retain h]
    cases hp : performMergeRetain st level segs with
    | error e => rfl
    | ok pr =>
      obtain ⟨newSeg, st2⟩ := pr
      dsimp only
      rw [if_neg (show ¬ MAX_LEVEL ≤ level from by omega)]
      by_cases hth : mergeThreshold ≤
          (((modifyTier
              (if level <
                  (ensureTiers st2.tiers (level + 1)).length then
                modifyTier (ensureTiers st2.tiers (level + 1)) level
                  (fun segs2 => removeMerged segs2 (segs.map SSTableReader.Id))
              else ensureTiers st2.tiers (level + 1)) (level + 1)
              (fun segs2 => segs2 ++ [newSeg])).getD (level + 1) ⟨0, []⟩).Segments).length
      · rw [if_pos hth]
        dsimp only
        by_cases hlt : level + 1 < MAX_LEVEL
        · rw [if_pos hlt, if_pos hlt, ih _ _ _ hlt]
        · rw [if_neg hlt, if_neg hlt]
      · rw [if_neg hth]

/-- Claim C3 (amended).  (1) A merge at a non-terminal source level
retains every record, tombstones included: the merged table maps each key
to its newest value among the inputs, whatever it is.  (2) The
tombstone-drop branch — active only when the *source* level is already
`MAX_LEVEL` — produces a table with no tombstone record.  (3) Every
engine-initiated merge cycle starts at level 0, and from there the cycle
coincides with the never-dropping variant: the cascade stops as soon as
its target reaches `MAX_LEVEL`, so the drop branch never runs and the
surviving `MAX_LEVEL` table keeps tombstone records (see
`claim_C3_counterexample`). -/
theorem claim_C3_tombstone_merge_levels :
    (∀ (segs : List SSTableReader) (k : Bytes),
        slFind (mergeTemp false segs).skiplist k = lastAssoc (allRecords segs) k) ∧
    (∀ (segs : List SSTableReader) (k : Bytes),
        slFind (mergeTemp true segs).skiplist k ≠ some TOMBSTONE_VALUE) ∧
    (∀ (fuel : Nat) (st : LSMState) (segs : List SSTableReader),
        runMergeCycle fuel st 0 segs = runMergeCycleRetain fuel st 0 segs) :=
  ⟨mergeTemp_false_find, mergeTemp_true_find_ne,
    fun fuel st segs => runMergeCycle_retain fuel st 0 segs (by decide)⟩

theorem claim_C3_witness :
    slFind (mergeTemp false []).skiplist [107] = lastAssoc (allRecords []) [107] ∧
    slFind (mergeTemp true []).skiplist [107] ≠ some TOMBSTONE_VALUE ∧
    runMergeCycle 1 ⟨[], 0⟩ 0 [] = runMergeCycleRetain 1 ⟨[], 0⟩ 0 [] :=
  ⟨claim_C3_tombstone_merge_levels.1 [] [107],
    claim_C3_tombstone_merge_levels.2.1 [] [107],
    claim_C3_tombstone_merge_levels.2.2 1 ⟨[], 0⟩ []⟩

/-! ### SSTable writer characterization -/

theorem SSTableWriter.Append_eq {w : SSTableWriter} {k v : Bytes} {w' : SSTableWriter}
    (h : w.Append k v = some w') :
    ∃ b2, w.bloom.Add k = some b2 ∧
      w' = { fileData := w.fileData ++ recordLine k v
             dataOffset := w.dataOffset + (recordLine k v).length
             index :=
               if w.index.length = 0 ∨ w.index.length % 16 = 0 then
                 w.index ++ [{ Key := k, Offset := w.dataOffset,
                               Size := (recordLine k v).length }]
               else w.index
             bloom := b2
             minKey := if w.minKey.length = 0 then k else w.minKey
             maxKey := k } := by
  unfold SSTableWriter.Append at h
  dsimp only at h
  cases hb : w.bloom.Add k with
  | none => rw [hb] at h; exact absurd h (by simp)
  | some b2 =>
    rw [hb] at h
    dsimp only at h
    refine ⟨b2, rfl, ?_⟩
    injection h with h2
    rw [← h2]
    by_cases hidx : w.index.length = 0 ∨ w.index.length % 16 = 0
    · rw [if_pos hidx, if_pos hidx]
    · rw [if_neg hidx, if_neg hidx]

theorem writeAll_cont : ∀ (es : List Entry) (w w2 : SSTableWriter),
    w.minKey ≠ [] → w.index.length = 1 →
    writeAll w es = some w2 →
    w2.fileData = w.fileData ++ dataRegion es ∧
    w2.dataOffset = w.dataOffset + (dataRegion es).length ∧
    w2.index = w.index ∧
    w2.minKey = w.minKey ∧
    w2.maxKey = (es.map Prod.fst).getLastD w.maxKey ∧
    addAll w.bloom (es.map Prod.fst) = some w2.bloom := by
  intro es
  induction es with
  | nil =>
    intro w w2 hmin hidx h
    simp only [writeAll] at h
    injection h with h2
    subst h2
    simp [dataRegion, addAll]
  | cons e rest ih =>
    obtain ⟨k, v⟩ := e
    intro w w2 hmin hidx h
    simp only [writeAll] at h
    cases ha : w.Append k v with
    | none => rw [ha] at h; exact absurd h (by simp)
    | some w1 =>
      rw [ha] at h
      obtain ⟨b2, hb2, hw1⟩ := SSTableWriter.Append_eq ha
      have hidx1 : w1.index = w.index := by
        rw [hw1]
        dsimp only
        rw [if_neg (by omega)]
      have hmin1 : w1.minKey = w.minKey := by
        rw [hw1]
        dsimp only
        rw [if_neg (by
          intro hc
          exact hmin (List.length_eq_zero.mp hc))]
      obtain ⟨h1, h2, h3, h4, h5, h6⟩ := ih w1 w2
        (by rw [hmin1]; exact hmin) (by rw [hidx1]; exact hidx) h
      have hfd : w1.fileData = w.fileData ++ recordLine k v := by rw [hw1]
      have hdo : w1.dataOffset = w.dataOffset + (recordLine k v).length := by rw [hw1]
      have hmx : w1.maxKey = k := by rw [hw1]
      have hbl : w1.bloom = b2 := by rw [hw1]
      refine ⟨?_, ?_, ?_, ?_, ?_, ?_⟩
      · rw [h1, hfd, List.append_assoc]
        simp [dataRegion]
      · rw [h2, hdo]
        simp [dataRegion]
        omega
      · rw [h3, hidx1]
      · rw [h4, hmin1]
      · rw [h5, hmx, List.map_cons, List.getLastD_cons]
      · simp only [List.map_cons]
        rw [show addAll w.bloom (k :: rest.map Prod.fst) =
            (w.bloom.Add k).bind (fun b => addAll b (rest.map Prod.fst)) from rfl]
        rw [hb2]
        simp only [Option.bind_eq_bind, Option.some_bind]
        rw [← hbl]
        exact h6

theorem writeAll_spec {n : Nat} {k0 v0 : Bytes} {rest : List Entry} {w : SSTableWriter}
    (hk0 : k0 ≠ [])
    (h : writeAll (NewSSTableWriter n) ((k0, v0) :: rest) = some w) :
    w.fileData = dataRegion ((k0, v0) :: rest) ∧
    w.dataOffset = (dataRegion ((k0, v0) :: rest)).length ∧
    w.index = [{ Key := k0, Offset := 0, Size := (recordLine k0 v0).length }] ∧
    w.minKey = k0 ∧
    w.maxKey = (((k0, v0) :: rest).map Prod.fst).getLastD [] ∧
    addAll (NewBloomFilter n) (((k0, v0) :: rest).map Prod.fst) = some w.bloom := by
  simp only [writeAll] at h
  cases ha : (NewSSTableWriter n).Append k0 v0 with
  | none => rw [ha] at h; exact absurd h (by simp)
  | some w1 =>
    rw [ha] at h
    obtain ⟨b2, hb2, hw1⟩ := SSTableWriter.Append_eq ha
    have hw1' : w1 = { fileData := recordLine k0 v0
                       dataOffset := (recordLine k0 v0).length
                       index := [{ Key := k0, Offset := 0,
                                   Size := (recordLine k0 v0).length }]
                       bloom := b2
                       minKey := k0
                       maxKey := k0 } := by
      rw [hw1]; simp [NewSSTableWriter]
    obtain ⟨h1, h2, h3, h4, h5, h6⟩ := writeAll_cont rest w1 w
      (by rw [hw1']; exact hk0) (by rw [hw1']; rfl) h
    refine ⟨?_, ?_, ?_, ?_, ?_, ?_⟩
    · rw [h1, hw1']
      simp [dataRegion]
    · rw [h2, hw1']
      simp [dataRegion]
    · rw [h3, hw1']
    · rw [h4, hw1']
    · rw [h5, hw1', List.map_cons, List.getLastD_cons]
    · simp only [List.map_cons]
      rw [show addAll (NewBloomFilter n) (k0 :: rest.map Prod.fst) =
          ((NewBloomFilter n).Add k0).bind (fun b => addAll b (rest.map Prod.fst)) from rfl]
      rw [show (NewBloomFilter n).Add k0 = some b2 from hb2]
      simp only [Option.bind_eq_bind, Option.some_bind]
      rw [show b2 = w1.bloom from by rw [hw1']]
      exact h6

/-! ### Plaintext parsing utilities -/

theorem splitOnce_not_mem {sep : Nat} {s : Bytes} (h : sep ∉ s) :
    splitOnce sep s = none := by
  induction s with
  | nil => rfl
  | cons c rest ih =>
    simp only [splitOnce]
    rw [if_neg (by intro hc; exact h (hc ▸ List.mem_cons_self _ _))]
    rw [ih (fun hm => h (List.mem_cons_of_mem _ hm))]
    rfl

theorem splitOnce_append {sep : Nat} {pre rest : Bytes} (h : sep ∉ pre) :
    splitOnce sep (pre ++ sep :: rest) = some (pre, rest) := by
  induction pre with
  | nil => simp [splitOnce]
  | cons c pre' ih =>
    simp only [List.cons_append, splitOnce]
    rw [if_neg (by intro hc; exact h (hc ▸ List.mem_cons_self _ _))]
    rw [List.append_eq, ih (fun hm => h (List.mem_cons_of_mem _ hm))]
    rfl

theorem splitN2_record {k v : Bytes} (h : (58 : Nat) ∉ k) :
    splitN2 58 (k ++ 58 :: v) = [k, v] := by
  unfold splitN2
  rw [splitOnce_append h]

theorem splitN2_no_sep {sep : Nat} {s : Bytes} (h : sep ∉ s) :
    splitN2 sep s = [s] := by
  unfold splitN2
  rw [splitOnce_not_mem h]

theorem getLast?_append_right {a b : Bytes} (h : b ≠ []) :
    (a ++ b).getLast? = b.getLast? := by
  induction a with
  | nil => rfl
  | cons c a' ih =>
    obtain ⟨x, xs, hxs⟩ := List.exists_cons_of_ne_nil
      (show a' ++ b ≠ [] from fun hc => h (List.append_eq_nil.mp hc).2)
    rw [List.cons_append, hxs, List.getLast?_cons_cons, ← hxs, ih]

theorem dropCR_eq_self {s : Bytes} (h : s.getLast? ≠ some 13) : dropCR s = s := by
  unfold dropCR
  rw [if_neg h]

theorem recordBody_getLast {k v : Bytes} (hv : (13 : Nat) ∉ v) :
    (k ++ 58 :: v).getLast? ≠ some 13 := by
  rcases List.eq_nil_or_concat v with hv0 | ⟨v', b, hvb⟩
  · subst hv0
    rw [getLast?_append_right (by simp)]
    simp
  · subst hvb
    rw [List.concat_eq_append] at *
    rw [show (58 : Nat) :: (v' ++ [b]) = (58 :: v') ++ [b] from rfl,
      ← List.append_assoc, List.getLast?_concat]
    intro hc
    injection hc with hc2
    exact hv (hc2 ▸ List.mem_append_right _ (List.mem_singleton_self _))

theorem goLinesGo_fuel : ∀ (fuel : Nat) (s : Bytes), s.length < fuel →
    goLinesGo fuel s = goLinesGo (s.length + 1) s := by
  intro fuel
  induction fuel using Nat.strong_induction_on with
  | _ fuel ih =>
    intro s hs
    match fuel, hs with
    | fuel' + 1, hs =>
      show goLinesGo (fuel' + 1) s = _
      have hlen : s.length + 1 = s.length + 1 := rfl
      simp only [goLinesGo]
      cases hsp : splitOnce 10 s with
      | none => rfl
      | some p =>
        obtain ⟨a, b⟩ := p
        have hb : b.length < s.length := splitOnce_snd_length hsp
        dsimp only
        rw [ih fuel' (by omega) b (by omega), ih s.length (by omega) b hb]

theorem goLines_eq (s : Bytes) : goLines s =
    match splitOnce 10 s with
    | none => if s = [] then [] else [dropCR s]
    | some (a, b) => dropCR a :: goLines b := by
  unfold goLines
  conv_lhs => rw [show s.length + 1 = s.length + 1 from rfl]
  simp only [goLinesGo]
  cases hsp : splitOnce 10 s with
  | none => rfl
  | some p =>
    obtain ⟨a, b⟩ := p
    have hb : b.length < s.length := splitOnce_snd_length hsp
    dsimp only
    rw [goLinesGo_fuel s.length b hb]
    simp only [goLinesGo]

theorem goLines_cons_line {t : Bytes} (rest : Bytes) (h10 : (10 : Nat) ∉ t)
    (h13 : t.getLast? ≠ some 13) :
    goLines (t ++ 10 :: rest) = t :: goLines rest := by
  rw [goLines_eq, splitOnce_append h10]
  dsimp only
  rw [dropCR_eq_self h13]

theorem goLines_data_append (es : List Entry) (rest : Bytes)
    (hsafe : ∀ e ∈ es, SafeKey e.1 ∧ SafeVal e.2) :
    goLines (dataRegion es ++ rest) =
      es.map (fun e => e.1 ++ 58 :: e.2) ++ goLines rest := by
  induction es with
  | nil => simp [dataRegion]
  | cons e es' ih =>
    obtain ⟨k, v⟩ := e
    have hk := (hsafe (k, v) (List.mem_cons_self _ _)).1
    have hv := (hsafe (k, v) (List.mem_cons_self _ _)).2
    have hshape : dataRegion ((k, v) :: es') ++ rest =
        (k ++ 58 :: v) ++ 10 :: (dataRegion es' ++ rest) := by
      simp [dataRegion, recordLine]
    rw [hshape, goLines_cons_line _
      (by
        intro hm
        rcases List.mem_append.mp hm with hm | hm
        · exact (hk.2.2 10 hm).1 rfl
        · rcases List.mem_cons.mp hm with hm | hm
          · omega
          · exact (hv 10 hm).1 rfl)
      (recordBody_getLast (fun hm => (hv 13 hm).2 rfl))]
    rw [ih (fun e he => hsafe e (List.mem_cons_of_mem _ he))]
    rfl

/-! ### Decimal round trip -/

theorem decDigitsGo_digits : ∀ (fuel n : Nat), ∀ d ∈ decDigitsGo fuel n,
    48 ≤ d ∧ d ≤ 57 := by
  intro fuel
  induction fuel with
  | zero => intro n d hd; simp [decDigitsGo] at hd
  | succ fuel' ih =>
    intro n d hd
    simp only [decDigitsGo] at hd
    by_cases hn : n < 10
    · rw [if_pos hn] at hd
      rcases List.mem_singleton.mp hd with rfl
      omega
    · rw [if_neg hn] at hd
      rcases List.mem_append.mp hd with hd | hd
      · exact ih _ _ hd
      · rcases List.mem_singleton.mp hd with rfl
        have := Nat.mod_lt n (show 0 < 10 by omega)
        omega

theorem decDigits_digits (n : Nat) : ∀ d ∈ decDigits n, 48 ≤ d ∧ d ≤ 57 :=
  decDigitsGo_digits (n + 1) n

theorem decDigitsGo_ne_nil : ∀ (fuel n : Nat), 0 < fuel → decDigitsGo fuel n ≠ [] := by
  intro fuel n hf
  match fuel, hf with
  | fuel' + 1, _ =>
    simp only [decDigitsGo]
    by_cases hn : n < 10
    · rw [if_pos hn]; simp
    · rw [if_neg hn]; simp

theorem decDigits_ne_nil (n : Nat) : decDigits n ≠ [] :=
  decDigitsGo_ne_nil (n + 1) n (by omega)

theorem digitsToNat_decDigitsGo : ∀ (fuel n : Nat), n < 10 ^ fuel →
    digitsToNat (decDigitsGo fuel n) = n := by
  intro fuel
  induction fuel with
  | zero =>
    intro n hn
    simp at hn
    subst hn
    rfl
  | succ fuel' ih =>
    intro n hn
    simp only [decDigitsGo]
    by_cases h10 : n < 10
    · rw [if_pos h10]
      unfold digitsToNat
      simp only [List.foldl_cons, List.foldl_nil]
      omega
    · rw [if_neg h10]
      have hrec : List.foldl (fun acc d => acc * 10 + (d - 48)) 0
          (decDigitsGo fuel' (n / 10)) = n / 10 := ih (n / 10) (by
        rw [pow_succ] at hn
        omega)
      simp only [digitsToNat, List.foldl_append, hrec, List.foldl_cons, List.foldl_nil]
      omega

theorem digitsToNat_decDigits (n : Nat) : digitsToNat (decDigits n) = n :=
  digitsToNat_decDigitsGo (n + 1) n
    (lt_of_lt_of_le (Nat.lt_pow_self (by omega) n) (Nat.pow_le_pow_right (by omega) (by omega)))

theorem takeDigits_digits_append {ds r : Bytes}
    (hds : ∀ d ∈ ds, 48 ≤ d ∧ d ≤ 57)
    (hr : r = [] ∨ ¬(48 ≤ r.headD 0 ∧ r.headD 0 ≤ 57)) :
    takeDigits (ds ++ r) = (ds, r) := by
  induction ds with
  | nil =>
    rcases hr with hr | hr
    · subst hr; rfl
    · cases r with
      | nil => rfl
      | cons c r' =>
        simp only [List.nil_append, takeDigits]
        rw [if_neg (by simpa using hr)]
  | cons d ds' ih =>
    simp only [List.cons_append, takeDigits]
    rw [if_pos (hds d (List.mem_cons_self _ _))]
    rw [List.append_eq, ih (fun x hx => hds x (List.mem_cons_of_mem _ hx))]

theorem parseDec_decDigits (n : Nat) {r : Bytes}
    (hr : r = [] ∨ ¬(48 ≤ r.headD 0 ∧ r.headD 0 ≤ 57)) :
    parseDec (decDigits n ++ r) = some (n, r) := by
  unfold parseDec
  rw [takeDigits_digits_append (decDigits_digits n) hr]
  obtain ⟨d, ds', hds⟩ := List.exists_cons_of_ne_nil (decDigits_ne_nil n)
  rw [hds]
  dsimp only
  rw [← hds, digitsToNat_decDigits]

theorem scanOffsetSize_decDigits (off sz : Nat) :
    scanOffsetSize (decDigits off ++ 58 :: decDigits sz) = some (off, sz) := by
  unfold scanOffsetSize
  rw [parseDec_decDigits off (Or.inr (by simp))]
  dsimp only
  rw [show decDigits sz = decDigits sz ++ [] from (List.append_nil _).symm,
    parseDec_decDigits sz (Or.inl rfl)]

/-! ### Record scan and bulk read -/

theorem getLastD_mem : ∀ (L : List Bytes) (d : Bytes), L ≠ [] → L.getLastD d ∈ L := by
  intro L
  induction L with
  | nil => intro d h; exact absurd rfl h
  | cons x L' ih =>
    intro d _
    rw [List.getLastD_cons]
    cases hL : L' with
    | nil => simp
    | cons y L2 =>
      rw [← hL]
      exact List.mem_cons_of_mem _ (ih x (by rw [hL]; simp))

theorem sorted_mem_head {k0 v0 k v : Bytes} {rest : List Entry}
    (h : ((k0, v0) :: rest).Pairwise (fun a b => bytesCompare a.1 b.1 < 0))
    (hm : (k, v) ∈ (k0, v0) :: rest) : ¬ bytesCompare k k0 < 0 := by
  rcases List.mem_cons.mp hm with he | hmem
  · injection he with h1 h2
    subst h1
    rw [bytesCompare_self]
    omega
  · have h1 : bytesCompare k0 k < 0 := (List.pairwise_cons.mp h).1 (k, v) hmem
    have h2 := bytesCompare_pos_of_neg h1
    omega

theorem sorted_mem_last : ∀ {es : List Entry} {k v : Bytes} (d : Bytes),
    es.Pairwise (fun a b => bytesCompare a.1 b.1 < 0) → (k, v) ∈ es →
    ¬ bytesCompare k ((es.map Prod.fst).getLastD d) > 0 := by
  intro es
  induction es with
  | nil => intro k v d _ hm; simp at hm
  | cons e rest ih =>
    obtain ⟨k0, v0⟩ := e
    intro k v d h hm
    rw [List.map_cons, List.getLastD_cons]
    rcases List.mem_cons.mp hm with he | hmem
    · injection he with h1 h2
      rw [h1]
      cases hr : rest with
      | nil => simp [bytesCompare_self]
      | cons r0 rest' =>
        have hmem2 : ((r0 :: rest').map Prod.fst).getLastD (k0, v0).1 ∈
            (r0 :: rest').map Prod.fst := getLastD_mem _ _ (by simp)
        obtain ⟨⟨k2, v2⟩, hk2, hk2e⟩ := List.mem_map.mp hmem2
        have h3 : bytesCompare k0 k2 < 0 :=
          (List.pairwise_cons.mp h).1 (k2, v2) (hr.symm ▸ hk2)
        rw [← hk2e]
        exact (show ¬ bytesCompare k0 k2 > 0 by omega)
    · exact ih k0 (List.pairwise_cons.mp h).2 hmem

theorem scanRecords_lookup {es : List Entry}
    (hp : es.Pairwise (fun a b => bytesCompare a.1 b.1 < 0))
    (hkeys : ∀ e ∈ es, (58 : Nat) ∉ e.1) (key : Bytes) (restLines : List Bytes)
    (hrest : scanRecords key restLines = .error .notFound) :
    scanRecords key (es.map (fun e => e.1 ++ 58 :: e.2) ++ restLines) =
      match slFind es key with
      | some v => .ok v
      | none => .error .notFound := by
  induction es with
  | nil => simpa [slFind] using hrest
  | cons e es' ih =>
    obtain ⟨k0, v0⟩ := e
    simp only [List.map_cons, List.cons_append, scanRecords]
    rw [splitN2_record (hkeys (k0, v0) (List.mem_cons_self _ _))]
    dsimp only
    by_cases he : k0 = key
    · rw [if_pos he]
      subst he
      simp [slFind, bytesCompare_self]
    · rw [if_neg he]
      by_cases hgt : bytesCompare k0 key > 0
      · rw [if_pos hgt]
        have hkey0 : bytesCompare key k0 < 0 := bytesCompare_neg_of_pos hgt
        have hnone : slFind ((k0, v0) :: es') key = none := by
          apply slFind_none_of_lt
          intro e2 he2
          rcases List.mem_cons.mp he2 with he2 | he2
          · rw [he2]
            exact hkey0
          · exact bytesCompare_lt_trans _ _ _ hkey0
              ((List.pairwise_cons.mp hp).1 e2 he2)
        rw [hnone]
      · rw [if_neg hgt]
        have hlt : bytesCompare k0 key < 0 := by
          rcases bytesCompare_vals k0 key with h | h | h
          · omega
          · exact absurd ((bytesCompare_eq_zero k0 key).mp h) he
          · omega
        have hne0 : bytesCompare key k0 ≠ 0 := by
          have := bytesCompare_pos_of_neg hlt
          omega
        rw [List.append_eq]
        rw [ih (List.pairwise_cons.mp hp).2
          (fun e2 he2 => hkeys e2 (List.mem_cons_of_mem _ he2))]
        simp only [slFind]
        rw [if_neg hne0]

theorem marker_not_prefix {k v : Bytes} (hk : SafeKey k) :
    (sBytes "--- INDEX ---").isPrefixOf (k ++ 58 :: v) = false := by
  obtain ⟨c, k', hck⟩ := List.exists_cons_of_ne_nil hk.1
  have hc : c ≠ 45 := by
    have := hk.2.1
    rw [hck] at this
    simpa using this
  rw [hck]
  show List.isPrefixOf (45 :: _) (c :: _) = false
  simp only [List.isPrefixOf, List.cons_append]
  rw [Bool.and_eq_false_iff]
  left
  simpa using fun h => hc h.symm

theorem slInsert_append_gt {es : List Entry} {k v : Bytes}
    (h : ∀ e ∈ es, bytesCompare e.1 k < 0) : slInsert es k v = es ++ [(k, v)] := by
  induction es with
  | nil => rfl
  | cons e0 rest ih =>
    obtain ⟨k0, v0⟩ := e0
    have h0 : bytesCompare k0 k < 0 := h (k0, v0) (List.mem_cons_self _ _)
    have h1 := bytesCompare_pos_of_neg h0
    simp only [slInsert]
    rw [if_neg (by omega), if_neg (by omega)]
    rw [ih (fun e he => h e (List.mem_cons_of_mem _ he))]
    rfl

theorem readAllGo_data : ∀ (es : List Entry),
    es.Pairwise (fun a b => bytesCompare a.1 b.1 < 0) →
    (∀ e ∈ es, SafeKey e.1) →
    ∀ (acc : List Entry) (tail : List Bytes),
      (∀ a ∈ acc, ∀ e ∈ es, bytesCompare a.1 e.1 < 0) →
      readAllGo acc (es.map (fun e => e.1 ++ 58 :: e.2) ++
        ([] :: sBytes "--- INDEX ---" :: tail)) = acc ++ es := by
  intro es
  induction es with
  | nil =>
    intro _ _ acc tail _
    simp only [List.map_nil, List.nil_append, List.append_nil]
    rfl
  | cons e es' ih =>
    obtain ⟨k0, v0⟩ := e
    intro hp hsafe acc tail hacc
    have hk := hsafe (k0, v0) (List.mem_cons_self _ _)
    simp only [List.map_cons, List.cons_append, readAllGo]
    rw [ marker_not_prefix hk]
    simp only [Bool.false_eq_true, if_false]
    rw [if_neg (by simp)]
    rw [splitN2_record (fun hm => (hk.2.2 58 hm).2.2.1 rfl)]
    dsimp only
    rw [slInsert_append_gt (fun a ha =>
      hacc a ha (k0, v0) (List.mem_cons_self _ _))]
    rw [List.append_eq]
    rw [ih (List.pairwise_cons.mp hp).2
      (fun e2 he2 => hsafe e2 (List.mem_cons_of_mem _ he2))
      (acc ++ [(k0, v0)]) tail
      (by
        intro a ha e2 he2
        rcases List.mem_append.mp ha with ha | ha
        · exact hacc a ha e2 (List.mem_cons_of_mem _ he2)
        · rcases List.mem_singleton.mp ha with rfl
          exact (List.pairwise_cons.mp hp).1 e2 he2)]
    rw [List.append_assoc]
    rfl

/-! ### Finalize decomposition and footer parse -/

theorem Marshal_length (bf : BloomFilter) : bf.Marshal.length = 12 + bf.bits.length := by
  simp [BloomFilter.Marshal, be32]
  omega

theorem getLast?_ne13_of_all : ∀ {t : Bytes}, (∀ b ∈ t, b ≠ 13) →
    t.getLast? ≠ some 13 := by
  intro t
  induction t with
  | nil => intro _ hc; simp at hc
  | cons a l ih =>
    intro h
    cases hl : l with
    | nil => simpa using h a (List.mem_cons_self _ _)
    | cons b l2 =>
      rw [List.getLast?_cons_cons, ← hl]
      exact ih (fun x hx => h x (List.mem_cons_of_mem _ hx))

theorem Finalize_decomp (w : SSTableWriter) :
    w.Finalize = (w.fileData ++ indexMarker ++ (w.index.map indexLine).flatten ++
      bloomMarker ++ w.bloom.Marshal) ++ writerFooter w := by
  unfold SSTableWriter.Finalize writerFooter
  simp [List.append_assoc]

theorem goLines_field {s d : Bytes} (rest : Bytes)
    (hs : ∀ b ∈ s, b ≠ 10 ∧ b ≠ 13) (hd : ∀ b ∈ d, b ≠ 10 ∧ b ≠ 13) :
    goLines (s ++ (d ++ (10 :: rest))) = (s ++ d) :: goLines rest := by
  rw [← List.append_assoc]
  exact goLines_cons_line rest
    (by
      intro hm
      rcases List.mem_append.mp hm with hm | hm
      · exact (hs 10 hm).1 rfl
      · exact (hd 10 hm).1 rfl)
    (getLast?_ne13_of_all (by
      intro b hb
      rcases List.mem_append.mp hb with hb | hb
      · exact (hs b hb).2
      · exact (hd b hb).2))

theorem decDigits_safe (n : Nat) : ∀ b ∈ decDigits n, b ≠ 10 ∧ b ≠ 13 := by
  intro b hb
  have := decDigits_digits n b hb
  omega

theorem footerLine_split (name : Bytes) (value : Bytes) (h : (58 : Nat) ∉ name) :
    splitN2 58 ((name ++ [58]) ++ value) = [name, value] := by
  rw [List.append_assoc, List.singleton_append]
  exact splitN2_record h

theorem except_ok_bind {ε α β : Type} (a : α) (f : α → Except ε β) :
    (Except.ok a >>= f) = f a := rfl

theorem parseFooter_writerFooter (io is bo bs : Nat) (minK maxK : Bytes)
    (hmin : ∀ b ∈ minK, b ≠ 10 ∧ b ≠ 13) (hmax : ∀ b ∈ maxK, b ≠ 10 ∧ b ≠ 13) :
    (goLines ((footerText io is bo bs minK maxK).drop 16)).foldlM
        footerLineStep emptyFooter =
      .ok { IndexOffset := io, IndexSize := is, BloomOffset := bo, BloomSize := bs,
            Magic := sBytes "SST1", MinKey := minK, MaxKey := maxK } := by
  have hdrop : (footerText io is bo bs minK maxK).drop 16 =
      sBytes "index_offset:" ++ (decDigits io ++ (10 ::
      (sBytes "index_size:" ++ (decDigits is ++ (10 ::
      (sBytes "bloom_offset:" ++ (decDigits bo ++ (10 ::
      (sBytes "bloom_size:" ++ (decDigits bs ++ (10 ::
      (sBytes "min_key:" ++ (minK ++ (10 ::
      (sBytes "max_key:" ++ (maxK ++ (10 ::
      (sBytes "magic:SST1" ++ [10])))))))))))))))))) := by
    unfold footerText
    simp only [List.append_assoc, footerMarker, List.cons_append, List.nil_append,
      List.singleton_append]
    rw [List.drop_append_eq_append_drop,
      show List.drop 16 (sBytes "\n--- FOOTER ---\n") = [] from by decide,
      show 16 - (sBytes "\n--- FOOTER ---\n").length = 0 from by decide,
      List.drop_zero, List.nil_append]
  rw [hdrop]
  rw [goLines_field _ (by decide) (decDigits_safe io)]
  rw [goLines_field _ (by decide) (decDigits_safe is)]
  rw [goLines_field _ (by decide) (decDigits_safe bo)]
  rw [goLines_field _ (by decide) (decDigits_safe bs)]
  rw [goLines_field _ (by decide) hmin]
  rw [goLines_field _ (by decide) hmax]
  rw [show goLines (sBytes "magic:SST1" ++ [10]) = [sBytes "magic:SST1"] from by decide]
  have e1 : footerLineStep emptyFooter (sBytes "index_offset:" ++ decDigits io) =
      .ok { emptyFooter with IndexOffset := io } := by
    unfold footerLineStep
    rw [show (sBytes "index_offset:" : Bytes) = sBytes "index_offset" ++ [58] from by decide,
      footerLine_split _ _ (by decide)]
    dsimp only
    rw [if_pos rfl, show decDigits io = decDigits io ++ [] from (List.append_nil _).symm,
      parseDec_decDigits io (Or.inl rfl)]
    rfl
  have e2 : ∀ md : FooterMetadata,
      footerLineStep md (sBytes "index_size:" ++ decDigits is) =
      .ok { md with IndexSize := is } := by
    intro md
    unfold footerLineStep
    rw [show (sBytes "index_size:" : Bytes) = sBytes "index_size" ++ [58] from by decide,
      footerLine_split _ _ (by decide)]
    dsimp only
    rw [if_neg (by decide), if_pos rfl,
      show decDigits is = decDigits is ++ [] from (List.append_nil _).symm,
      parseDec_decDigits is (Or.inl rfl)]
    rfl
  have e3 : ∀ md : FooterMetadata,
      footerLineStep md (sBytes "bloom_offset:" ++ decDigits bo) =
      .ok { md with BloomOffset := bo } := by
    intro md
    unfold footerLineStep
    rw [show (sBytes "bloom_offset:" : Bytes) = sBytes "bloom_offset" ++ [58] from by decide,
      footerLine_split _ _ (by decide)]
    dsimp only
    rw [if_neg (by decide), if_neg (by decide), if_pos rfl,
      show decDigits bo = decDigits bo ++ [] from (List.append_nil _).symm,
      parseDec_decDigits bo (Or.inl rfl)]
    rfl
  have e4 : ∀ md : FooterMetadata,
      footerLineStep md (sBytes "bloom_size:" ++ decDigits bs) =
      .ok { md with BloomSize := bs } := by
    intro md
    unfold footerLineStep
    rw [show (sBytes "bloom_size:" : Bytes) = sBytes "bloom_size" ++ [58] from by decide,
      footerLine_split _ _ (by decide)]
    dsimp only
    rw [if_neg (by decide), if_neg (by decide), if_neg (by decide), if_pos rfl,
      show decDigits bs = decDigits bs ++ [] from (List.append_nil _).symm,
      parseDec_decDigits bs (Or.inl rfl)]
    rfl
  have e5 : ∀ md : FooterMetadata,
      footerLineStep md (sBytes "min_key:" ++ minK) = .ok { md with MinKey := minK } := by
    intro md
    unfold footerLineStep
    rw [show (sBytes "min_key:" : Bytes) = sBytes "min_key" ++ [58] from by decide,
      footerLine_split _ _ (by decide)]
    dsimp only
    rw [if_neg (by decide), if_neg (by decide), if_neg (by decide), if_neg (by decide),
      if_pos rfl]
  have e6 : ∀ md : FooterMetadata,
      footerLineStep md (sBytes "max_key:" ++ maxK) = .ok { md with MaxKey := maxK } := by
    intro md
    unfold footerLineStep
    rw [show (sBytes "max_key:" : Bytes) = sBytes "max_key" ++ [58] from by decide,
      footerLine_split _ _ (by decide)]
    dsimp only
    rw [if_neg (by decide), if_neg (by decide), if_neg (by decide), if_neg (by decide),
      if_neg (by decide), if_pos rfl]
  have e7 : ∀ md : FooterMetadata,
      footerLineStep md (sBytes "magic:SST1") =
      .ok { md with Magic := sBytes "SST1" } := by
    intro md
    unfold footerLineStep
    rw [show (sBytes "magic:SST1" : Bytes) =
        (sBytes "magic" ++ [58]) ++ sBytes "SST1" from by decide,
      footerLine_split _ _ (by decide)]
    dsimp only
    rw [if_neg (by decide), if_neg (by decide), if_neg (by decide), if_neg (by decide),
      if_neg (by decide), if_neg (by decide), if_pos rfl, if_neg (by decide)]
  simp only [List.foldlM_cons, List.foldlM_nil]
  rw [e1, except_ok_bind, e2 _, except_ok_bind, e3 _, except_ok_bind, e4 _,
    except_ok_bind, e5 _, except_ok_bind, e6 _, except_ok_bind, e7 _, except_ok_bind]
  rfl

theorem splitN2_sep {sep : Nat} {k v : Bytes} (h : sep ∉ k) :
    splitN2 sep (k ++ sep :: v) = [k, v] := by
  unfold splitN2
  rw [splitOnce_append h]

theorem slice_middle {pre mid post : Bytes} {n m : Nat}
    (hn : n = pre.length) (hm : m = mid.length) :
    ((pre ++ mid ++ post).drop n).take m = mid := by
  subst hn hm
  rw [List.append_assoc, List.drop_left, List.take_left]

theorem indexMarker_length : indexMarker.length = 15 := by decide

theorem bloomMarker_length : bloomMarker.length = 15 := by decide

theorem Finalize_length (w : SSTableWriter) :
    (w.Finalize).length = w.fileData.length + 15 +
      ((w.index.map indexLine).flatten).length + 15 + w.bloom.Marshal.length +
      (writerFooter w).length := by
  have := congrArg List.length (Finalize_decomp w)
  simp only [List.length_append, indexMarker_length, bloomMarker_length] at this
  omega

theorem loadBloom_canonical {w : SSTableWriter} (hdo : w.dataOffset = w.fileData.length) :
    loadBloomRegion w.Finalize
      (w.dataOffset + 15 + ((w.index.map indexLine).flatten).length + 15)
      w.bloom.Marshal.length = .ok (UnmarshalBloomFilter w.bloom.Marshal) := by
  have hml := Marshal_length w.bloom
  unfold loadBloomRegion
  rw [if_neg (by
    rintro (h | h)
    · omega
    · omega)]
  rw [if_pos (by
    rw [Finalize_length w]
    omega)]
  have hsplit : w.Finalize = (w.fileData ++ indexMarker ++
      (w.index.map indexLine).flatten ++ bloomMarker) ++ w.bloom.Marshal ++
      writerFooter w := by
    rw [Finalize_decomp w]
  rw [hsplit, slice_middle (by
    simp only [List.length_append, indexMarker_length, bloomMarker_length]
    omega) rfl]

theorem loadIndex_canonical {w : SSTableWriter} (hdo : w.dataOffset = w.fileData.length)
    (hidx : w.index = [] ∨ ∃ e0 : IndexEntry, w.index = [e0] ∧
      ∀ b ∈ e0.Key, b ≠ 10 ∧ b ≠ 13 ∧ b ≠ 64) :
    loadIndexRegion w.Finalize (w.dataOffset + 15)
      ((w.index.map indexLine).flatten).length = .ok w.index := by
  rcases hidx with hidx | ⟨e0, he0, hkey⟩
  · rw [hidx]
    unfold loadIndexRegion
    rw [if_pos (Or.inr (by simp))]
  · rw [he0]
    have hils : (([e0] : List IndexEntry).map indexLine).flatten = indexLine e0 := by
      simp
    rw [hils]
    have hlen : (indexLine e0).length =
        e0.Key.length + 1 + (decDigits e0.Offset).length + 1 +
          (decDigits e0.Size).length + 1 := by
      simp [indexLine]
      omega
    unfold loadIndexRegion
    rw [if_neg (by
      rintro (h | h)
      · omega
      · omega)]
    rw [if_pos (by
      have := Finalize_length w
      rw [he0, hils] at this
      omega)]
    have hsplit : w.Finalize = (w.fileData ++ indexMarker) ++ indexLine e0 ++
        (bloomMarker ++ w.bloom.Marshal ++ writerFooter w) := by
      rw [Finalize_decomp w, he0, hils]
      simp [List.append_assoc]
    rw [hsplit, slice_middle (by
      simp only [List.length_append, indexMarker_length]
      omega) rfl]
    have hbody : indexLine e0 = (e0.Key ++ 64 ::
        (decDigits e0.Offset ++ 58 :: decDigits e0.Size)) ++ (10 :: []) := by
      simp [indexLine, List.append_assoc]
    rw [hbody, goLines_cons_line [] (by
        intro hm
        rcases List.mem_append.mp hm with hm | hm
        · exact (hkey 10 hm).1 rfl
        · rcases List.mem_cons.mp hm with hm | hm
          · omega
          · rcases List.mem_append.mp hm with hm | hm
            · have := decDigits_digits e0.Offset 10 hm; omega
            · rcases List.mem_cons.mp hm with hm | hm
              · omega
              · have := decDigits_digits e0.Size 10 hm; omega)
      (getLast?_ne13_of_all (by
        intro b hb
        rcases List.mem_append.mp hb with hb | hb
        · exact (hkey b hb).2.1
        · rcases List.mem_cons.mp hb with hb | hb
          · omega
          · rcases List.mem_append.mp hb with hb | hb
            · have := decDigits_digits e0.Offset b hb; omega
            · rcases List.mem_cons.mp hb with hb | hb
              · omega
              · have := decDigits_digits e0.Size b hb; omega))]
    show Except.ok ([].foldl parseIndexLine _) = _
    simp only [List.foldl_cons, List.foldl_nil]
    unfold parseIndexLine
    rw [splitN2_sep (fun hm => (hkey 64 hm).2.2 rfl)]
    dsimp only
    rw [scanOffsetSize_decDigits]
    rfl

/-- The canonical-load lemma: a finalized table whose footer fits the
256-byte tail window loads back exactly as written. -/
theorem LoadSSTable_canonical {w : SSTableWriter}
    (hdo : w.dataOffset = w.fileData.length)
    (hminb : ∀ b ∈ w.minKey, b ≠ 10 ∧ b ≠ 13)
    (hmaxb : ∀ b ∈ w.maxKey, b ≠ 10 ∧ b ≠ 13)
    (hidx : w.index = [] ∨ ∃ e0 : IndexEntry, w.index = [e0] ∧
      ∀ b ∈ e0.Key, b ≠ 10 ∧ b ≠ 13 ∧ b ≠ 64)
    (hwin : footerWindowOK w) :
    LoadSSTable w.Finalize = .ok (canonicalReader w 0) := by
  obtain ⟨hflen, hfind⟩ := hwin
  have hpf : parseFooter ((w.Finalize).drop ((w.Finalize).length - 256)) =
      .ok { IndexOffset := w.dataOffset + 15,
            IndexSize := ((w.index.map indexLine).flatten).length,
            BloomOffset := w.dataOffset + 15 +
              ((w.index.map indexLine).flatten).length + 15,
            BloomSize := w.bloom.Marshal.length,
            Magic := sBytes "SST1", MinKey := w.minKey, MaxKey := w.maxKey } := by
    unfold parseFooter
    rw [hfind]
    obtain ⟨n, hn⟩ : ∃ n, (w.Finalize).length - 256 = n := ⟨_, rfl⟩
    have hle : n ≤ (w.fileData ++ indexMarker ++ (w.index.map indexLine).flatten ++
        bloomMarker ++ w.bloom.Marshal).length := by
      rw [← hn, Finalize_length w]
      simp only [List.length_append, indexMarker_length, bloomMarker_length]
      omega
    rw [hn]
    have hw1 : (w.Finalize).drop n =
        ((w.fileData ++ indexMarker ++ (w.index.map indexLine).flatten ++
          bloomMarker ++ w.bloom.Marshal).drop n) ++ writerFooter w := by
      conv_lhs => rw [Finalize_decomp w]
      rw [List.drop_append_eq_append_drop, Nat.sub_eq_zero_of_le hle, List.drop_zero]
    rw [hw1]
    obtain ⟨w1, hw1e⟩ : ∃ w1, (w.fileData ++ indexMarker ++
        (w.index.map indexLine).flatten ++ bloomMarker ++ w.bloom.Marshal).drop n =
        w1 := ⟨_, rfl⟩
    rw [hw1e]
    rw [show (w1 ++ writerFooter w).length - (writerFooter w).length = w1.length from by
      simp only [List.length_append]
      omega]
    dsimp only
    rw [List.drop_append_eq_append_drop]
    rw [List.drop_eq_nil_of_le (show w1.length ≤ w1.length + 16 from by omega)]
    rw [show w1.length + 16 - w1.length = 16 from by omega]
    rw [List.nil_append]
    unfold writerFooter
    exact parseFooter_writerFooter _ _ _ _ _ _ hminb hmaxb
  unfold LoadSSTable
  dsimp only
  rw [hpf]
  dsimp only
  rw [loadBloom_canonical hdo]
  dsimp only
  rw [loadIndex_canonical hdo hidx]
  rfl

/-! ### Bloom marshal round trip and writer-bloom facts -/

theorem UnmarshalBloomFilter_Marshal {bf : BloomFilter}
    (h1 : bf.numBits < 4294967296) (h2 : bf.numHashes < 4294967296)
    (h3 : bf.numItems < 4294967296) :
    UnmarshalBloomFilter bf.Marshal = some bf := by
  show UnmarshalBloomFilter
    (be32 bf.numBits ++ be32 bf.numHashes ++ be32 bf.numItems ++ bf.bits) = some bf
  simp only [be32, List.cons_append, List.nil_append]
  unfold UnmarshalBloomFilter
  dsimp only
  rw [unbe32_be32 h1, unbe32_be32 h2, unbe32_be32 h3]

theorem NewBloomFilter_numBits_lt (n : Nat) : (NewBloomFilter n).numBits < 4294967296 :=
  Nat.mod_lt _ (by omega)

theorem NewBloomFilter_numHashes_lt (n : Nat) :
    (NewBloomFilter n).numHashes < 4294967296 := by
  show bloomNumHashes01 (bloomNumBits01 n) n < 4294967296
  unfold bloomNumHashes01
  by_cases hn : n = 0
  · rw [if_pos hn]; omega
  · rw [if_neg hn]
    dsimp only
    by_cases h0 : (bloomNumBits01 n * 693147181 + n * 1000000000 - 1) /
        (n * 1000000000) % 4294967296 = 0
    · rw [if_pos h0]; omega
    · rw [if_neg h0]
      exact Nat.mod_lt _ (by omega)

theorem NewBloomFilter_numHashes_pos (n : Nat) : 0 < (NewBloomFilter n).numHashes := by
  show 0 < bloomNumHashes01 (bloomNumBits01 n) n
  unfold bloomNumHashes01
  by_cases hn : n = 0
  · rw [if_pos hn]; omega
  · rw [if_neg hn]
    dsimp only
    by_cases h0 : (bloomNumBits01 n * 693147181 + n * 1000000000 - 1) /
        (n * 1000000000) % 4294967296 = 0
    · rw [if_pos h0]; omega
    · rw [if_neg h0]; omega

theorem Add_numItems_lt {bf bf2 : BloomFilter} {key : Bytes}
    (h : bf.Add key = some bf2) : bf2.numItems < 4294967296 := by
  unfold BloomFilter.Add at h
  simp only [Option.map_eq_some'] at h
  obtain ⟨b, _, hbe⟩ := h
  rw [← hbe]
  exact Nat.mod_lt _ (by omega)

theorem addAll_numItems_lt {bf bf2 : BloomFilter} {keys : List Bytes}
    (h : addAll bf keys = some bf2) (h0 : bf.numItems < 4294967296) :
    bf2.numItems < 4294967296 := by
  induction keys generalizing bf with
  | nil => cases h; exact h0
  | cons k rest ih =>
    unfold addAll at h
    simp only [List.foldlM_cons, Option.bind_eq_bind, Option.bind_eq_some'] at h
    obtain ⟨b, hb, hrest⟩ := h
    exact ih hrest (Add_numItems_lt hb)

theorem writer_bloom_roundtrip {n : Nat} {keys : List Bytes} {bf2 : BloomFilter}
    (h : addAll (NewBloomFilter n) keys = some bf2) :
    UnmarshalBloomFilter bf2.Marshal = some bf2 := by
  obtain ⟨hb, hh, _⟩ := addAll_fields h
  refine UnmarshalBloomFilter_Marshal ?_ ?_ ?_
  · rw [hb]; exact NewBloomFilter_numBits_lt n
  · rw [hh]; exact NewBloomFilter_numHashes_lt n
  · exact addAll_numItems_lt h (by
      show (0 : Nat) < 4294967296
      omega)

theorem addAll_cons_numBits_pos {n : Nat} {k : Bytes} {keys : List Bytes}
    {bf2 : BloomFilter} (h : addAll (NewBloomFilter n) (k :: keys) = some bf2) :
    0 < bf2.numBits := by
  obtain ⟨hb, _, _⟩ := addAll_fields h
  rw [hb]
  by_contra hc
  have hz : (NewBloomFilter n).numBits = 0 := by omega
  unfold addAll at h
  simp only [List.foldlM_cons, Option.bind_eq_bind, Option.bind_eq_some'] at h
  obtain ⟨b, hbx, _⟩ := h
  rw [BloomFilter.Add_none hz (NewBloomFilter_numHashes_pos n) k] at hbx
  exact absurd hbx (by simp)

theorem addAll_wf {bf bf2 : BloomFilter} {keys : List Bytes}
    (h : addAll bf keys = some bf2) (hwf : bf.bits.length = (bf.numBits + 7) / 8) :
    bf2.bits.length = (bf2.numBits + 7) / 8 := by
  obtain ⟨hb, _, hl⟩ := addAll_fields h
  rw [hb, hl, hwf]

/-! ### Single-entry sparse-index navigation -/

theorem sortSearch_one (f : Nat → Bool) : sortSearch f 0 1 = if f 0 then 0 else 1 := by
  show sortSearchGo f 2 0 1 = _
  unfold sortSearchGo
  rw [if_pos (show (0 : Nat) < 1 from by omega)]
  dsimp only
  by_cases hf : f ((0 + 1) / 2)
  · rw [if_pos hf, if_pos (show f 0 from hf)]
    rfl
  · rw [if_neg hf, if_neg (show ¬ (f 0 = true) from hf)]
    rfl

theorem getScan_one (r : SSTableReader) (e0 : IndexEntry) (key : Bytes)
    (h : r.index = [e0]) (h0 : e0.Offset = 0) :
    r.getScan key = scanRecords key (goLines (r.file.take r.indexOffset)) := by
  unfold SSTableReader.getScan
  rw [h]
  simp only [List.length_singleton]
  rw [if_neg (by omega)]
  rw [sortSearch_one]
  by_cases hf : (fun i => decide
      (bytesCompare ((([e0] : List IndexEntry).getD i default)).Key key ≥ 0)) 0
  · rw [if_pos hf]
    norm_num [h0]
  · rw [if_neg hf]
    norm_num [h0]

/-! ### Canonical reader characterization -/

theorem bytesCompare_nil_pos {k : Bytes} (h : k ≠ []) : bytesCompare k [] = 1 := by
  cases k with
  | nil => exact absurd rfl h
  | cons c rest => rfl

theorem goLines_indexMarker (R : Bytes) :
    goLines (indexMarker ++ R) = [] :: sBytes "--- INDEX ---" :: goLines R := by
  rw [show (indexMarker : Bytes) = 10 :: (sBytes "--- INDEX ---" ++ [10]) from by decide]
  rw [List.cons_append, goLines_eq]
  rw [show splitOnce 10 ((10 : Nat) :: ((sBytes "--- INDEX ---" ++ [10]) ++ R)) =
    some ([], (sBytes "--- INDEX ---" ++ [10]) ++ R) from by simp [splitOnce]]
  dsimp only
  rw [List.append_assoc, List.singleton_append]
  rw [goLines_cons_line R (by decide) (by decide)]
  rfl

theorem scanRecords_marker_tail (k : Bytes) :
    scanRecords k [[], sBytes "--- INDEX ---"] = .error .notFound := rfl

theorem canonical_ReadAll {n : Nat} {es : List Entry} {w : SSTableWriter}
    (hs : SortedSafe es) (hw : writeAll (NewSSTableWriter n) es = some w) :
    (canonicalReader w 0).ReadAllRecords = es := by
  unfold SSTableReader.ReadAllRecords
  show readAllGo [] (goLines w.Finalize) = es
  cases es with
  | nil =>
    simp only [writeAll] at hw
    injection hw with hw2
    subst hw2
    rw [Finalize_decomp]
    show readAllGo [] (goLines (([] : Bytes) ++ indexMarker ++
      ((NewSSTableWriter n).index.map indexLine).flatten ++ bloomMarker ++
      (NewSSTableWriter n).bloom.Marshal ++ writerFooter (NewSSTableWriter n))) = []
    rw [List.nil_append, List.append_assoc, List.append_assoc, List.append_assoc,
      goLines_indexMarker]
    rfl
  | cons e rest =>
    obtain ⟨k0, v0⟩ := e
    have hk0 : SafeKey k0 := (hs.2 (k0, v0) (List.mem_cons_self _ _)).1
    obtain ⟨hfd, hdo, hix, hmin, hmax, hbl⟩ := writeAll_spec hk0.1 hw
    have hfile : w.Finalize = dataRegion ((k0, v0) :: rest) ++
        (indexMarker ++ ((w.index.map indexLine).flatten ++ (bloomMarker ++
          (w.bloom.Marshal ++ writerFooter w)))) := by
      rw [Finalize_decomp, hfd]
      simp [List.append_assoc]
    rw [hfile]
    rw [goLines_data_append _ _ hs.2, goLines_indexMarker]
    exact readAllGo_data _ hs.1 (fun e he => (hs.2 e he).1) [] _ (by simp)

theorem canonical_Get {n : Nat} {es : List Entry} {w : SSTableWriter}
    (hs : SortedSafe es) (hw : writeAll (NewSSTableWriter n) es = some w)
    (k : Bytes) (hk : SafeKey k) :
    match slFind es k with
    | some v => (canonicalReader w 0).Get k = .ok v
    | none => (canonicalReader w 0).Get k = .error .outOfRange ∨
        (canonicalReader w 0).Get k = .error .notFound := by
  cases es with
  | nil =>
    simp only [writeAll] at hw
    injection hw with hw2
    subst hw2
    simp only [slFind]
    left
    unfold SSTableReader.Get
    rw [if_pos (Or.inr (by
      show bytesCompare k (NewSSTableWriter n).maxKey > 0
      rw [show (NewSSTableWriter n).maxKey = [] from rfl, bytesCompare_nil_pos hk.1]
      omega))]
  | cons e rest =>
    obtain ⟨k0, v0⟩ := e
    have hk0 : SafeKey k0 := (hs.2 (k0, v0) (List.mem_cons_self _ _)).1
    obtain ⟨hfd, hdo, hix, hmin, hmax, hbl⟩ := writeAll_spec hk0.1 hw
    have hrt : UnmarshalBloomFilter w.bloom.Marshal = some w.bloom :=
      writer_bloom_roundtrip hbl
    have hscan : (canonicalReader w 0).getScan k =
        scanRecords k (goLines ((w.Finalize).take (w.dataOffset + 15))) :=
      getScan_one _ { Key := k0, Offset := 0, Size := (recordLine k0 v0).length } _
        (by show w.index = _; rw [hix]) rfl
    have hregion : (w.Finalize).take (w.dataOffset + 15) =
        dataRegion ((k0, v0) :: rest) ++ indexMarker := by
      have hfile : w.Finalize = (dataRegion ((k0, v0) :: rest) ++ indexMarker) ++
          (((w.index.map indexLine).flatten ++ (bloomMarker ++
            (w.bloom.Marshal ++ writerFooter w)))) := by
        rw [Finalize_decomp, hfd]
        simp [List.append_assoc]
      rw [hfile]
      rw [show w.dataOffset + 15 =
          (dataRegion ((k0, v0) :: rest) ++ indexMarker).length from by
        simp only [List.length_append, indexMarker_length]
        omega]
      exact List.take_left _ _
    have hscan2 : scanRecords k (goLines (dataRegion ((k0, v0) :: rest) ++
        indexMarker)) = match slFind ((k0, v0) :: rest) k with
        | some v => .ok v
        | none => .error .notFound := by
      rw [show (indexMarker : Bytes) = indexMarker ++ [] from by simp,
        goLines_data_append _ _ hs.2, goLines_indexMarker]
      rw [show goLines [] = [] from rfl]
      exact scanRecords_lookup hs.1
        (fun e he => fun hm => ((hs.2 e he).1.2.2 58 hm).2.2.1 rfl) k _
        (scanRecords_marker_tail k)
    have hGet : (canonicalReader w 0).Get k =
        if bytesCompare k w.minKey < 0 ∨ bytesCompare k w.maxKey > 0 then
          .error .outOfRange
        else
          match w.bloom.MayContain k with
          | none => .error .panicked
          | some false => .error .notFound
          | some true => (canonicalReader w 0).getScan k := by
      unfold SSTableReader.Get
      rw [show (canonicalReader w 0).bloom = some w.bloom from hrt]
      rfl
    cases hfind : slFind ((k0, v0) :: rest) k with
    | some v =>
      have hmem : (k, v) ∈ (k0, v0) :: rest := slFind_mem hfind
      have hkeymem : k ∈ ((k0, v0) :: rest).map Prod.fst :=
        List.mem_map.mpr ⟨(k, v), hmem, rfl⟩
      have hmc : w.bloom.MayContain k = some true := mayContain_addAll hbl hkeymem
      rw [hGet]
      rw [if_neg (by
        rintro (hr | hr)
        · rw [hmin] at hr
          exact sorted_mem_head hs.1 hmem hr
        · rw [hmax] at hr
          exact sorted_mem_last [] hs.1 hmem hr)]
      rw [hmc, hscan, hregion, hscan2, hfind]
    | none =>
      by_cases hrange : bytesCompare k w.minKey < 0 ∨ bytesCompare k w.maxKey > 0
      · left
        rw [hGet, if_pos hrange]
      · have hnb : 0 < w.bloom.numBits := addAll_cons_numBits_pos hbl
        have hwf : w.bloom.bits.length = (w.bloom.numBits + 7) / 8 :=
          addAll_wf hbl (mkBloomFilter_wf _ _)
        obtain ⟨b, hb⟩ := Option.isSome_iff_exists.mp
          (BloomFilter.MayContain_isSome k hnb hwf)
        cases b with
        | false =>
          right
          rw [hGet, if_neg hrange, hb]
        | true =>
          right
          rw [hGet, if_neg hrange, hb, hscan, hregion, hscan2, hfind]

/-- Packaging: a flushed, canonically loaded table behaves as its entry
list. -/
theorem canonical_GoodSeg {n : Nat} {es : List Entry} {w : SSTableWriter}
    (hs : SortedSafe es) (hw : writeAll (NewSSTableWriter n) es = some w) :
    GoodSeg (canonicalReader w 0) es :=
  ⟨hs, fun k hk => canonical_Get hs hw k hk, canonical_ReadAll hs hw⟩

theorem slFind_of_mem_sorted {es : List Entry} {k v : Bytes}
    (hp : es.Pairwise (fun a b => bytesCompare a.1 b.1 < 0))
    (hm : (k, v) ∈ es) : slFind es k = some v := by
  induction es with
  | nil => simp at hm
  | cons e rest ih =>
    obtain ⟨k0, v0⟩ := e
    simp only [slFind]
    rcases List.mem_cons.mp hm with he | hmem
    · injection he with h1 h2
      subst h1
      subst h2
      rw [if_pos (bytesCompare_self k)]
    · have hlt : bytesCompare k0 k < 0 := (List.pairwise_cons.mp hp).1 (k, v) hmem
      have := bytesCompare_pos_of_neg hlt
      rw [if_neg (by omega)]
      exact ih (List.pairwise_cons.mp hp).2 hmem

/-- Claim C5 (amended).  The write/read round trip holds for tables of
strictly increasing *safe* keys with safe values (no `\n`, `\r`, `:`, `@`,
no leading `-`, non-empty) whose footer discovery is unambiguous
(`footerWindowOK`): the finalized bytes load back exactly as written and
every written key is findable with its exact value.  `Append` rejects
nothing: `claim_C5_counterexample` shows a key containing `:` accepted by
`Append` whose record the reader then cannot find. -/
theorem claim_C5_roundtrip {es : List Entry} {w : SSTableWriter} {n : Nat}
    (hs : SortedSafe es)
    (hw : writeAll (NewSSTableWriter n) es = some w)
    (hwin : footerWindowOK w) :
    LoadSSTable w.Finalize = .ok (canonicalReader w 0) ∧
    ∀ k v, (k, v) ∈ es → (canonicalReader w 0).Get k = .ok v := by
  constructor
  · cases es with
    | nil =>
      simp only [writeAll] at hw
      injection hw with hw2
      subst hw2
      exact LoadSSTable_canonical rfl (by simp [NewSSTableWriter])
        (by simp [NewSSTableWriter]) (Or.inl rfl) hwin
    | cons e rest =>
      obtain ⟨k0, v0⟩ := e
      have hk0 : SafeKey k0 := (hs.2 (k0, v0) (List.mem_cons_self _ _)).1
      obtain ⟨hfd, hdo, hix, hmin, hmax, hbl⟩ := writeAll_spec hk0.1 hw
      refine LoadSSTable_canonical (by rw [hdo, hfd]) ?_ ?_ ?_ hwin
      · rw [hmin]
        intro b hb
        have := hk0.2.2 b hb
        exact ⟨this.1, this.2.1⟩
      · rw [hmax]
        have hmem : ((((k0, v0) :: rest).map Prod.fst).getLastD []) ∈
            ((k0, v0) :: rest).map Prod.fst := getLastD_mem _ _ (by simp)
        obtain ⟨⟨k2, v2⟩, hk2, hk2e⟩ := List.mem_map.mp hmem
        rw [← hk2e]
        intro b hb
        have := ((hs.2 (k2, v2) hk2).1).2.2 b hb
        exact ⟨this.1, this.2.1⟩
      · refine Or.inr ⟨_, hix, ?_⟩
        intro b hb
        have := hk0.2.2 b hb
        exact ⟨this.1, this.2.1, this.2.2.2⟩
  · intro k v hm
    have hk : SafeKey k := ((hs.2 (k, v) hm)).1
    have := canonical_Get hs hw k hk
    rw [slFind_of_mem_sorted hs.1 hm] at this
    exact this

/-- Counterexample to claim C5 as stated: the key `a:b` (containing `:`)
is accepted by `Append` — nothing rejects it — the table loads back
canonically, and yet `Get` cannot find the record: the data line `a:b:1`
splits at its first colon. -/
theorem claim_C5_counterexample :
    (writeAll (NewSSTableWriter 1) [([97, 58, 98], [49])]).isSome = true ∧
    LoadSSTable (((writeAll (NewSSTableWriter 1)
      [([97, 58, 98], [49])]).getD (NewSSTableWriter 1)).Finalize) =
      .ok (canonicalReader ((writeAll (NewSSTableWriter 1)
        [([97, 58, 98], [49])]).getD (NewSSTableWriter 1)) 0) ∧
    (canonicalReader ((writeAll (NewSSTableWriter 1)
      [([97, 58, 98], [49])]).getD (NewSSTableWriter 1)) 0).Get [97, 58, 98] =
      .error .notFound := by
  refine ⟨by decide, by decide, by decide⟩

theorem claim_C5_witness :
    LoadSSTable (((writeAll (NewSSTableWriter 1) [([97], [49])]).getD
      (NewSSTableWriter 1)).Finalize) = .ok (canonicalReader ((writeAll
      (NewSSTableWriter 1) [([97], [49])]).getD (NewSSTableWriter 1)) 0) ∧
    ∀ k v, (k, v) ∈ ([([97], [49])] : List Entry) →
      (canonicalReader ((writeAll (NewSSTableWriter 1) [([97], [49])]).getD
        (NewSSTableWriter 1)) 0).Get k = .ok v :=
  @claim_C5_roundtrip [([97], [49])]
    ((writeAll (NewSSTableWriter 1) [([97], [49])]).getD (NewSSTableWriter 1)) 1
    (by decide) (by decide) (by decide)

/-! ### View algebra for the layered store -/

theorem lastAssoc_from (rs : List Entry) (k : Bytes) : ∀ (init : Option Bytes),
    rs.foldl (fun acc e => if e.1 = k then some e.2 else acc) init =
      match lastAssoc rs k with
      | some v => some v
      | none => init := by
  induction rs with
  | nil => intro init; rfl
  | cons e rest ih =>
    intro init
    simp only [List.foldl_cons]
    rw [ih]
    rw [show lastAssoc (e :: rest) k =
      rest.foldl (fun acc e => if e.1 = k then some e.2 else acc)
        (if e.1 = k then some e.2 else none) from rfl]
    rw [ih]
    cases lastAssoc rest k with
    | some v => rfl
    | none =>
      dsimp only
      by_cases he : e.1 = k
      · rw [if_pos he, if_pos he]
      · rw [if_neg he, if_neg he]

theorem lastAssoc_cons (e : Entry) (rest : List Entry) (k : Bytes) :
    lastAssoc (e :: rest) k =
      match lastAssoc rest k with
      | some v => some v
      | none => if e.1 = k then some e.2 else none := by
  rw [show lastAssoc (e :: rest) k =
    rest.foldl (fun acc e => if e.1 = k then some e.2 else acc)
      (if e.1 = k then some e.2 else none) from rfl]
  exact lastAssoc_from rest k _

theorem lastAssoc_append (A B : List Entry) (k : Bytes) :
    lastAssoc (A ++ B) k =
      match lastAssoc B k with
      | some v => some v
      | none => lastAssoc A k := by
  unfold lastAssoc
  rw [List.foldl_append]
  exact lastAssoc_from B k _

theorem lastAssoc_eq_slFind {es : List Entry}
    (h : es.Pairwise (fun a b => bytesCompare a.1 b.1 < 0)) (k : Bytes) :
    lastAssoc es k = slFind es k := by
  induction es with
  | nil => rfl
  | cons e rest ih =>
    obtain ⟨k0, v0⟩ := e
    rw [lastAssoc_cons, ih (List.pairwise_cons.mp h).2]
    simp only [slFind]
    by_cases he : bytesCompare k k0 = 0
    · have hk : k = k0 := (bytesCompare_eq_zero k k0).mp he
      rw [if_pos he]
      rw [slFind_none_of_lt (fun e2 he2 => by
        have := (List.pairwise_cons.mp h).1 e2 he2
        rw [hk]
        exact this)]
      rw [if_pos hk.symm]
    · rw [if_neg he]
      have hne : k0 ≠ k := by
        intro hc
        exact he ((bytesCompare_eq_zero k k0).mpr hc.symm)
      cases slFind rest k with
      | some v => rfl
      | none =>
        show (if (k0, v0).1 = k then some (k0, v0).2 else none) = none
        rw [if_neg hne]

theorem segsView_append (A B : List (List Entry)) (k : Bytes) :
    segsView (A ++ B) k =
      match segsView A k with
      | some v => some v
      | none => segsView B k := by
  induction A with
  | nil => rfl
  | cons es A' ih =>
    simp only [List.cons_append, segsView]
    cases slFind es k with
    | some v => rfl
    | none => exact ih

theorem lastAssoc_flatten_segsView : ∀ (css : List (List Entry)),
    (∀ es ∈ css, es.Pairwise (fun a b => bytesCompare a.1 b.1 < 0)) →
    ∀ k, lastAssoc css.flatten k = segsView css.reverse k := by
  intro css
  induction css using List.reverseRecOn with
  | nil => intro _ k; rfl
  | append_singleton C es ih =>
    intro h k
    rw [List.flatten_append]
    rw [show ([es] : List (List Entry)).flatten = es from by simp]
    rw [lastAssoc_append, lastAssoc_eq_slFind (h es (by simp)) k]
    rw [List.reverse_append]
    rw [show ([es] : List (List Entry)).reverse ++ C.reverse =
      es :: C.reverse from by simp]
    show _ = match slFind es k with
      | some v => some v
      | none => segsView C.reverse k
    cases slFind es k with
    | some v => rfl
    | none => rw [ih (fun es2 he2 => h es2 (List.mem_append_left _ he2)) k]

theorem segsGet_good : ∀ {segs : List SSTableReader} {css : List (List Entry)},
    List.Forall₂ GoodSeg segs css → ∀ k, SafeKey k →
    segsGet k segs = .ok (segsView css k) := by
  intro segs css h
  induction h with
  | nil => intro k hk; rfl
  | @cons r es segs' css' hG hF ih =>
    intro k hk
    simp only [segsGet, segsView]
    have hchar := hG.2.1 k hk
    cases hfind : slFind es k with
    | some v =>
      rw [hfind] at hchar
      rw [hchar]
    | none =>
      rw [hfind] at hchar
      rcases hchar with h1 | h1 <;> rw [h1] <;> exact ih k hk

theorem lsmGet_good : ∀ {tiers : List Tier} {tss : List (List (List Entry))},
    TiersGood tiers tss → ∀ k, SafeKey k →
    lsmGet k tiers = .ok (tiersView tss k) := by
  intro tiers tss h
  induction h with
  | nil => intro k hk; rfl
  | @cons t css tiers' tss' hG hF ih =>
    intro k hk
    simp only [lsmGet, tiersView]
    rw [segsGet_good (List.rel_reverse hG) k hk]
    cases segsView css.reverse k with
    | some v => rfl
    | none => exact ih k hk

theorem allRecords_of_good : ∀ {segs : List SSTableReader} {css : List (List Entry)},
    List.Forall₂ GoodSeg segs css → allRecords segs = css.flatten := by
  intro segs css h
  induction h with
  | nil => rfl
  | @cons r es segs' css' hG hF ih =>
    show r.ReadAllRecords ++ allRecords segs' = es ++ css'.flatten
    rw [hG.2.2, ih]

theorem good_css_sorted : ∀ {segs : List SSTableReader} {css : List (List Entry)},
    List.Forall₂ GoodSeg segs css → ∀ es ∈ css, SortedSafe es := by
  intro segs css h
  induction h with
  | nil => intro es hes; simp at hes
  | @cons r es0 segs' css' hG hF ih =>
    intro es hes
    rcases List.mem_cons.mp hes with he | he
    · subst he; exact hG.1
    · exact ih es he

theorem mergeTemp_sorted {segs : List SSTableReader} {css : List (List Entry)}
    (h : List.Forall₂ GoodSeg segs css) :
    SortedSafe (mergeTemp false segs).skiplist := by
  unfold mergeTemp
  rw [foldl_seg_flatten, mergeTemp_false_step]
  refine foldl_insertWOW_sorted _ ?_ _ (by constructor <;> simp)
  intro e he
  rw [allRecords_of_good h] at he
  obtain ⟨es, hes, hee⟩ := List.mem_flatten.mp he
  exact (good_css_sorted h es hes).2 e hee

/-- The merged table answers exactly like the newest-first search over the
input segments (its contents are the last-write-wins union). -/
theorem mergeTemp_view {segs : List SSTableReader} {css : List (List Entry)}
    (h : List.Forall₂ GoodSeg segs css) (k : Bytes) :
    slFind (mergeTemp false segs).skiplist k = segsView css.reverse k := by
  rw [mergeTemp_false_find, allRecords_of_good h,
    lastAssoc_flatten_segsView css (fun es hes => (good_css_sorted h es hes).1) k]

/-! ### Invariant preservation -/

theorem Inv_set {s : V6Store} {M : List Entry} {k v : Bytes} {s2 : V6Store}
    (hInv : Inv s M) (hk : SafeKey k) (hv : SafeVal v)
    (h : applyOp s (.setOp k v) = some s2) : Inv s2 (slInsert M k v) := by
  obtain ⟨hms, hro, himm, htiers, hMs, hview⟩ := hInv
  obtain ⟨mt2, hmt2, hro2, hsl2⟩ := @MemTable.Insert_ok s.memtable k v hro
  simp only [applyOp] at h
  rw [hmt2] at h
  injection h with h2
  subst h2
  refine ⟨?_, hro2, himm, htiers, SortedSafe_slInsert hMs hk hv, ?_⟩
  · show SortedSafe mt2.skiplist
    rw [hsl2]
    exact SortedSafe_slInsert hms hk hv
  · intro k2 hk2
    have hOld := hview k2 hk2
    show rawFind { s with memtable := mt2 } k2 = .ok (slFind (slInsert M k v) k2)
    unfold rawFind at hOld ⊢
    dsimp only
    rw [show mt2.Find k2 = slFind (slInsert s.memtable.skiplist k v) k2 from by
      unfold MemTable.Find
      rw [hsl2]]
    by_cases hkk : k2 = k
    · subst hkk
      rw [slFind_slInsert_self, slFind_slInsert_self]
    · rw [slFind_slInsert_ne _ _ _ _ hkk, slFind_slInsert_ne _ _ _ _ hkk]
      exact hOld

theorem Inv_rotate {s : V6Store} {M : List Entry} {b : Bool} {s2 : V6Store}
    (hInv : Inv s M) (h : applyOp s (.rotateOp b) = some s2) : Inv s2 M := by
  obtain ⟨hms, hro, himm, htiers, hMs, hview⟩ := hInv
  simp only [applyOp] at h
  by_cases hg : s.memtable.ShouldFlush s.maxMemSize ∧ s.immutable = none
  case neg =>
    rw [if_neg hg] at h
    exact absurd h (by simp)
  rw [if_pos hg] at h
  injection h with h2
  subst h2
  cases b with
  | true =>
    refine ⟨hms, hro, ?_, htiers, hMs, ?_⟩
    · intro m hm
      injection hm with hm2
      rw [← hm2]
      exact hms
    · intro k2 hk2
      have hOld := hview k2 hk2
      unfold rawFind at hOld ⊢
      dsimp only
      rw [hg.2] at hOld
      show (match slFind s.memtable.skiplist k2 with
        | some val => Except.ok (some val)
        | none =>
          match slFind s.memtable.skiplist k2 with
          | some val => Except.ok (some val)
          | none => lsmGet k2 s.lsm.tiers) = _
      cases hf : slFind s.memtable.skiplist k2 with
      | some v =>
        rw [show s.memtable.Find k2 = some v from hf] at hOld
        exact hOld
      | none =>
        rw [show s.memtable.Find k2 = (none : Option Bytes) from hf] at hOld
        exact hOld
  | false =>
    refine ⟨⟨by simp [emptyMemTable], by simp [emptyMemTable]⟩, rfl, ?_, htiers, hMs, ?_⟩
    · intro m hm
      injection hm with hm2
      rw [← hm2]
      exact hms
    · intro k2 hk2
      have hOld := hview k2 hk2
      unfold rawFind at hOld ⊢
      dsimp only
      rw [hg.2] at hOld
      show (match slFind ([] : List Entry) k2 with
        | some val => Except.ok (some val)
        | none =>
          match slFind s.memtable.skiplist k2 with
          | some val => Except.ok (some val)
          | none => lsmGet k2 s.lsm.tiers) = _
      rw [show slFind ([] : List Entry) k2 = none from rfl]
      cases hf : slFind s.memtable.skiplist k2 with
      | some v =>
        rw [show s.memtable.Find k2 = some v from hf] at hOld
        exact hOld
      | none =>
        rw [show s.memtable.Find k2 = (none : Option Bytes) from hf] at hOld
        exact hOld

theorem tiersView_flush (css0 : List (List Entry)) (cssRest : List (List (List Entry)))
    (es : List Entry) (k : Bytes) :
    tiersView ((css0 ++ [es]) :: cssRest) k =
      match slFind es k with
      | some v => some v
      | none => tiersView (css0 :: cssRest) k := by
  show (match segsView (css0 ++ [es]).reverse k with
    | some v => some v
    | none => tiersView cssRest k) = _
  rw [List.reverse_append, show ([es] : List (List Entry)).reverse ++ css0.reverse =
    es :: css0.reverse from by simp]
  show (match (match slFind es k with
      | some v => some v
      | none => segsView css0.reverse k) with
    | some v => some v
    | none => tiersView cssRest k) = _
  cases slFind es k with
  | some v => rfl
  | none => rfl

theorem Inv_flush {s : V6Store} {M : List Entry} {s2 : V6Store}
    (hInv : Inv s M) (h : applyOp s .flushOp = some s2) : Inv s2 M := by
  obtain ⟨hms, hro, himm, ⟨tss, htss⟩, hMs, hview⟩ := hInv
  simp only [applyOp] at h
  cases him : s.immutable with
  | none => rw [him] at h; exact absurd h (by simp)
  | some m =>
    rw [him] at h
    dsimp only at h
    cases hw : writeAll (NewSSTableWriter m.count.toNat) m.skiplist with
    | none => rw [hw] at h; exact absurd h (by simp)
    | some w =>
      rw [hw] at h
      dsimp only at h
      by_cases hload : LoadSSTable w.Finalize = .ok (canonicalReader w 0)
      case neg =>
        rw [if_neg hload] at h
        exact absurd h (by simp)
      rw [if_pos hload] at h
      simp only [LSMState.AddSSTable, LSMState.CreateSSTablePath] at h
      injection h with h2
      subst h2
      have hmsorted : SortedSafe m.skiplist := himm m him
      have hGood : GoodSeg (canonicalReader w 0) m.skiplist := canonical_GoodSeg hmsorted hw
      cases hts : s.lsm.tiers with
      | nil =>
        rw [hts] at htss
        cases htss
        simp only [hts, List.isEmpty_nil, if_true]
        dsimp only [modifyTier]
        have hTG : TiersGood [{ Level := 0, Segments :=
            ([] : List SSTableReader) ++ [canonicalReader w 0] }] [[m.skiplist]] :=
          List.Forall₂.cons (List.Forall₂.cons hGood List.Forall₂.nil) List.Forall₂.nil
        refine ⟨hms, hro, ?_, ⟨[[m.skiplist]], hTG⟩, hMs, ?_⟩
        · intro m2 hm2
          exact absurd hm2 (by simp)
        · intro k2 hk2
          have hOld := hview k2 hk2
          unfold rawFind at hOld ⊢
          dsimp only
          rw [him] at hOld
          rw [show Option.bind (some m) (fun m2 => m2.Find k2) = m.Find k2 from rfl] at hOld
          cases hf : slFind s.memtable.skiplist k2 with
          | some v =>
            rw [show s.memtable.Find k2 = some v from hf] at hOld ⊢
            exact hOld
          | none =>
            rw [show s.memtable.Find k2 = (none : Option Bytes) from hf] at hOld ⊢
            rw [hts] at hOld
            rw [lsmGet_good hTG k2 hk2]
            rw [show tiersView [[m.skiplist]] k2 = slFind m.skiplist k2 from by
              show (match (match slFind m.skiplist k2 with
                | some v => some v
                | none => (none : Option Bytes)) with
                | some v => some v
                | none => (none : Option Bytes)) = _
              cases slFind m.skiplist k2 <;> rfl]
            cases hf2 : slFind m.skiplist k2 with
            | some v =>
              rw [show m.Find k2 = some v from hf2] at hOld
              exact hOld
            | none =>
              rw [show m.Find k2 = (none : Option Bytes) from hf2] at hOld
              exact hOld
      | cons t0 rest =>
        rw [hts] at htss
        cases htss with
        | cons hG hF =>
        rename_i css0 cssRest
        simp only [hts, List.isEmpty_cons, Bool.false_eq_true, if_false]
        dsimp only [modifyTier]
        have hTG : TiersGood ({ t0 with Segments :=
            t0.Segments ++ [canonicalReader w 0] } :: rest)
            ((css0 ++ [m.skiplist]) :: cssRest) :=
          List.Forall₂.cons (List.rel_append hG
            (List.Forall₂.cons hGood List.Forall₂.nil)) hF
        refine ⟨hms, hro, ?_, ⟨(css0 ++ [m.skiplist]) :: cssRest, hTG⟩, hMs, ?_⟩
        · intro m2 hm2
          exact absurd hm2 (by simp)
        · intro k2 hk2
          have hOld := hview k2 hk2
          unfold rawFind at hOld ⊢
          dsimp only
          rw [him] at hOld
          rw [show Option.bind (some m) (fun m2 => m2.Find k2) = m.Find k2 from rfl] at hOld
          cases hf : slFind s.memtable.skiplist k2 with
          | some v =>
            rw [show s.memtable.Find k2 = some v from hf] at hOld ⊢
            exact hOld
          | none =>
            rw [show s.memtable.Find k2 = (none : Option Bytes) from hf] at hOld ⊢
            rw [hts] at hOld
            rw [lsmGet_good hTG k2 hk2, tiersView_flush]
            rw [lsmGet_good (List.Forall₂.cons hG hF) k2 hk2] at hOld
            cases hf2 : slFind m.skiplist k2 with
            | some v =>
              rw [show m.Find k2 = some v from hf2] at hOld
              exact hOld
            | none =>
              rw [show m.Find k2 = (none : Option Bytes) from hf2] at hOld
              exact hOld

/-! ### Merge cascade helpers -/

theorem removeMerged_all : ∀ {L : List SSTableReader} {ids : List Nat},
    (∀ s ∈ L, s.Id ∈ ids) → removeMerged L ids = [] := by
  intro L ids h
  unfold removeMerged
  induction L with
  | nil => rfl
  | cons s L' ih =>
    rw [List.filter_cons, if_neg (by simp [h s (List.mem_cons_self _ _)])]
    exact ih (fun s2 h2 => h s2 (List.mem_cons_of_mem _ h2))

theorem removeMerged_self (L : List SSTableReader) :
    removeMerged L (L.map SSTableReader.Id) = [] :=
  removeMerged_all (fun s hs => List.mem_map.mpr ⟨s, hs, rfl⟩)

theorem modifyTier_append : ∀ (A : List Tier) (t : Tier) (B : List Tier)
    (f : List SSTableReader → List SSTableReader),
    modifyTier (A ++ t :: B) A.length f =
      A ++ { t with Segments := f t.Segments } :: B := by
  intro A
  induction A with
  | nil => intro t B f; rfl
  | cons a A' ih =>
    intro t B f
    show modifyTier (a :: (A' ++ t :: B)) (A'.length + 1) f = _
    simp only [modifyTier]
    rw [ih]
    rfl

theorem getD_middle : ∀ (A : List Tier) (x : Tier) (B : List Tier) (d : Tier),
    (A ++ x :: B).getD A.length d = x := by
  intro A
  induction A with
  | nil => intro x B d; rfl
  | cons a A' ih =>
    intro x B d
    show (a :: (A' ++ x :: B)).getD (A'.length + 1) d = x
    simp only [List.getD_cons_succ]
    exact ih x B d

theorem ensureTiersGo_done : ∀ (fuel : Nat) (X : List Tier) (target : Nat),
    target < X.length → ensureTiersGo fuel X target = X := by
  intro fuel X target h
  cases fuel with
  | zero => rfl
  | succ n =>
    simp only [ensureTiersGo]
    rw [if_neg (by omega)]

theorem ensureTiers_gt {tiers : List Tier} {target : Nat}
    (h : target < tiers.length) : ensureTiers tiers target = tiers :=
  ensureTiersGo_done _ _ _ h

theorem ensureTiers_eq {tiers : List Tier} {target : Nat}
    (h : tiers.length = target) :
    ensureTiers tiers target = tiers ++ [{ Level := tiers.length, Segments := [] }] := by
  unfold ensureTiers
  show ensureTiersGo (target + 1) tiers target = _
  simp only [ensureTiersGo]
  rw [if_pos (by omega)]
  exact ensureTiersGo_done _ _ _ (by simp; omega)

theorem tiersView_append (A B : List (List (List Entry))) (k : Bytes) :
    tiersView (A ++ B) k =
      match tiersView A k with
      | some v => some v
      | none => tiersView B k := by
  induction A with
  | nil => rfl
  | cons css A' ih =>
    simp only [List.cons_append, tiersView]
    cases segsView css.reverse k with
    | some v => rfl
    | none => exact ih

theorem tiersView_pad : ∀ (tss : List (List (List Entry))) (k : Bytes),
    tiersView (tss ++ [[]]) k = tiersView tss k := by
  intro tss k
  rw [tiersView_append]
  cases tiersView tss k with
  | some v => rfl
  | none => rfl

/-- One cascade step at the contents level: emptying the source tier and
appending the merged table (whose lookup equals the newest-first search of
the source contents) to the target tier preserves the layered view. -/
theorem tiersView_merge_mid (cssL : List (List Entry)) (cssT : List (List Entry))
    (tssB2 : List (List (List Entry))) (tempES : List Entry) (k : Bytes)
    (htemp : slFind tempES k = segsView cssL.reverse k) :
    tiersView ([] :: (cssT ++ [tempES]) :: tssB2) k =
      tiersView (cssL :: cssT :: tssB2) k := by
  show (match segsView ([] : List (List Entry)).reverse k with
    | some v => some v
    | none => tiersView ((cssT ++ [tempES]) :: tssB2) k) = _
  rw [show segsView ([] : List (List Entry)).reverse k = none from rfl]
  show tiersView ((cssT ++ [tempES]) :: tssB2) k = _
  show (match segsView (cssT ++ [tempES]).reverse k with
    | some v => some v
    | none => tiersView tssB2 k) = _
  rw [List.reverse_append, show ([tempES] : List (List Entry)).reverse ++ cssT.reverse =
    tempES :: cssT.reverse from by simp]
  show (match (match slFind tempES k with
      | some v => some v
      | none => segsView cssT.reverse k) with
    | some v => some v
    | none => tiersView tssB2 k) = _
  rw [htemp]
  show _ = match segsView cssL.reverse k with
    | some v => some v
    | none => match segsView cssT.reverse k with
      | some v => some v
      | none => tiersView tssB2 k
  cases segsView cssL.reverse k with
  | some v => rfl
  | none =>
    cases segsView cssT.reverse k with
    | some v => rfl
    | none => rfl

theorem ensure_target {TA : List Tier} {tL : Tier} {TB : List Tier} {level : Nat}
    {tssB : List (List (List Entry))}
    (hlen : TA.length = level) (hTB : TiersGood TB tssB) :
    ∃ tT TB2 cssT tssB2,
      ensureTiers (TA ++ tL :: TB) (level + 1) = TA ++ tL :: tT :: TB2 ∧
      List.Forall₂ GoodSeg tT.Segments cssT ∧
      TiersGood TB2 tssB2 ∧
      ∀ (X : List (List (List Entry))) (Y : List (List Entry)) (k : Bytes),
        tiersView (X ++ Y :: cssT :: tssB2) k = tiersView (X ++ Y :: tssB) k := by
  cases TB with
  | nil =>
    cases hTB
    refine ⟨{ Level := (TA ++ tL :: []).length, Segments := [] }, [], [], [],
      ?_, List.Forall₂.nil, List.Forall₂.nil, ?_⟩
    · rw [ensureTiers_eq (by simp [hlen])]
      simp
    · intro X Y k
      rw [show X ++ Y :: ([] : List (List Entry)) ::
          ([] : List (List (List Entry))) = (X ++ [Y]) ++ [[]] from by simp]
      rw [tiersView_pad]
  | cons tT TB2 =>
    cases hTB with
    | cons hgT hTB2 =>
      rename_i cssT tssB2
      exact ⟨tT, TB2, cssT, tssB2,
        ensureTiers_gt (by
          simp only [List.length_append, List.length_cons]
          omega), hgT, hTB2, fun X Y k => rfl⟩

/-- The cascade preserves tier well-formedness and the layered view: if the
merge worker's cycle starts on the contents of a tier positioned below
`MAX_LEVEL` and every intermediate output loads back canonically, the
resulting tiers realize some table of contents whose layered lookup is
unchanged. -/
theorem runMergeCycle_good : ∀ (fuel : Nat) (st : LSMState) (level : Nat)
    (segs : List SSTableReader) (stOut : LSMState) (dels : List SSTableReader)
    (TA : List Tier) (tL : Tier) (TB : List Tier)
    (tssA tssB : List (List (List Entry))) (cssL : List (List Entry)),
    st.tiers = TA ++ tL :: TB → TA.length = level → level < MAX_LEVEL →
    tL.Segments = segs →
    TiersGood TA tssA → List.Forall₂ GoodSeg segs cssL → TiersGood TB tssB →
    cascadeCanonB fuel st level segs = true →
    runMergeCycle fuel st level segs = .ok (stOut, dels) →
    ∃ tss2, TiersGood stOut.tiers tss2 ∧
      ∀ k, SafeKey k → tiersView tss2 k = tiersView (tssA ++ cssL :: tssB) k := by
  intro fuel
  induction fuel with
  | zero =>
    intro st level segs stOut dels TA tL TB tssA tssB cssL _ _ _ _ _ _ _ _ hrun
    exact absurd hrun (by simp [runMergeCycle])
  | succ n ih =>
    intro st level segs stOut dels TA tL TB tssA tssB cssL
      htiers hlen hlt hsegs hgA hgL hgB hguard hrun
    by_cases hemp : segs = []
    · subst hemp
      simp [runMergeCycle, performMerge] at hrun
    · have hempF : segs.isEmpty = false := by
        cases segs with
        | nil => exact absurd rfl hemp
        | cons a l => rfl
      have hdec : decide (MAX_LEVEL ≤ level) = false := by
        rw [decide_eq_false_iff_not]; omega
      have hmax : ¬ MAX_LEVEL ≤ level := by omega
      simp only [runMergeCycle, performMerge, LSMState.CreateSSTablePath,
        MemTable.Flush] at hrun
      simp only [cascadeCanonB, LSMState.CreateSSTablePath] at hguard
      rw [if_neg (show ¬ segs.isEmpty = true from by simp [hempF])] at hrun
      rw [if_neg (show ¬ segs.isEmpty = true from by simp [hempF])] at hguard
      rw [hdec] at hrun hguard
      cases hw : writeAll (NewSSTableWriter (mergeTemp false segs).count.toNat)
          (mergeTemp false segs).skiplist with
      | none =>
        rw [hw] at hrun
        simp at hrun
      | some w =>
        rw [hw] at hrun hguard
        dsimp only at hguard
        rw [show Option.map SSTableWriter.Finalize (some w) = some w.Finalize from rfl] at hrun
        dsimp only at hrun
        by_cases hcan : LoadSSTable w.Finalize = Except.ok (canonicalReader w 0)
        case neg =>
          rw [if_neg hcan] at hguard
          exact absurd hguard (by simp)
        rw [if_pos hcan] at hguard
        rw [hcan] at hrun
        dsimp only at hrun
        rw [if_neg hmax] at hrun hguard
        rw [htiers] at hrun hguard
        obtain ⟨tT, TB2, cssT, tssB2, hens, hgT, hTB2, hpadview⟩ := ensure_target hlen hgB
        rw [hens] at hrun hguard
        rw [← hlen] at hrun hguard
        obtain ⟨nS, hnS⟩ : ∃ x : SSTableReader,
            ({ canonicalReader w 0 with Id := st.nextEntryID } : SSTableReader) = x := ⟨_, rfl⟩
        rw [hnS] at hrun hguard
        rw [if_pos (show TA.length < (TA ++ tL :: tT :: TB2).length from by
          simp only [List.length_append, List.length_cons]; omega)] at hrun hguard
        rw [modifyTier_append TA tL (tT :: TB2)] at hrun hguard
        rw [show removeMerged tL.Segments (segs.map SSTableReader.Id)
            = ([] : List SSTableReader) from by rw [hsegs]; exact removeMerged_self segs]
          at hrun hguard
        rw [show TA ++ ({ tL with Segments := ([] : List SSTableReader) } : Tier) :: tT :: TB2
            = (TA ++ [({ tL with Segments := ([] : List SSTableReader) } : Tier)]) ++ tT :: TB2
          from by simp] at hrun hguard
        rw [show TA.length + 1
            = (TA ++ [({ tL with Segments := ([] : List SSTableReader) } : Tier)]).length
          from by simp] at hrun hguard
        rw [modifyTier_append] at hrun hguard
        rw [getD_middle] at hrun hguard
        dsimp only at hrun hguard
        obtain ⟨ST3, hST3⟩ : ∃ x : LSMState,
            ({ tiers := (TA ++ [({ tL with Segments := ([] : List SSTableReader) } : Tier)]) ++
                ({ tT with Segments := tT.Segments ++ [nS] } : Tier) :: TB2,
               nextEntryID := st.nextEntryID + 1 } : LSMState) = x := ⟨_, rfl⟩
        rw [hST3] at hrun hguard
        have hGoodNew : GoodSeg nS (mergeTemp false segs).skiplist := by
          rw [← hnS]
          exact canonical_GoodSeg (mergeTemp_sorted hgL) hw
        have hgL2 : List.Forall₂ GoodSeg (tT.Segments ++ [nS])
            (cssT ++ [(mergeTemp false segs).skiplist]) :=
          List.rel_append hgT (List.Forall₂.cons hGoodNew List.Forall₂.nil)
        have hgA2 : TiersGood (TA ++ [({ tL with Segments := ([] : List SSTableReader) } : Tier)])
            (tssA ++ [[]]) :=
          List.rel_append hgA (List.Forall₂.cons List.Forall₂.nil List.Forall₂.nil)
        have hTG2 : TiersGood ST3.tiers
            ((tssA ++ [[]]) ++ (cssT ++ [(mergeTemp false segs).skiplist]) :: tssB2) := by
          rw [← hST3]
          exact List.rel_append hgA2 (List.Forall₂.cons hgL2 hTB2)
        have hviewstep : ∀ k : Bytes,
            tiersView ((tssA ++ [[]]) ++ (cssT ++ [(mergeTemp false segs).skiplist]) :: tssB2) k
            = tiersView (tssA ++ cssL :: tssB) k := by
          intro k
          rw [show (tssA ++ [[]]) ++ (cssT ++ [(mergeTemp false segs).skiplist]) :: tssB2
              = tssA ++ ([] : List (List Entry)) ::
                  (cssT ++ [(mergeTemp false segs).skiplist]) :: tssB2 from by simp]
          rw [tiersView_append, tiersView_append]
          cases tiersView tssA k with
          | some v => rfl
          | none =>
            rw [tiersView_merge_mid cssL cssT tssB2 _ k (mergeTemp_view hgL k)]
            have h2 := hpadview [] cssL k
            simp only [List.nil_append] at h2
            exact h2
        by_cases hth : mergeThreshold ≤ (tT.Segments ++ [nS]).length
        case neg =>
          rw [if_neg hth] at hrun
          dsimp only at hrun
          injection hrun with h1
          injection h1 with hA hB
          subst hA
          exact ⟨(tssA ++ [[]]) ++ (cssT ++ [(mergeTemp false segs).skiplist]) :: tssB2,
            hTG2, fun k hk => hviewstep k⟩
        rw [if_pos hth] at hrun hguard
        dsimp only at hrun hguard
        by_cases hlt2 :
            (TA ++ [({ tL with Segments := ([] : List SSTableReader) } : Tier)]).length < MAX_LEVEL
        case neg =>
          rw [if_neg hlt2] at hrun
          injection hrun with h1
          injection h1 with hA hB
          subst hA
          exact ⟨(tssA ++ [[]]) ++ (cssT ++ [(mergeTemp false segs).skiplist]) :: tssB2,
            hTG2, fun k hk => hviewstep k⟩
        rw [if_pos hlt2] at hrun hguard
        cases hrec : runMergeCycle n ST3
            (TA ++ [({ tL with Segments := ([] : List SSTableReader) } : Tier)]).length
            (tT.Segments ++ [nS]) with
        | error e =>
          rw [hrec] at hrun
          exact absurd hrun (by simp)
        | ok pr =>
          obtain ⟨st4, dels2⟩ := pr
          rw [hrec] at hrun
          dsimp only at hrun
          injection hrun with h1
          injection h1 with hA hB
          subst hA
          obtain ⟨tss4, hg4, hv4⟩ := ih ST3
            (TA ++ [({ tL with Segments := ([] : List SSTableReader) } : Tier)]).length
            (tT.Segments ++ [nS]) st4 dels2
            (TA ++ [({ tL with Segments := ([] : List SSTableReader) } : Tier)])
            ({ tT with Segments := tT.Segments ++ [nS] } : Tier) TB2
            (tssA ++ [[]]) tssB2 (cssT ++ [(mergeTemp false segs).skiplist])
            (by rw [← hST3]) rfl hlt2 rfl hgA2 hgL2 hTB2 hguard hrec
          exact ⟨tss4, hg4, fun k hk => (hv4 k hk).trans (hviewstep k)⟩

theorem Inv_merge {s : V6Store} {M : List Entry} {s2 : V6Store}
    (hInv : Inv s M) (h : applyOp s .mergeOp = some s2) : Inv s2 M := by
  obtain ⟨hms, hro, himm, ⟨tss, htss⟩, hMs, hview⟩ := hInv
  simp only [applyOp] at h
  cases hts : s.lsm.tiers with
  | nil => rw [hts] at h; exact absurd h (by simp)
  | cons t0 rest =>
    rw [hts] at h
    dsimp only at h
    by_cases hg : mergeThreshold ≤ t0.Segments.length ∧
        cascadeCanonB (MAX_LEVEL + 2) s.lsm 0 t0.Segments = true
    case neg =>
      rw [if_neg hg] at h
      exact absurd h (by simp)
    rw [if_pos hg] at h
    cases hrun : runMergeCycle (MAX_LEVEL + 2) s.lsm 0 t0.Segments with
    | error e => rw [hrun] at h; exact absurd h (by simp)
    | ok pr =>
      obtain ⟨st2, dels⟩ := pr
      rw [hrun] at h
      dsimp only at h
      injection h with h2
      subst h2
      rw [hts] at htss
      cases htss with
      | cons hG hF =>
      rename_i css0 tssRest
      obtain ⟨tss2, hTG2, hview2⟩ := runMergeCycle_good (MAX_LEVEL + 2) s.lsm 0
        t0.Segments st2 dels [] t0 rest [] tssRest css0
        hts rfl (by decide) rfl List.Forall₂.nil hG hF hg.2 hrun
      have hv2 : ∀ k, SafeKey k → tiersView tss2 k = tiersView (css0 :: tssRest) k := by
        intro k hk
        have h3 := hview2 k hk
        simp only [List.nil_append] at h3
        exact h3
      refine ⟨hms, hro, himm, ⟨tss2, hTG2⟩, hMs, ?_⟩
      intro k2 hk2
      have hOld := hview k2 hk2
      unfold rawFind at hOld ⊢
      dsimp only
      cases hf : slFind s.memtable.skiplist k2 with
      | some v =>
        rw [show s.memtable.Find k2 = some v from hf] at hOld ⊢
        exact hOld
      | none =>
        rw [show s.memtable.Find k2 = (none : Option Bytes) from hf] at hOld ⊢
        cases hi : s.immutable.bind (fun m => m.Find k2) with
        | some v =>
          rw [hi] at hOld
          exact hOld
        | none =>
          rw [hi] at hOld
          rw [lsmGet_good hTG2 k2 hk2, hv2 k2 hk2]
          rw [hts] at hOld
          rw [lsmGet_good (List.Forall₂.cons hG hF) k2 hk2] at hOld
          exact hOld

theorem Inv_init : Inv NewV6Store [] := by
  refine ⟨by decide, rfl, ?_, ⟨[], List.Forall₂.nil⟩, by decide, ?_⟩
  · intro m hm
    exact absurd hm (by simp [NewV6Store])
  · intro k hk
    rfl

theorem Inv_run : ∀ (ops : List StoreOp) (s : V6Store) (M : List Entry) (s2 : V6Store),
    Inv s M → (∀ op ∈ ops, opSafe op) → runOps s ops = some s2 →
    Inv s2 (runView M ops) := by
  intro ops
  induction ops with
  | nil =>
    intro s M s2 hInv _ h
    injection h with h2
    subst h2
    exact hInv
  | cons op rest ih =>
    intro s M s2 hInv hsafe hrun
    simp only [runOps] at hrun
    cases hap : applyOp s op with
    | none => rw [hap] at hrun; exact absurd hrun (by simp)
    | some s1 =>
      rw [hap] at hrun
      dsimp only at hrun
      have h1 : Inv s1 (applyView M op) := by
        cases op with
        | setOp k v =>
          have hs := hsafe _ (List.mem_cons_self _ _)
          exact Inv_set hInv hs.1 hs.2 hap
        | rotateOp b => exact Inv_rotate hInv hap
        | flushOp => exact Inv_flush hInv hap
        | mergeOp => exact Inv_merge hInv hap
      exact ih s1 (applyView M op) s2 h1
        (fun op2 h2 => hsafe op2 (List.mem_cons_of_mem _ h2)) hrun

theorem lastWrite_from : ∀ (ops : List StoreOp) (a : Option Bytes) (k : Bytes),
    ops.foldl
      (fun acc op =>
        match op with
        | .setOp k2 v => if k2 = k then some v else acc
        | _ => acc) a =
    match lastWrite ops k with
    | some v => some v
    | none => a := by
  intro ops
  induction ops with
  | nil => intro a k; rfl
  | cons op rest ih =>
    intro a k
    rw [List.foldl_cons, ih]
    show _ = match (op :: rest).foldl _ none with
      | some v => some v
      | none => a
    rw [List.foldl_cons, ih]
    cases hrw : lastWrite rest k with
    | some v => rfl
    | none =>
      cases op with
      | setOp k2 v =>
        dsimp only
        by_cases hk2 : k2 = k
        · rw [if_pos hk2, if_pos hk2]
        · rw [if_neg hk2, if_neg hk2]
      | rotateOp b => rfl
      | flushOp => rfl
      | mergeOp => rfl

theorem runView_lastWrite : ∀ (ops : List StoreOp) (M : List Entry) (k : Bytes),
    slFind (runView M ops) k =
      match lastWrite ops k with
      | some v => some v
      | none => slFind M k := by
  intro ops
  induction ops with
  | nil => intro M k; rfl
  | cons op rest ih =>
    intro M k
    rw [show runView M (op :: rest) = runView (applyView M op) rest from rfl, ih]
    have hR : lastWrite (op :: rest) k =
        match lastWrite rest k with
        | some v => some v
        | none =>
          match op with
          | .setOp k2 v => if k2 = k then some v else none
          | _ => none := by
      show (op :: rest).foldl _ none = _
      rw [List.foldl_cons]
      exact lastWrite_from rest _ k
    rw [hR]
    cases hrw : lastWrite rest k with
    | some v => rfl
    | none =>
      cases op with
      | setOp k2 v =>
        dsimp only [applyView]
        by_cases hk2 : k2 = k
        · subst hk2
          rw [if_pos rfl, slFind_slInsert_self]
        · rw [if_neg hk2, slFind_slInsert_ne M k2 v k (fun h2 => hk2 h2.symm)]
      | rotateOp b => rfl
      | flushOp => rfl
      | mergeOp => rfl

theorem Get_rawFind (s : V6Store) (k : Bytes) :
    s.Get k =
      match rawFind s k with
      | .ok (some v) => tombstoneFilter v
      | .ok none => .error .notFound
      | .error e => .error e := by
  unfold V6Store.Get rawFind
  cases s.memtable.Find k with
  | some v => rfl
  | none =>
    cases s.immutable.bind (fun m => m.Find k) with
    | some v => rfl
    | none =>
      cases lsmGet k s.lsm.tiers with
      | error e => rfl
      | ok o =>
        cases o with
        | some v => rfl
        | none => rfl

theorem store_run_spec {ops : List StoreOp} {s2 : V6Store}
    (hsafe : ∀ op ∈ ops, opSafe op)
    (hrun : runOps NewV6Store ops = some s2)
    (k : Bytes) (hk : SafeKey k) :
    s2.Get k =
      match lastWrite ops k with
      | some v => tombstoneFilter v
      | none => .error .notFound := by
  obtain ⟨h1, h2, h3, h4, h5, hview⟩ := Inv_run ops NewV6Store [] s2 Inv_init hsafe hrun
  have hvk := hview k hk
  rw [Get_rawFind, hvk, runView_lastWrite ops [] k]
  cases lastWrite ops k with
  | some v => rfl
  | none => rfl

theorem lastWrite_cons (op : StoreOp) (rest : List StoreOp) (k : Bytes) :
    lastWrite (op :: rest) k =
      match lastWrite rest k with
      | some v => some v
      | none =>
        match op with
        | .setOp k2 v => if k2 = k then some v else none
        | _ => none := by
  show (op :: rest).foldl _ none = _
  rw [List.foldl_cons]
  exact lastWrite_from rest _ k

theorem lastWrite_append (A B : List StoreOp) (k : Bytes) :
    lastWrite (A ++ B) k =
      match lastWrite B k with
      | some v => some v
      | none => lastWrite A k := by
  show (A ++ B).foldl _ none = _
  rw [List.foldl_append]
  exact lastWrite_from B _ k

theorem lastWrite_none : ∀ (ops : List StoreOp) (k : Bytes),
    (∀ op ∈ ops, writesKey k op = false) → lastWrite ops k = none := by
  intro ops
  induction ops with
  | nil => intro k h; rfl
  | cons op rest ih =>
    intro k h
    rw [lastWrite_cons, ih k (fun op2 h2 => h op2 (List.mem_cons_of_mem _ h2))]
    cases op with
    | setOp k2 v =>
      have h2 := h _ (List.mem_cons_self _ _)
      simp only [writesKey] at h2
      dsimp only
      rw [if_neg (of_decide_eq_false h2)]
    | rotateOp b => rfl
    | flushOp => rfl
    | mergeOp => rfl

/-- Claim C1 (amended).  Read-your-writes at the store facade, for safe
keys, safe values, and values other than the tombstone literal: after a
successful `Set(k, v)` with no later `Set`/`Delete` on `k`, `Get k`
returns `v`, whatever rotations, flushes, or merges the machine
interleaves before or after the write.  For `v = "null"` the claim fails:
see `claim_C1_counterexample`. -/
theorem claim_C1_read_your_writes {ops1 ops2 : List StoreOp} {k v : Bytes} {s2 : V6Store}
    (hk : SafeKey k) (hv : SafeVal v) (hnt : v ≠ TOMBSTONE_VALUE)
    (hsafe : ∀ op ∈ ops1 ++ StoreOp.setOp k v :: ops2, opSafe op)
    (hnw : ∀ op ∈ ops2, writesKey k op = false)
    (hrun : runOps NewV6Store (ops1 ++ StoreOp.setOp k v :: ops2) = some s2) :
    s2.Get k = .ok v := by
  have hlast : lastWrite (ops1 ++ StoreOp.setOp k v :: ops2) k = some v := by
    rw [lastWrite_append, lastWrite_cons, lastWrite_none ops2 k hnw]
    dsimp only
    rw [if_pos rfl]
  rw [store_run_spec hsafe hrun k hk, hlast]
  show tombstoneFilter v = .ok v
  unfold tombstoneFilter
  rw [if_neg hnt]

/-- Counterexample to claim C1 as stated ("for every value v"): a
successful `Set(k, "null")` is followed by `Get k = KeyNotFound`, not
`Ok "null"` — the write forged a tombstone. -/
theorem claim_C1_counterexample :
    (runOps NewV6Store [StoreOp.setOp [107] TOMBSTONE_VALUE]).isSome = true ∧
    SafeKey [107] ∧ SafeVal TOMBSTONE_VALUE ∧
    ((runOps NewV6Store [StoreOp.setOp [107] TOMBSTONE_VALUE]).getD NewV6Store).Get [107]
      = .error .notFound := by
  refine ⟨by decide, by decide, by decide, by decide⟩

theorem claim_C1_witness :
    ((runOps NewV6Store [StoreOp.setOp [107] [49]]).getD NewV6Store).Get [107] = .ok [49] :=
  @claim_C1_read_your_writes [] [] [107] [49]
    ((runOps NewV6Store [StoreOp.setOp [107] [49]]).getD NewV6Store)
    (by decide) (by decide) (by decide) (by decide) (by decide) (by decide)

/-- Claim C9.  The tombstone is forgeable through the public interface:
the tombstone literal is the 4-byte string `"null"`; `Delete k` is
exactly `Set k "null"`; and after any safe operation sequence ending in
`Set k "null"`, `Get k` returns `KeyNotFound` — so no caller can store
and retrieve the value `"null"`. -/
theorem claim_C9_tombstone_forgeable :
    TOMBSTONE_VALUE = sBytes "null" ∧
    (∀ k, deleteOp k = StoreOp.setOp k TOMBSTONE_VALUE) ∧
    ∀ (ops : List StoreOp) (k : Bytes) (s2 : V6Store),
      SafeKey k →
      (∀ op ∈ ops ++ [StoreOp.setOp k TOMBSTONE_VALUE], opSafe op) →
      runOps NewV6Store (ops ++ [StoreOp.setOp k TOMBSTONE_VALUE]) = some s2 →
      s2.Get k = .error .notFound := by
  refine ⟨rfl, fun k => rfl, ?_⟩
  intro ops k s2 hk hsafe hrun
  have hlast : lastWrite (ops ++ [StoreOp.setOp k TOMBSTONE_VALUE]) k
      = some TOMBSTONE_VALUE := by
    rw [lastWrite_append, lastWrite_cons,
      show lastWrite [] k = none from rfl]
    dsimp only
    rw [if_pos rfl]
  rw [store_run_spec hsafe hrun k hk, hlast]
  show tombstoneFilter TOMBSTONE_VALUE = .error .notFound
  decide

theorem claim_C9_witness :
    ((runOps NewV6Store [StoreOp.setOp [107] TOMBSTONE_VALUE]).getD NewV6Store).Get [107]
      = .error .notFound :=
  claim_C9_tombstone_forgeable.2.2 [] [107]
    ((runOps NewV6Store [StoreOp.setOp [107] TOMBSTONE_VALUE]).getD NewV6Store)
    (by decide) (by decide) (by decide)

/-- Counterexample to claim C3 as stated: a concrete level-0 merge cycle
that cascades until a `MAX_LEVEL` segment is produced, whose surviving
`MAX_LEVEL` table still contains a tombstone record. -/
theorem claim_C3_counterexample :
    ∃ st2 dels,
      runMergeCycle (MAX_LEVEL + 2) C3st 0 [C3seg 0, C3seg 1, C3seg 2, C3seg 3]
          = .ok (st2, dels) ∧
      MAX_LEVEL < st2.tiers.length ∧
      (st2.tiers.getD MAX_LEVEL ⟨0, []⟩).Segments.length = 1 ∧
      (([107], TOMBSTONE_VALUE) ∈
        ((st2.tiers.getD MAX_LEVEL ⟨0, []⟩).Segments.getD 0 (C3seg 0)).ReadAllRecords) := by
  refine ⟨_, _, rfl, by decide, by decide, by decide⟩

end KV
